import Mathlib

/-!
# zpacker: a shallow embedding of `zpacker.hpp`

The development follows the header file top to bottom: the category enumeration and the
classifier `get_data_type`, the two headers, the checksum strategies, the byte readers and
writers, the size estimator, the encoder `serialize_object`, the decoder `deserialize_object`
and the envelope functions `serialize` / `deserialize`.

Conventions of the embedding.

* A byte is a natural number below 256; a buffer is a `List Nat`.
* Fixed-width unsigned machine integers are natural numbers reduced modulo `2 ^ width`
  wherever the C++ code truncates. `std::size_t` is 64 bits wide.
* The host is little-endian (the format is host-endian; the scenarios of the test driver
  are little-endian).
* A C++ type the library can be instantiated with is a term of `Ty`; a value is a term of
  `Val`, and `has_type` relates the two.
* A trivially copyable value is represented by its object representation (`Val.raw`), which
  is what `write<_Vty>` copies and `read<_Vty>` reinterprets.
* A call without defined behaviour (an out-of-range table index, an out-of-bounds read) or
  without an instantiation (a `static_assert` that fires) has the result `none`.
-/

namespace zeus

/-! ## Machine integers and object representations -/

/-- Subtraction of two `std::size_t` values (64-bit, wrapping). -/
def size_t_sub (a b : Nat) : Nat :=
  if b ≤ a then a - b else a + 18446744073709551616 - b

/-- The object representation of an unsigned integer of `w` bytes on the little-endian host. -/
def to_bytes : Nat → Nat → List Nat
  | 0, _ => []
  | w + 1, n => n % 256 :: to_bytes w (n / 256)

/-- The unsigned integer whose little-endian object representation is the given bytes. -/
def from_bytes : List Nat → Nat
  | [] => 0
  | b :: bs => b + 256 * from_bytes bs

/-- Every element of the list is a byte. -/
def all_bytes (bs : List Nat) : Bool :=
  bs.all (fun b => decide (b < 256))

/-- The first `n` consecutive pieces of `w` bytes each. -/
def chunks (w : Nat) : Nat → List Nat → List (List Nat)
  | 0, _ => []
  | n + 1, bs => bs.take w :: chunks w n (bs.drop w)

/-! ## Versions -/

def VERSION_MAJOR : Nat := 0x0
def VERSION_MINOR : Nat := 0x1

/-- The function `make_version`: `major << 4 | minor`, returned as `std::uint16_t`. -/
def make_version (major minor : Nat) : Nat :=
  ((major <<< 4) ||| minor) % 65536

def VERSION : Nat := make_version VERSION_MAJOR VERSION_MINOR

/-! ## Categories and the classifier -/

/-! The enumeration `data_type`. A header nibble converted by `static_cast<data_type>` can
hold any value in `0..15`, so a category is a natural number and the enumerators are
constants. -/

def d_empty : Nat := 0
def d_byte8 : Nat := 1
def d_byte16 : Nat := 2
def d_byte32 : Nat := 3
def d_byte64 : Nat := 4
def d_float32 : Nat := 5
def d_float64 : Nat := 6
def d_pod : Nat := 7
def d_pair : Nat := 8
def d_variant : Nat := 9
def d_tuple : Nat := 10
def d_seq_container : Nat := 11
def d_aso_container : Nat := 12
def d_custom : Nat := 13

/-- The sized standard containers with `push_back`: `is_sequence_container_v` holds. -/
inductive seq_kind
  | vector
  | list
  | deque
  | basic_string
  deriving DecidableEq, Repr

/-- The C++ types the library is instantiated with.

* `uint8` is `std::uint8_t` itself; `integral w` is any other integral type of `w` bytes
  (`bool`, `char`, `wchar_t`, `int`, ...); `floating w` a floating-point type of `w` bytes.
* `pod w` is a trivially copyable class or enumeration of `w` bytes that is none of the
  standard templates below and has no hooks; value-initialisation zeroes it.
* `pair`, `tuple`, `variant` are the standard templates, in the specialisations that are not
  trivially copyable. Whether a specialisation is trivially copyable depends on its members
  and on the standard library; one that is behaves differently only as a member of another
  value, where `write<_Vty>` and `read<_Vty>` copy its object representation as they do for
  `pod`. At the top level `serialize_object` and `deserialize_object` test for the three
  templates first. The alternatives of a variant are pairwise distinct types, as
  `std::get<value_type>` and the converting constructor used by the library require.
* `seq k e` is `std::vector<e>`, `std::list<e>`, `std::deque<e>` or `std::basic_string<e>`.
* `array e n` is `std::array<e, n>`: sized and iterable, but without `push_back` or `insert`.
* `forward_list e` is `std::forward_list<e>`: iterable, without `size()`.
* `aso e` is a container with `insert(value_type)`: the set and map templates (for a map
  `e` is the pair of key and mapped type). Its value lists the elements in iteration order
  and insertion is modelled as appending, so equality of values is meant up to reordering.
* `custom fields` is a user aggregate with the three hooks written as in `test.cpp`
  (`Row`, `Complicated`): `serialize` streams the members in order with `operator<<`,
  `deserialize` reads them in the same order with `operator>>`, `get_size` adds
  `zeus::get_size` of the members. It is not trivially copyable, and its default value has
  default members. -/
inductive Ty
  | uint8
  | integral (w : Nat)
  | floating (w : Nat)
  | pod (w : Nat)
  | pair (first_type second_type : Ty)
  | variant (alts : List Ty)
  | tuple (elems : List Ty)
  | seq (k : seq_kind) (value_type : Ty)
  | array (value_type : Ty) (n : Nat)
  | forward_list (value_type : Ty)
  | aso (value_type : Ty)
  | custom (fields : List Ty)

/-- Values. `raw` is the object representation of a trivially copyable value; `seq` lists the
elements of a container in iteration order; `tuple` lists the elements of a tuple or the
members of a user aggregate. -/
inductive Val
  | raw (bytes : List Nat)
  | pair (first second : Val)
  | variant (index : Nat) (value : Val)
  | tuple (elems : List Val)
  | seq (elems : List Val)

/-- The classifier `get_data_type<_Ty>()`, branch by branch. No branch returns `d_pod`:
a type that matches none of the tests falls through to `return d_custom`. -/
def get_data_type : Ty → Nat
  | .pair _ _ => d_pair
  | .variant _ => d_variant
  | .tuple _ => d_tuple
  | .seq _ _ => d_seq_container
  | .aso _ => d_aso_container
  | .floating w => if w = 4 then d_float32 else if w = 8 then d_float64 else d_custom
  | .integral w =>
      if w = 1 then d_byte8 else if w = 2 then d_byte16
      else if w = 4 then d_byte32 else if w = 8 then d_byte64 else d_custom
  | .uint8 => d_byte8
  | .pod _ => d_custom
  | .array _ _ => d_custom
  | .forward_list _ => d_custom
  | .custom _ => d_custom

/-- The trait `std::is_trivially_copyable_v`. -/
def is_trivially_copyable : Ty → Bool
  | .uint8 => true
  | .integral _ => true
  | .floating _ => true
  | .pod _ => true
  | .array e _ => is_trivially_copyable e
  | _ => false

/-- The operator `sizeof` on trivially copyable types (0 elsewhere, where it is not used). -/
def sizeof : Ty → Nat
  | .uint8 => 1
  | .integral w => w
  | .floating w => w
  | .pod w => w
  | .array e n => n * sizeof e
  | _ => 0

/-- The type is exactly `std::vector<std::uint8_t>`, the parameter type of the overload
`bytes_writer::write(const std::vector<std::uint8_t> &)`. -/
def is_byte_vector : Ty → Bool
  | .seq .vector .uint8 => true
  | _ => false

/-- The object representation of a trivially copyable value. -/
def object_repr : Val → List Nat
  | .raw bytes => bytes
  | _ => []

/-- The elements a container presents between `begin()` and `end()`. A trivially copyable
`std::array` is held by its object representation, which is the elements one after another. -/
def elements (value_type : Ty) (n : Nat) : Val → List Val
  | .seq elems => elems
  | .raw bytes => (chunks (sizeof value_type) n bytes).map Val.raw
  | _ => []

/-- The bytes held by a `std::vector<std::uint8_t>`. -/
def byte_vector_data (v : Val) : List Nat :=
  ((elements .uint8 0 v).map object_repr).flatten

mutual
/-- The value-initialised object `_Ty{}`. -/
def default_val : Ty → Val
  | .uint8 => .raw [0]
  | .integral w => .raw (List.replicate w 0)
  | .floating w => .raw (List.replicate w 0)
  | .pod w => .raw (List.replicate w 0)
  | .pair a b => .pair (default_val a) (default_val b)
  | .variant alts => .variant 0 (default_alt alts)
  | .tuple elems => .tuple (default_vals elems)
  | .seq _ _ => .seq []
  | .array e n =>
      if is_trivially_copyable e then .raw (List.replicate (n * sizeof e) 0)
      else .seq (List.replicate n (default_val e))
  | .forward_list _ => .seq []
  | .aso _ => .seq []
  | .custom fields => .tuple (default_vals fields)
/-- The value-initialised members, one per type. -/
def default_vals : List Ty → List Val
  | [] => []
  | t :: ts => default_val t :: default_vals ts
/-- The value-initialised first alternative of a variant. -/
def default_alt : List Ty → Val
  | [] => .raw []
  | t :: _ => default_val t
end

mutual
/-- The value `v` is a value of the C++ type `T`, and every container in it holds fewer
than `2 ^ 32` elements. -/
def has_type : Ty → Val → Bool
  | .uint8, v => match v with
      | .raw bytes => bytes.length = 1 && all_bytes bytes
      | _ => false
  | .integral w, v => match v with
      | .raw bytes => bytes.length = w && all_bytes bytes
      | _ => false
  | .floating w, v => match v with
      | .raw bytes => bytes.length = w && all_bytes bytes
      | _ => false
  | .pod w, v => match v with
      | .raw bytes => bytes.length = w && all_bytes bytes
      | _ => false
  | .pair a b, v => match v with
      | .pair x y => has_type a x && has_type b y
      | _ => false
  | .variant alts, v => match v with
      | .variant i x => has_type_alt alts i x
      | _ => false
  | .tuple elems, v => match v with
      | .tuple vs => has_types elems vs
      | _ => false
  | .seq _ e, v => match v with
      | .seq vs => decide (vs.length < 4294967296) && vs.all (fun x => has_type e x)
      | _ => false
  | .array e n, v => match v with
      | .raw bytes =>
          is_trivially_copyable e && decide (0 < n) && decide (n < 4294967296)
            && bytes.length = n * sizeof e && all_bytes bytes
      | .seq vs =>
          !is_trivially_copyable e && decide (0 < n) && decide (n < 4294967296)
            && vs.length = n && vs.all (fun x => has_type e x)
      | _ => false
  | .forward_list e, v => match v with
      | .seq vs => decide (vs.length < 4294967296) && vs.all (fun x => has_type e x)
      | _ => false
  | .aso e, v => match v with
      | .seq vs => decide (vs.length < 4294967296) && vs.all (fun x => has_type e x)
      | _ => false
  | .custom fields, v => match v with
      | .tuple vs => has_types fields vs
      | _ => false
/-- The values are values of the types, position by position. -/
def has_types : List Ty → List Val → Bool
  | [], vs => match vs with
      | [] => true
      | _ => false
  | t :: ts, vs => match vs with
      | v :: vs => has_type t v && has_types ts vs
      | [] => false
/-- The value is a value of the alternative with the given index. -/
def has_type_alt : List Ty → Nat → Val → Bool
  | [], _, _ => false
  | t :: ts, i, x => match i with
      | 0 => has_type t x
      | i + 1 => has_type_alt ts i x
end

/-! ## Headers -/

/-- The packed struct `data_header`: a `std::uint8_t` type byte and a `std::uint32_t` length. -/
structure data_header where
  type : Nat
  length : Nat
  deriving DecidableEq, Repr

/-- The value of `sizeof(data_header)` under `#pragma pack(1)`. -/
def header_size : Nat := 5

namespace data_header

def set_main_type (h : data_header) (dt : Nat) : data_header :=
  { h with type := (((h.type &&& 0xf0) % 256) ||| (dt % 256)) % 256 }

def set_sub_type (h : data_header) (dt : Nat) : data_header :=
  { h with type := (((h.type &&& 0x0f) % 256) ||| ((dt % 256) <<< 4)) % 256 }

def get_main_type (h : data_header) : Nat :=
  h.type &&& 0x0f

def get_sub_type (h : data_header) : Nat :=
  h.type >>> 4

/-- The member template `is_subtype_compitable<_Ty>()`, with `dt = get_data_type<_Ty>()`. -/
def is_subtype_compitable (h : data_header) (dt : Nat) : Bool :=
  let subdt := h.get_sub_type
  if dt < d_pod ∧ subdt < d_pod then
    decide (subdt ≥ dt)
  else
    decide (subdt = dt)

/-- The five bytes of a header in memory. -/
def object_repr (h : data_header) : List Nat :=
  (h.type % 256) :: to_bytes 4 h.length

/-- The header whose object representation is the given five bytes. -/
def of_bytes (bytes : List Nat) : data_header :=
  { type := bytes.headD 0, length := from_bytes (bytes.drop 1) }

end data_header

/-- The packed struct `packer_header`: the version, the checksum union and the length. -/
structure packer_header where
  version : Nat
  crc : Nat
  length : Nat
  deriving DecidableEq, Repr

/-- The value of `sizeof(packer_header)` under `#pragma pack(1)`. -/
def packer_header_size : Nat := 10

namespace packer_header

def set_version (h : packer_header) (ver : Nat) : packer_header :=
  { h with version := ver % 65536 }

def set_major_version (h : packer_header) (major : Nat) : packer_header :=
  { h with version := ((h.version &&& 0x00ff) ||| (((major % 256) <<< 8) % 65536)) % 65536 }

def set_minor_version (h : packer_header) (minor : Nat) : packer_header :=
  { h with version := ((h.version &&& 0xff00) ||| (minor % 256)) % 65536 }

/-- The ten bytes of an envelope header in memory. -/
def object_repr (h : packer_header) : List Nat :=
  to_bytes 2 h.version ++ to_bytes 4 h.crc ++ to_bytes 4 h.length

/-- The envelope header whose object representation is the given ten bytes. -/
def of_bytes (bytes : List Nat) : packer_header :=
  { version := from_bytes (bytes.take 2),
    crc := from_bytes ((bytes.drop 2).take 4),
    length := from_bytes ((bytes.drop 6).take 4) }

end packer_header

/-- The ten bytes in memory of an envelope header with the given fields. -/
def envelope_bytes (version crc len : Nat) : List Nat :=
  to_bytes 2 version ++ to_bytes 4 crc ++ to_bytes 4 len

/-! ## Checksum strategies -/

/-- A checksum strategy `_CheckSum`: called with a pointer and a length. The first argument
is the memory from the pointer to the end of the buffer it points into; the result is `none`
when the strategy reads past that end. -/
abbrev checksum_fn := List Nat → Nat → Option Nat

/-- The strategy `empty_checksum`: the arguments are not used. -/
def empty_checksum : checksum_fn :=
  fun _ _ => some 0

def polynomial_crc8 : Nat := 0x07

/-- One round of the loop of `entry_crc8`, the result stored in a `std::uint8_t`. -/
def crc8_round (crc : Nat) : Nat :=
  if crc &&& 0x80 ≠ 0 then ((crc <<< 1) ^^^ polynomial_crc8) % 256 else (crc <<< 1) % 256

def entry_crc8 (i : Nat) : Nat :=
  Nat.iterate crc8_round 8 (i % 256)

/-- The table `CRC8_TABLE = generate_crc8_table()`. -/
def CRC8_TABLE : List Nat :=
  (List.range 256).map entry_crc8

def polynomial_crc16 : Nat := 0x1021

/-- One round of the loop of `entry_crc16`, the result stored in a `std::uint16_t`. -/
def crc16_round (crc : Nat) : Nat :=
  if crc &&& 0x8000 ≠ 0 then ((crc <<< 1) ^^^ polynomial_crc16) % 65536
  else (crc <<< 1) % 65536

def entry_crc16 (i : Nat) : Nat :=
  Nat.iterate crc16_round 8 (((i % 256) <<< 8) % 65536)

/-- The table `CRC16_TABLE = generate_crc16_table()`. -/
def CRC16_TABLE : List Nat :=
  (List.range 256).map entry_crc16

def _polynomial_crc32 : Nat := 0xEDB88320

/-- One round of the loop of `entry_crc32`; a right shift and an exclusive or of 32-bit
values stay within 32 bits. -/
def crc32_round (crc : Nat) : Nat :=
  if crc &&& 1 ≠ 0 then (crc >>> 1) ^^^ _polynomial_crc32 else crc >>> 1

def entry_crc32 (i : Nat) : Nat :=
  Nat.iterate crc32_round 8 (i % 4294967296)

/-- The table `CRC32_TABLE = generate_crc32_table()`. -/
def CRC32_TABLE : List Nat :=
  (List.range 256).map entry_crc32

/-- The loop body of `crc8_checksum`: `crc = CRC8_TABLE[crc ^ data[i]]`. -/
def crc8_step (crc d : Nat) : Nat :=
  CRC8_TABLE.getD (crc ^^^ d) 0

/-- The loop of `crc8_checksum` over the bytes given, from `crc = 0x0`. -/
def crc8_of (data : List Nat) : Nat :=
  data.foldl crc8_step 0x0

/-- The loop body of `crc16_checksum`: `crc = (crc << 8) ^ CRC16_TABLE[(crc >> 8) ^ data[i]]`,
stored in a `std::uint16_t`. -/
def crc16_step (crc d : Nat) : Nat :=
  ((crc <<< 8) ^^^ CRC16_TABLE.getD ((crc >>> 8) ^^^ d) 0) % 65536

/-- The loop of `crc16_checksum` over the bytes given, from `crc = 0xFFFF`. -/
def crc16_of (data : List Nat) : Nat :=
  data.foldl crc16_step 0xFFFF

/-- The loop body of `crc32_checksum`: `crc = (crc >> 8) ^ CRC32_TABLE[(crc ^ data[i]) & 0xFF]`. -/
def crc32_step (crc d : Nat) : Nat :=
  (crc >>> 8) ^^^ CRC32_TABLE.getD ((crc ^^^ d) &&& 0xFF) 0

/-- The loop of `crc32_checksum` over the bytes given, from `crc = 0xFFFFFFFF`, and the
final `~crc` on 32 bits. -/
def crc32_of (data : List Nat) : Nat :=
  (data.foldl crc32_step 0xFFFFFFFF) ^^^ 0xFFFFFFFF

/-- The strategy `crc8_checksum`. -/
def crc8_checksum : checksum_fn :=
  fun data length => if length ≤ data.length then some (crc8_of (data.take length)) else none

/-- The strategy `crc16_checksum`. -/
def crc16_checksum : checksum_fn :=
  fun data length => if length ≤ data.length then some (crc16_of (data.take length)) else none

/-- The strategy `crc32_checksum`. -/
def crc32_checksum : checksum_fn :=
  fun data length => if length ≤ data.length then some (crc32_of (data.take length)) else none

/-! ## Readers -/

/-- The class `bytes_reader`: a cursor into a `std::vector<std::uint8_t>`. -/
structure bytes_reader where
  m_data : List Nat
  m_pos : Nat
  deriving DecidableEq, Repr

namespace bytes_reader

def remaining (r : bytes_reader) : Nat :=
  size_t_sub r.m_data.length r.m_pos

def can_read (r : bytes_reader) (size : Nat) : Bool :=
  decide (r.remaining ≥ size)

def count (r : bytes_reader) : Nat :=
  r.m_pos

/-- The method `read<_Vty>()` for a trivially copyable `_Vty` of `size` bytes: the object
representation read (all zero for `_Vty{}`) and the reader afterwards. Memory outside the
source is not modelled: bytes past its end are absent from the result. -/
def read (r : bytes_reader) (size : Nat) : List Nat × bytes_reader :=
  if !r.can_read size then
    (List.replicate size 0, r)
  else
    ((r.m_data.drop r.m_pos).take size, { r with m_pos := r.m_pos + size })

/-- The method `read_bytes`; the parameter `count` shadows the member function. -/
def read_bytes (r : bytes_reader) (count : Nat) : List Nat × bytes_reader :=
  let available := min count (size_t_sub r.m_data.length count)
  ((r.m_data.drop r.m_pos).take available, { r with m_pos := r.m_pos + available })

def skip (r : bytes_reader) (count : Nat) : bytes_reader :=
  if r.remaining ≥ count then { r with m_pos := r.m_pos + count } else r

def seek (r : bytes_reader) (pos : Nat) : bytes_reader :=
  if pos < size_t_sub r.m_data.length r.count then { r with m_pos := pos } else r

def reset (_r : bytes_reader) (data : List Nat) : bytes_reader :=
  { m_data := data, m_pos := 0 }

end bytes_reader

/-- The class `bytes_reader_bounded`: a cursor into the span of `m_length` bytes at `m_data`. -/
structure bytes_reader_bounded where
  m_data : List Nat
  m_pos : Nat
  m_length : Nat
  deriving DecidableEq, Repr

namespace bytes_reader_bounded

def remaining (r : bytes_reader_bounded) : Nat :=
  size_t_sub r.m_length r.m_pos

def can_read (r : bytes_reader_bounded) (size : Nat) : Bool :=
  decide (r.remaining ≥ size)

def count (r : bytes_reader_bounded) : Nat :=
  r.m_pos

/-- The method `read<_Vty>()` for a trivially copyable `_Vty` of `size` bytes. -/
def read (r : bytes_reader_bounded) (size : Nat) : List Nat × bytes_reader_bounded :=
  if !r.can_read size then
    (List.replicate size 0, r)
  else
    ((r.m_data.drop r.m_pos).take size, { r with m_pos := r.m_pos + size })

/-- The method `read_bytes`; the parameter `count` shadows the member function. -/
def read_bytes (r : bytes_reader_bounded) (count : Nat) : List Nat × bytes_reader_bounded :=
  let available := min count (size_t_sub r.m_length count)
  ((r.m_data.drop r.m_pos).take available, { r with m_pos := r.m_pos + available })

def skip (r : bytes_reader_bounded) (count : Nat) : bytes_reader_bounded :=
  if r.remaining ≥ count then { r with m_pos := r.m_pos + count } else r

def seek (r : bytes_reader_bounded) (pos : Nat) : bytes_reader_bounded :=
  if pos < size_t_sub r.m_length r.count then { r with m_pos := pos } else r

def reset (_r : bytes_reader_bounded) (data : List Nat) (length : Nat) : bytes_reader_bounded :=
  { m_data := data, m_pos := 0, m_length := length }

end bytes_reader_bounded

/-- The template parameter `_Reader` of the decoder: one of the two reader classes. -/
inductive Reader
  | unbounded (r : bytes_reader)
  | bounded (r : bytes_reader_bounded)
  deriving DecidableEq, Repr

namespace Reader

/-- The call `reader.template read<_Vty>()` for a trivially copyable `_Vty` of `size` bytes. -/
def read (size : Nat) : Reader → List Nat × Reader
  | .unbounded r => ((r.read size).1, .unbounded (r.read size).2)
  | .bounded r => ((r.read size).1, .bounded (r.read size).2)

def count : Reader → Nat
  | .unbounded r => r.count
  | .bounded r => r.count

def remaining : Reader → Nat
  | .unbounded r => r.remaining
  | .bounded r => r.remaining

/-- The call `reader.template read<data_header>()`. -/
def read_header (r : Reader) : data_header × Reader :=
  (data_header.of_bytes (r.read header_size).1, (r.read header_size).2)

end Reader

/-! ## The growing writer -/

/-- The class `bytes_writer`: appends to a `std::vector<std::uint8_t>`. -/
structure bytes_writer where
  m_data : List Nat
  deriving DecidableEq, Repr

namespace bytes_writer

/-- The template `write<_Vty>` for a trivially copyable `_Vty`: its bytes are inserted at the end. -/
def write_pod (w : bytes_writer) (bytes : List Nat) : bytes_writer :=
  { m_data := w.m_data ++ bytes }

/-- The overload `write(const std::vector<std::uint8_t> &)`: the bytes are spliced in. -/
def write_vector (w : bytes_writer) (data : List Nat) : bytes_writer :=
  { m_data := w.m_data ++ data }

/-- The overload `write(const std::uint8_t *, std::size_t)`. -/
def write_span (w : bytes_writer) (data : List Nat) (length : Nat) : bytes_writer :=
  { m_data := w.m_data ++ data.take length }

def count (w : bytes_writer) : Nat :=
  w.m_data.length

def reset (_w : bytes_writer) (data : List Nat) : bytes_writer :=
  { m_data := data }

/-- The call `writer << val` for `val` of type `T`, which is `this->write(val)`. For an
argument of type `std::vector<std::uint8_t>` overload resolution selects the non-template
`write(const std::vector<std::uint8_t> &)` over the template; every other argument goes to
the template, which copies a trivially copyable value and hands the rest to
`serialize_object` (passed as `ser`). -/
def op_shl (w : bytes_writer) (T : Ty) (ser : Val → bytes_writer → bytes_writer)
    (val : Val) : bytes_writer :=
  if is_byte_vector T then w.write_vector (byte_vector_data val)
  else if is_trivially_copyable T then w.write_pod (object_repr val)
  else ser val w

end bytes_writer

/-- The category written to the sub nibble of a variant header: that of the active alternative. -/
def alt_data_type (alts : List Ty) (index : Nat) : Nat :=
  match alts.get? index with
  | some t => get_data_type t
  | none => d_empty

/-- The header of a container: `set_main_type`, `set_sub_type`, then the length as `std::uint32_t`. -/
def container_header (main sub : Nat) (size : Nat) : data_header :=
  { ((({ type := 0, length := 0 } : data_header).set_main_type main).set_sub_type sub) with
    length := size % 4294967296 }

/-! ## The size estimator -/

mutual
/-- The function `get_object_size`, which adds the estimate for `object` to `size`. In the
branch of `std::forward_list` the clause for scalar elements calls `object.size()`, which that
container lacks, so the instantiation is rejected by the compiler; the clause is kept as
written. -/
def get_object_size : Ty → Val → Nat → Nat
  | .custom fields, object, size => match object with
      | .tuple vs => size + get_tuple_size_impl fields vs
      | _ => size
  | .pair a b, object, size => match object with
      | .pair first second =>
          get_object_size b second (get_object_size a first (size + header_size))
      | _ => size
  | .variant alts, object, size => match object with
      | .variant index val => size + header_size + get_variant_size_impl alts index val
      | _ => size
  | .tuple elems, object, size => match object with
      | .tuple vs => size + header_size + get_tuple_size_impl elems vs
      | _ => size
  | .seq _ e, object, size =>
      if get_data_type e < d_pod then
        size + header_size + sizeof e * (elements e 0 object).length
      else
        (elements e 0 object).foldl (fun size v => get_object_size e v size) (size + header_size)
  | .aso e, object, size =>
      if get_data_type e < d_pod then
        size + header_size + sizeof e * (elements e 0 object).length
      else
        (elements e 0 object).foldl (fun size v => get_object_size e v size) (size + header_size)
  | .array e n, object, size =>
      if get_data_type e < d_pod then
        size + header_size + sizeof e * (elements e n object).length
      else
        (elements e n object).foldl (fun size v => get_object_size e v size) (size + header_size)
  | .forward_list e, object, size =>
      if get_data_type e < d_pod then
        size + header_size + sizeof e * (elements e 0 object).length
      else
        (elements e 0 object).foldl (fun size v => get_object_size e v size) (size + header_size)
  | .pod w, _, size => size + header_size + w
  | .uint8, _, size => size + 1
  | .integral w, _, size => size + w
  | .floating w, _, size => size + w
/-- The function `detail::get_variant_size_impl`: `get_size` of the active alternative. -/
def get_variant_size_impl : List Ty → Nat → Val → Nat
  | [], _, _ => 0
  | t :: ts, index, val => match index with
      | 0 => get_object_size t val 0
      | index + 1 => get_variant_size_impl ts index val
/-- The function `detail::get_tuple_size_impl`: the sum of `get_size` over the elements. The
`get_size` hook of a user aggregate adds `get_size` of its members in the same way. -/
def get_tuple_size_impl : List Ty → List Val → Nat
  | [], _ => 0
  | t :: ts, vs => match vs with
      | v :: vs => get_object_size t v 0 + get_tuple_size_impl ts vs
      | [] => 0
end

/-- The function `get_size`. -/
def get_size (T : Ty) (object : Val) : Nat :=
  get_object_size T object 0

/-! ## The encoder -/

mutual
/-- The function `serialize_object<_Ty, bytes_writer>`. -/
def serialize_object : Ty → Val → bytes_writer → bytes_writer
  | .custom fields, object, writer => match object with
      | .tuple vs => serialize_tuple_impl fields vs writer
      | _ => writer
  | .pair a b, object, writer => match object with
      | .pair first second =>
          let writer := writer.write_pod (data_header.mk d_pair 2).object_repr
          let writer := writer.op_shl a (serialize_object a) first
          writer.op_shl b (serialize_object b) second
      | _ => writer
  | .variant alts, object, writer => match object with
      | .variant index val =>
          let _header := (data_header.mk d_variant alts.length).set_sub_type
            (alt_data_type alts index)
          let writer := writer.write_pod _header.object_repr
          let writer := writer.write_pod (to_bytes 4 index)
          serialize_variant_alt alts index val writer
      | _ => writer
  | .tuple elems, object, writer => match object with
      | .tuple vs =>
          serialize_tuple_impl elems vs
            (writer.write_pod (data_header.mk d_tuple elems.length).object_repr)
      | _ => writer
  | .seq _ e, object, writer =>
      let _header := container_header d_seq_container (get_data_type e)
        (elements e 0 object).length
      (elements e 0 object).foldl (fun writer v => writer.op_shl e (serialize_object e) v)
        (writer.write_pod _header.object_repr)
  | .aso e, object, writer =>
      let _header := container_header d_aso_container (get_data_type e)
        (elements e 0 object).length
      (elements e 0 object).foldl (fun writer v => writer.op_shl e (serialize_object e) v)
        (writer.write_pod _header.object_repr)
  | .array e n, object, writer =>
      let _header := container_header d_seq_container (get_data_type e)
        (elements e n object).length
      (elements e n object).foldl (fun writer v => writer.op_shl e (serialize_object e) v)
        (writer.write_pod _header.object_repr)
  | .forward_list e, object, writer =>
      let scratch := (elements e 0 object).foldl
        (fun _writer v => _writer.op_shl e (serialize_object e) v) (bytes_writer.mk [])
      let _header := container_header d_seq_container (get_data_type e)
        (elements e 0 object).length
      (writer.write_pod _header.object_repr).write_vector scratch.m_data
  | .pod w, object, writer =>
      (writer.write_pod (data_header.mk d_pod (w % 4294967296)).object_repr).write_pod
        (object_repr object)
  | .uint8, object, writer => writer.write_pod (object_repr object)
  | .integral _, object, writer => writer.write_pod (object_repr object)
  | .floating _, object, writer => writer.write_pod (object_repr object)
/-- The visitor of the variant branch applied to the active alternative: `<< val`. -/
def serialize_variant_alt : List Ty → Nat → Val → bytes_writer → bytes_writer
  | [], _, _, writer => writer
  | t :: ts, index, val, writer => match index with
      | 0 => writer.op_shl t (serialize_object t) val
      | index + 1 => serialize_variant_alt ts index val writer
/-- The function `detail::serialize_tuple_impl`: `(writer << ... << std::get<_Indices>(tuple))`.
The `serialize` hook of a user aggregate streams its members in the same way. -/
def serialize_tuple_impl : List Ty → List Val → bytes_writer → bytes_writer
  | [], _, writer => writer
  | t :: ts, vs, writer => match vs with
      | v :: vs => serialize_tuple_impl ts vs (writer.op_shl t (serialize_object t) v)
      | [] => writer
end

/-! ## The decoder -/

/-- The call `reader.template read<_Vty>()` for `_Vty = T`: a trivially copyable type is
read in place, every other type is handed to `deserialize_object` (passed as `deser`). -/
def Reader.read_value (reader : Reader) (T : Ty)
    (deser : Reader → Option (Val × Reader)) : Option (Val × Reader) :=
  if is_trivially_copyable T then
    some (.raw (reader.read (sizeof T)).1, (reader.read (sizeof T)).2)
  else
    deser reader

/-- The loop `for (i = 0; i < _header.length; i++) container.push_back(read<value_type>())`
(or `insert`): the values read, in order, and the reader afterwards. -/
def read_elements (read : Reader → Option (Val × Reader)) :
    Nat → Reader → Option (List Val × Reader)
  | 0, reader => some ([], reader)
  | n + 1, reader =>
      match read reader with
      | none => none
      | some (v, reader) =>
          match read_elements read n reader with
          | none => none
          | some (vs, reader) => some (v :: vs, reader)

mutual
/-- The function `deserialize_object<_Ty, _Reader>`. -/
def deserialize_object : Ty → Reader → Option (Val × Reader)
  | .custom fields, reader =>
      match deserialize_tuple_impl fields reader with
      | none => none
      | some (vs, reader) => some (.tuple vs, reader)
  | .pair a b, reader =>
      let _header := reader.read_header.1
      let reader := reader.read_header.2
      if _header.length ≠ 2 ∨ _header.get_main_type ≠ d_pair then
        some (default_val (.pair a b), reader)
      else
        match reader.read_value a (deserialize_object a) with
        | none => none
        | some (first, reader) =>
            match reader.read_value b (deserialize_object b) with
            | none => none
            | some (second, reader) => some (.pair first second, reader)
  | .variant alts, reader =>
      let _header := reader.read_header.1
      let reader := reader.read_header.2
      if _header.length ≠ alts.length then
        some (default_val (.variant alts), reader)
      else
        let _index := from_bytes (reader.read 4).1
        let reader := (reader.read 4).2
        if _index > _header.length then
          some (default_val (.variant alts), reader)
        else
          match deserialize_variant_impl alts _index reader with
          | none => none
          | some (val, reader) => some (.variant _index val, reader)
  | .tuple elems, reader =>
      let _header := reader.read_header.1
      let reader := reader.read_header.2
      if _header.length ≠ elems.length then
        some (default_val (.tuple elems), reader)
      else
        match deserialize_tuple_impl elems reader with
        | none => none
        | some (vs, reader) => some (.tuple vs, reader)
  | .seq _ e, reader =>
      let _header := reader.read_header.1
      let reader := reader.read_header.2
      if _header.get_main_type = d_seq_container ∧
          _header.is_subtype_compitable (get_data_type e) = true then
        match read_elements (fun r => r.read_value e (deserialize_object e))
            _header.length reader with
        | none => none
        | some (vs, reader) => some (.seq vs, reader)
      else
        some (.seq [], reader)
  | .aso e, reader =>
      let _header := reader.read_header.1
      let reader := reader.read_header.2
      if _header.get_main_type = d_aso_container ∧
          _header.is_subtype_compitable (get_data_type e) = true then
        match read_elements (fun r => r.read_value e (deserialize_object e))
            _header.length reader with
        | none => none
        | some (vs, reader) => some (.seq vs, reader)
      else
        some (.seq [], reader)
  | .array e n, reader =>
      some (default_val (.array e n), reader.read_header.2)
  | .forward_list _, _ => none
  | .pod w, reader =>
      let _header := reader.read_header.1
      let reader := reader.read_header.2
      if _header.length < w then
        some (default_val (.pod w), reader)
      else
        some (.raw (reader.read w).1, (reader.read w).2)
  | .uint8, reader => some (.raw (reader.read 1).1, (reader.read 1).2)
  | .integral w, reader => some (.raw (reader.read w).1, (reader.read w).2)
  | .floating w, reader => some (.raw (reader.read w).1, (reader.read w).2)
/-- The function `detail::deserialize_variant_impl`: `_table[index](reader)`. The table has
one entry per alternative; an index past its end has no defined behaviour. -/
def deserialize_variant_impl : List Ty → Nat → Reader → Option (Val × Reader)
  | [], _, _ => none
  | t :: ts, index, reader => match index with
      | 0 => reader.read_value t (deserialize_object t)
      | index + 1 => deserialize_variant_impl ts index reader
/-- The function `detail::deserialize_tuple_impl`: `(reader >> ... >> std::get<_Indices>(__t))`.
The `deserialize` hook of a user aggregate reads its members in the same way. -/
def deserialize_tuple_impl : List Ty → Reader → Option (List Val × Reader)
  | [], reader => some ([], reader)
  | t :: ts, reader =>
      match reader.read_value t (deserialize_object t) with
      | none => none
      | some (v, reader) =>
          match deserialize_tuple_impl ts reader with
          | none => none
          | some (vs, reader) => some (v :: vs, reader)
end

/-! ## The envelope -/

/-- The envelope header `serialize` writes for a payload: `ph{}`, `set_version(VERSION)`,
the checksum stored through `crc.crc32`, the size as `std::uint32_t`. -/
def make_packer_header (crc size : Nat) : packer_header :=
  { (({ version := 0, crc := 0, length := 0 } : packer_header).set_version VERSION) with
    crc := crc % 4294967296, length := size % 4294967296 }

/-- The payload: the vector `data` that `serialize` fills through a `bytes_writer`. -/
def serialize_payload (T : Ty) (value : Val) : List Nat :=
  (serialize_object T value (bytes_writer.mk [])).m_data

/-- The function `serialize(const _Ty &, _CheckSum)`. -/
def serialize (T : Ty) (value : Val) (checksum : checksum_fn) : Option (List Nat) :=
  let data := serialize_payload T value
  match checksum data data.length with
  | none => none
  | some crc =>
      let ph := make_packer_header crc data.length
      some (((bytes_writer.mk []).write_pod ph.object_repr).write_vector data).m_data

/-- The function `deserialize<_Ty>(const std::vector<std::uint8_t> &, _CheckSum)`. -/
def deserialize (T : Ty) (data : List Nat) (checksum : checksum_fn) : Option Val :=
  let reader := Reader.unbounded { m_data := data, m_pos := 0 }
  let ph := packer_header.of_bytes (reader.read packer_header_size).1
  let reader := (reader.read packer_header_size).2
  if ph.version ≠ VERSION then
    some (default_val T)
  else
    match checksum (data.drop packer_header_size) ph.length with
    | none => none
    | some crc =>
        if crc % 4294967296 ≠ ph.crc then
          some (default_val T)
        else
          (deserialize_object T reader).map Prod.fst

/-- The function `deserialize<_Ty>(const void *, size_t, _CheckSum)`. -/
def deserialize_bounded (T : Ty) (buffer : List Nat) (length : Nat)
    (checksum : checksum_fn) : Option Val :=
  let reader := Reader.bounded { m_data := buffer, m_pos := 0, m_length := length }
  let ph := packer_header.of_bytes (reader.read packer_header_size).1
  let reader := (reader.read packer_header_size).2
  if ph.version ≠ VERSION then
    some (default_val T)
  else
    match checksum (buffer.drop packer_header_size) ph.length with
    | none => none
    | some crc =>
        if crc % 4294967296 ≠ ph.crc then
          some (default_val T)
        else
          (deserialize_object T reader).map Prod.fst

/-! ## Pieces of the payload and the types that are restored -/

/-- The bytes `writer << val` appends for `val` of type `T`. -/
def stream_bytes (T : Ty) (val : Val) : List Nat :=
  ((bytes_writer.mk []).op_shl T (serialize_object T) val).m_data

/-- The bytes `serialize_tuple_impl` appends. -/
def tuple_bytes (ts : List Ty) (vs : List Val) : List Nat :=
  (serialize_tuple_impl ts vs (bytes_writer.mk [])).m_data

/-- The bytes the visitor of the variant branch appends for the active alternative. -/
def alt_bytes (alts : List Ty) (index : Nat) (val : Val) : List Nat :=
  (serialize_variant_alt alts index val (bytes_writer.mk [])).m_data

/-- A value of type `T` streamed as a member (by `writer << v`, read back by `read<T>()`) is
restored: either `T` is trivially copyable, or it is not the byte vector that the overload
`write(const std::vector<std::uint8_t> &)` takes and `deserialize_object<T>` restores it
(`top`). -/
def restorable_member (T : Ty) (top : Bool) : Bool :=
  is_trivially_copyable T || (!is_byte_vector T && top)

mutual
/-- The types for which `deserialize_object<T>` restores what `serialize_object` wrote: no
`std::forward_list` (it has no decoder), no `std::array` outside a trivially copyable member
(its decoder returns the default array), no `std::vector<std::uint8_t>` as a member that is
not trivially copyable, and arities and widths that fit the 32-bit header length. -/
def restorable : Ty → Bool
  | .uint8 => true
  | .integral _ => true
  | .floating _ => true
  | .pod w => decide (w < 4294967296)
  | .pair a b => restorable_member a (restorable a) && restorable_member b (restorable b)
  | .variant alts => decide (alts.length < 4294967296) && restorable_members alts
  | .tuple elems => decide (elems.length < 4294967296) && restorable_members elems
  | .seq _ e => restorable_member e (restorable e)
  | .aso e => restorable_member e (restorable e)
  | .array _ _ => false
  | .forward_list _ => false
  | .custom fields => restorable_members fields
/-- Every type of the list is restored as a member. -/
def restorable_members : List Ty → Bool
  | [] => true
  | t :: ts => restorable_member t (restorable t) && restorable_members ts
end

/-- The estimate for a member of type `T` is the number of bytes `writer << v` appends: `T`
is a scalar, or it is not trivially copyable, not the byte vector that the overload
`write(const std::vector<std::uint8_t> &)` takes, and the estimate is exact for `T` at the
top level (`top`). -/
def size_exact_member (T : Ty) (top : Bool) : Bool :=
  match T with
  | .uint8 => true
  | .integral _ => true
  | .floating _ => true
  | _ => !is_trivially_copyable T && !is_byte_vector T && top

mutual
/-- The types for which `get_size` is the number of bytes `serialize_object` appends: no
variant (the index is not counted), no trivially copyable class or array as a member (a
header is counted that is not written), no `std::vector<std::uint8_t>` as a member, and
no `std::array` at the top level. -/
def size_exact : Ty → Bool
  | .uint8 => true
  | .integral _ => true
  | .floating _ => true
  | .pod w => decide (w < 4294967296)
  | .pair a b => size_exact_member a (size_exact a) && size_exact_member b (size_exact b)
  | .variant _ => false
  | .tuple elems => size_exact_members elems
  | .seq _ e => size_exact_member e (size_exact e)
  | .aso e => size_exact_member e (size_exact e)
  | .array _ _ => false
  | .forward_list e => size_exact_member e (size_exact e)
  | .custom fields => size_exact_members fields
/-- The estimate is exact for every type of the list as a member. -/
def size_exact_members : List Ty → Bool
  | [] => true
  | t :: ts => size_exact_member t (size_exact t) && size_exact_members ts
end

/-! ## The bounded writer -/

/-- The memory `memory` after the bytes `bytes` are stored from index `pos` on. -/
def store (memory : List Nat) (pos : Nat) (bytes : List Nat) : List Nat :=
  memory.take pos ++ bytes ++ memory.drop (pos + bytes.length)

/-- The class `bytes_writer_bounded`: a cursor into the `m_length` bytes at `m_data`. The list
`m_data` is the caller's memory from that pointer on. -/
structure bytes_writer_bounded where
  m_data : List Nat
  m_pos : Nat
  m_length : Nat
  deriving DecidableEq, Repr

namespace bytes_writer_bounded

def remaining (w : bytes_writer_bounded) : Nat :=
  size_t_sub w.m_length w.m_pos

def can_write (w : bytes_writer_bounded) (size : Nat) : Bool :=
  decide (w.remaining ≥ size)

def count (w : bytes_writer_bounded) : Nat :=
  w.m_pos

def reset (_w : bytes_writer_bounded) (data : List Nat) (length : Nat) : bytes_writer_bounded :=
  { m_data := data, m_pos := 0, m_length := length }

/-- The template `write<_Vty>` for a trivially copyable `_Vty` with the object representation
`bytes` (of `sizeof(_Vty)` bytes): stored whole if `can_write<_Vty>()`, else nothing happens. -/
def write_pod (w : bytes_writer_bounded) (bytes : List Nat) : bytes_writer_bounded :=
  if w.can_write bytes.length then
    { w with m_data := store w.m_data w.m_pos bytes, m_pos := w.m_pos + bytes.length }
  else
    w

/-- The overload `write(const std::uint8_t *, std::size_t)`: copies as many bytes as fit. -/
def write_span (w : bytes_writer_bounded) (data : List Nat) (length : Nat) :
    bytes_writer_bounded :=
  let _copy_len := min length (size_t_sub w.m_length w.m_pos)
  if _copy_len > 0 then
    { w with m_data := store w.m_data w.m_pos (data.take _copy_len),
             m_pos := w.m_pos + _copy_len }
  else
    w

/-- The call `writer << val` for `val` of type `T`, which is `this->write(val)`. The class has
no overload for `std::vector<std::uint8_t>`, so every argument goes to the template, which
copies a trivially copyable value and hands the rest to `serialize_object` (passed as
`ser`). -/
def op_shl (w : bytes_writer_bounded) (T : Ty)
    (ser : Val → bytes_writer_bounded → bytes_writer_bounded) (val : Val) :
    bytes_writer_bounded :=
  if is_trivially_copyable T then w.write_pod (object_repr val)
  else ser val w

/-- The bytes written so far: the first `count()` bytes of the buffer. -/
def written (w : bytes_writer_bounded) : List Nat :=
  w.m_data.take w.m_pos

end bytes_writer_bounded

/-- The call `writer.write(_partial)` of the `std::forward_list` branch on a bounded writer.
Without an overload for the vector, it is `write<std::vector<std::uint8_t>>`, which hands
the scratch vector to `serialize_object`: a container header for bytes, then each byte. -/
def serialize_scratch_bounded (writer : bytes_writer_bounded) (scratch : List Nat) :
    bytes_writer_bounded :=
  scratch.foldl (fun writer b => writer.write_pod [b])
    (writer.write_pod (container_header d_seq_container d_byte8 scratch.length).object_repr)

mutual
/-- The function `serialize_object<_Ty, bytes_writer_bounded>`. -/
def serialize_object_bounded : Ty → Val → bytes_writer_bounded → bytes_writer_bounded
  | .custom fields, object, writer => match object with
      | .tuple vs => serialize_tuple_impl_bounded fields vs writer
      | _ => writer
  | .pair a b, object, writer => match object with
      | .pair first second =>
          let writer := writer.write_pod (data_header.mk d_pair 2).object_repr
          let writer := writer.op_shl a (serialize_object_bounded a) first
          writer.op_shl b (serialize_object_bounded b) second
      | _ => writer
  | .variant alts, object, writer => match object with
      | .variant index val =>
          let _header := (data_header.mk d_variant alts.length).set_sub_type
            (alt_data_type alts index)
          let writer := writer.write_pod _header.object_repr
          let writer := writer.write_pod (to_bytes 4 index)
          serialize_variant_alt_bounded alts index val writer
      | _ => writer
  | .tuple elems, object, writer => match object with
      | .tuple vs =>
          serialize_tuple_impl_bounded elems vs
            (writer.write_pod (data_header.mk d_tuple elems.length).object_repr)
      | _ => writer
  | .seq _ e, object, writer =>
      let _header := container_header d_seq_container (get_data_type e)
        (elements e 0 object).length
      (elements e 0 object).foldl
        (fun writer v => writer.op_shl e (serialize_object_bounded e) v)
        (writer.write_pod _header.object_repr)
  | .aso e, object, writer =>
      let _header := container_header d_aso_container (get_data_type e)
        (elements e 0 object).length
      (elements e 0 object).foldl
        (fun writer v => writer.op_shl e (serialize_object_bounded e) v)
        (writer.write_pod _header.object_repr)
  | .array e n, object, writer =>
      let _header := container_header d_seq_container (get_data_type e)
        (elements e n object).length
      (elements e n object).foldl
        (fun writer v => writer.op_shl e (serialize_object_bounded e) v)
        (writer.write_pod _header.object_repr)
  | .forward_list e, object, writer =>
      let scratch := (elements e 0 object).foldl
        (fun _writer v => _writer.op_shl e (serialize_object e) v) (bytes_writer.mk [])
      let _header := container_header d_seq_container (get_data_type e)
        (elements e 0 object).length
      serialize_scratch_bounded (writer.write_pod _header.object_repr) scratch.m_data
  | .pod w, object, writer =>
      (writer.write_pod (data_header.mk d_pod (w % 4294967296)).object_repr).write_pod
        (object_repr object)
  | .uint8, object, writer => writer.write_pod (object_repr object)
  | .integral _, object, writer => writer.write_pod (object_repr object)
  | .floating _, object, writer => writer.write_pod (object_repr object)
/-- The visitor of the variant branch on a bounded writer, at the active alternative. -/
def serialize_variant_alt_bounded :
    List Ty → Nat → Val → bytes_writer_bounded → bytes_writer_bounded
  | [], _, _, writer => writer
  | t :: ts, index, val, writer => match index with
      | 0 => writer.op_shl t (serialize_object_bounded t) val
      | index + 1 => serialize_variant_alt_bounded ts index val writer
/-- The function `detail::serialize_tuple_impl` on a bounded writer. -/
def serialize_tuple_impl_bounded :
    List Ty → List Val → bytes_writer_bounded → bytes_writer_bounded
  | [], _, writer => writer
  | t :: ts, vs, writer => match vs with
      | v :: vs =>
          serialize_tuple_impl_bounded ts vs (writer.op_shl t (serialize_object_bounded t) v)
      | [] => writer
end

/-- The function `serialize(const void *, size_t, const _Ty &, _CheckSum)`: the payload is
written into the caller's `buffer` through a bounded writer of capacity `bufsize`, the
envelope header and the `count()` bytes written go to the vector returned. -/
def serialize_bounded (T : Ty) (buffer : List Nat) (bufsize : Nat) (value : Val)
    (checksum : checksum_fn) : Option (List Nat) :=
  let writer := (bytes_writer_bounded.mk buffer 0 bufsize).op_shl T
    (serialize_object_bounded T) value
  let length := writer.count
  match checksum writer.m_data length with
  | none => none
  | some crc =>
      let ph := make_packer_header crc length
      some (((bytes_writer.mk []).write_pod ph.object_repr).write_span writer.m_data
        length).m_data

/-- The payload of `serialize(buffer, bufsize, value)`: the bytes the bounded writer holds
after `writer << value`. -/
def serialize_bounded_payload (T : Ty) (buffer : List Nat) (bufsize : Nat) (value : Val) :
    List Nat :=
  ((bytes_writer_bounded.mk buffer 0 bufsize).op_shl T
    (serialize_object_bounded T) value).written

/-! ## The fixed-width writes of the bounded encoder -/

/-- The writes `writer << val` issues for a member of type `T`: one write of the object
representation if `T` is trivially copyable, else the writes of `serialize_object` (`top`). -/
def member_writes (T : Ty) (top : List (List Nat)) (val : Val) : List (List Nat) :=
  if is_trivially_copyable T then [object_repr val] else top

mutual
/-- The sequence of fixed-width writes that `serialize_object<_Ty, bytes_writer_bounded>`
issues, each given by its bytes. -/
def bounded_writes : Ty → Val → List (List Nat)
  | .custom fields, object => match object with
      | .tuple vs => bounded_tuple_writes fields vs
      | _ => []
  | .pair a b, object => match object with
      | .pair first second =>
          (data_header.mk d_pair 2).object_repr ::
            (member_writes a (bounded_writes a first) first ++
              member_writes b (bounded_writes b second) second)
      | _ => []
  | .variant alts, object => match object with
      | .variant index val =>
          ((data_header.mk d_variant alts.length).set_sub_type
              (alt_data_type alts index)).object_repr ::
            to_bytes 4 index :: bounded_alt_writes alts index val
      | _ => []
  | .tuple elems, object => match object with
      | .tuple vs =>
          (data_header.mk d_tuple elems.length).object_repr :: bounded_tuple_writes elems vs
      | _ => []
  | .seq _ e, object =>
      (container_header d_seq_container (get_data_type e)
          (elements e 0 object).length).object_repr ::
        ((elements e 0 object).map (fun v => member_writes e (bounded_writes e v) v)).flatten
  | .aso e, object =>
      (container_header d_aso_container (get_data_type e)
          (elements e 0 object).length).object_repr ::
        ((elements e 0 object).map (fun v => member_writes e (bounded_writes e v) v)).flatten
  | .array e n, object =>
      (container_header d_seq_container (get_data_type e)
          (elements e n object).length).object_repr ::
        ((elements e n object).map (fun v => member_writes e (bounded_writes e v) v)).flatten
  | .forward_list e, object =>
      (container_header d_seq_container (get_data_type e)
          (elements e 0 object).length).object_repr ::
        (container_header d_seq_container d_byte8
          (((elements e 0 object).map (stream_bytes e)).flatten).length).object_repr ::
        (((elements e 0 object).map (stream_bytes e)).flatten).map (fun b => [b])
  | .pod w, object =>
      [(data_header.mk d_pod (w % 4294967296)).object_repr, object_repr object]
  | .uint8, object => [object_repr object]
  | .integral _, object => [object_repr object]
  | .floating _, object => [object_repr object]
/-- The writes of the visitor of the variant branch. -/
def bounded_alt_writes : List Ty → Nat → Val → List (List Nat)
  | [], _, _ => []
  | t :: ts, index, val => match index with
      | 0 => member_writes t (bounded_writes t val) val
      | index + 1 => bounded_alt_writes ts index val
/-- The writes of `detail::serialize_tuple_impl`. -/
def bounded_tuple_writes : List Ty → List Val → List (List Nat)
  | [], _ => []
  | t :: ts, vs => match vs with
      | v :: vs => member_writes t (bounded_writes t v) v ++ bounded_tuple_writes ts vs
      | [] => []
end

/-- The bounded writer after the fixed-width writes `ws`, in order. -/
def bytes_writer_bounded.write_all (w : bytes_writer_bounded) (ws : List (List Nat)) :
    bytes_writer_bounded :=
  ws.foldl (fun w b => w.write_pod b) w

/-- The writes of `ws` that a bounded writer with `room` bytes left accepts: a write is stored
whole when it fits the room left at its turn, and is dropped otherwise. -/
def kept_writes : List (List Nat) → Nat → List (List Nat)
  | [], _ => []
  | b :: ws, room =>
      if b.length ≤ room then b :: kept_writes ws (room - b.length) else kept_writes ws room

/-- A write on a bounded writer: a fixed-width value, given by its object representation, or
the raw span `data` with its length. -/
inductive bounded_write
  | value (bytes : List Nat)
  | span (data : List Nat)
  deriving DecidableEq, Repr

/-- The bounded writer after one write. -/
def bytes_writer_bounded.apply (w : bytes_writer_bounded) : bounded_write → bytes_writer_bounded
  | .value bytes => w.write_pod bytes
  | .span data => w.write_span data data.length

/-- Both writers emit the same bytes for `writer << v` with `v` of type `T`: `T` is not the
byte vector that only `bytes_writer` has an overload for, and it is trivially copyable or both
instances of `serialize_object<T>` emit the same bytes (`top`). -/
def writers_agree_member (T : Ty) (top : Bool) : Bool :=
  !is_byte_vector T && (is_trivially_copyable T || top)

mutual
/-- The types for which `serialize_object` issues the same bytes to a `bytes_writer` and to a
`bytes_writer_bounded` with room for them: no `std::forward_list` (its scratch vector gets a
header of its own on the bounded writer) and no `std::vector<std::uint8_t>` as a member. -/
def writers_agree : Ty → Bool
  | .uint8 => true
  | .integral _ => true
  | .floating _ => true
  | .pod _ => true
  | .pair a b => writers_agree_member a (writers_agree a) &&
      writers_agree_member b (writers_agree b)
  | .variant alts => writers_agree_members alts
  | .tuple elems => writers_agree_members elems
  | .seq _ e => writers_agree_member e (writers_agree e)
  | .aso e => writers_agree_member e (writers_agree e)
  | .array e _ => writers_agree_member e (writers_agree e)
  | .forward_list _ => false
  | .custom fields => writers_agree_members fields
/-- Both writers emit the same bytes for every type of the list as a member. -/
def writers_agree_members : List Ty → Bool
  | [] => true
  | t :: ts => writers_agree_member t (writers_agree t) && writers_agree_members ts
end

/-! ## The scenarios of the examples -/

/-- A `std::string` with the given bytes as characters. -/
def string_val (s : List Nat) : Val :=
  .seq (s.map (fun c => .raw [c]))

/-- The type `std::unordered_map<std::string, uint32_t>`: its `value_type` is a pair of a
string and a 32-bit integer. -/
def string_map : Ty :=
  .aso (.pair (.seq .basic_string (.integral 1)) (.integral 4))

/-- A map of that type holding the given entries, in iteration order. -/
def map_val (entries : List (List Nat × Nat)) : Val :=
  .seq (entries.map (fun kv => .pair (string_val kv.1) (.raw (to_bytes 4 kv.2))))

/-- The entries of `map1` in `association_container_example`: "Jacky" to 68, "Element" to 97,
"Bob" to 45. -/
def map1 : List (List Nat × Nat) :=
  [([74, 97, 99, 107, 121], 68), ([69, 108, 101, 109, 101, 110, 116], 97),
    ([66, 111, 98], 45)]

/-- A sequence of 32-bit integers. -/
def int_seq (xs : List Nat) : Val :=
  .seq (xs.map (fun x => .raw (to_bytes 4 x)))

/-! ## Reference checksums, computed bit by bit -/

/-- Reference: one bit of a reflected CRC with the polynomial `poly`. The register is shifted
right by one bit, and the polynomial is folded in when the bit shifted out is set. -/
def reflected_bit (poly crc : Nat) : Nat :=
  if crc % 2 = 1 then (crc / 2) ^^^ poly else crc / 2

/-- Reference: one bit of an MSB-first CRC of `width` bits with the polynomial `poly`. The
register is shifted left by one bit, the polynomial is folded in when the top bit was set,
and the result is truncated to `width` bits. -/
def msb_first_bit (width poly crc : Nat) : Nat :=
  if crc.testBit (width - 1) then (2 * crc ^^^ poly) % 2 ^ width else (2 * crc) % 2 ^ width

/-- Reference: the reflected CRC-32 bit by bit, with polynomial 0xEDB88320, seed 0xFFFFFFFF
and the final complement on 32 bits. Each byte is folded into the low byte of the register
and eight bits are processed. -/
def crc32_bit_by_bit (data : List Nat) : Nat :=
  0xFFFFFFFF - data.foldl
    (fun crc b => Nat.iterate (reflected_bit 0xEDB88320) 8 (crc ^^^ b)) 0xFFFFFFFF

/-- Reference: the MSB-first CRC-16 bit by bit, with polynomial 0x1021 and seed 0xFFFF, no
final exclusive or. Each byte is folded into the high byte of the register and eight bits are
processed. -/
def crc16_bit_by_bit (data : List Nat) : Nat :=
  data.foldl (fun crc b => Nat.iterate (msb_first_bit 16 0x1021) 8 (crc ^^^ (b * 256))) 0xFFFF

/-- Reference: the MSB-first CRC-8 bit by bit, with polynomial 0x07 and seed 0. -/
def crc8_bit_by_bit (data : List Nat) : Nat :=
  data.foldl (fun crc b => Nat.iterate (msb_first_bit 8 0x07) 8 (crc ^^^ b)) 0

/-! ## Readers that see the same bytes ahead -/

/-- Two readers of the same class, at the same cursor and with the same length, whose
sources hold the same bytes from the cursor on. -/
def Reader.same_ahead : Reader → Reader → Prop
  | .unbounded a, .unbounded b =>
      a.m_pos = b.m_pos ∧ a.m_data.length = b.m_data.length ∧
        a.m_data.drop a.m_pos = b.m_data.drop b.m_pos
  | .bounded a, .bounded b =>
      a.m_pos = b.m_pos ∧ a.m_length = b.m_length ∧
        a.m_data.drop a.m_pos = b.m_data.drop b.m_pos
  | _, _ => False

/-- Two results of a decoder: both undefined, or the same value with readers that see the
same bytes ahead. -/
def same_result {α : Type} : Option (α × Reader) → Option (α × Reader) → Prop
  | some (v, r), some (v', r') => v = v' ∧ r.same_ahead r'
  | none, none => True
  | _, _ => False

/-- The bytes a reader has left: the source from the cursor on, for a bounded reader up to
the declared length. -/
def Reader.ahead : Reader → List Nat
  | .unbounded r => r.m_data.drop r.m_pos
  | .bounded r => (r.m_data.take r.m_length).drop r.m_pos

/-- The cursor of the reader is within its length, and the declared length of a bounded
reader within its memory. -/
def Reader.sound : Reader → Prop
  | .unbounded r => r.m_pos ≤ r.m_data.length
  | .bounded r => r.m_pos ≤ r.m_length ∧ r.m_length ≤ r.m_data.length

/-! # Lemmas -/

/-! ### Bit operations and running checksums -/

theorem xor_mod_two_pow (a b n : Nat) : (a ^^^ b) % 2 ^ n = (a % 2 ^ n) ^^^ (b % 2 ^ n) := by
  apply Nat.eq_of_testBit_eq
  intro i
  simp only [Nat.testBit_mod_two_pow, Nat.testBit_xor]
  cases decide (i < n) <;> simp

theorem xor_shiftRight (a b n : Nat) : (a ^^^ b) >>> n = (a >>> n) ^^^ (b >>> n) := by
  apply Nat.eq_of_testBit_eq
  intro i
  simp only [Nat.testBit_shiftRight, Nat.testBit_xor]

theorem table_getD (f : Nat → Nat) (i : Nat) :
    ((List.range 256).map f).getD i 0 = if i < 256 then f i else 0 := by
  rw [List.getD_eq_getElem?_getD, List.getElem?_map]
  split_ifs with h
  · rw [List.getElem?_range h]; rfl
  · rw [List.getElem?_eq_none (by simpa using h)]; rfl

/-- A running checksum whose step is injective in the state and in the byte tells two
inputs apart that differ in one byte. -/
theorem foldl_state_ne {step : Nat → Nat → Nat} {P : Nat → Prop}
    (hP : ∀ s d, P s → d < 256 → P (step s d))
    (hs : ∀ s s' d, P s → P s' → d < 256 → step s d = step s' d → s = s')
    (data : List Nat) (hdata : ∀ x ∈ data, x < 256) (s s' : Nat) (h : P s) (h' : P s')
    (hne : s ≠ s') : data.foldl step s ≠ data.foldl step s' := by
  induction data generalizing s s' with
  | nil => simpa using hne
  | cons x rest ih =>
    simp only [List.foldl_cons]
    have hx : x < 256 := hdata x (by simp)
    exact ih (fun y hy => hdata y (by simp [hy])) _ _ (hP s x h hx) (hP s' x h' hx)
      (fun e => hne (hs s s' x h h' hx e))

theorem foldl_set_ne {step : Nat → Nat → Nat} {P : Nat → Prop}
    (hP : ∀ s d, P s → d < 256 → P (step s d))
    (hs : ∀ s s' d, P s → P s' → d < 256 → step s d = step s' d → s = s')
    (hd : ∀ s d d', P s → d < 256 → d' < 256 → step s d = step s d' → d = d')
    (data : List Nat) (hdata : ∀ x ∈ data, x < 256) (i b : Nat) (hb : b < 256)
    (hi : i < data.length) (hne : b ≠ data.getD i 0) (s : Nat) (h : P s) :
    (data.set i b).foldl step s ≠ data.foldl step s := by
  induction data generalizing i s with
  | nil => simp at hi
  | cons x rest ih =>
    have hx : x < 256 := hdata x (by simp)
    have hrest : ∀ y ∈ rest, y < 256 := fun y hy => hdata y (by simp [hy])
    cases i with
    | zero =>
      simp only [List.set_cons_zero, List.foldl_cons]
      simp only [List.getD_cons_zero] at hne
      exact foldl_state_ne hP hs rest hrest _ _ (hP s b h hb) (hP s x h hx)
        (fun e => hne (hd s b x h hb hx e))
    | succ j =>
      simp only [List.set_cons_succ, List.foldl_cons]
      simp only [List.getD_cons_succ] at hne
      exact ih hrest j (by simpa using hi) hne _ (hP s x h hx)

/-! ### The three CRC loops -/

set_option maxRecDepth 100000 in
theorem CRC8_TABLE_nodup : CRC8_TABLE.Nodup := by
  unfold CRC8_TABLE; decide!

set_option maxRecDepth 100000 in
theorem CRC16_TABLE_low_nodup : ((List.range 256).map (fun a => entry_crc16 a % 256)).Nodup := by
  decide!

set_option maxRecDepth 100000 in
theorem CRC32_TABLE_high_nodup :
    ((List.range 256).map (fun a => entry_crc32 a / 16777216)).Nodup := by
  decide!

set_option maxRecDepth 100000 in
theorem entry_crc8_lt : ∀ a < 256, entry_crc8 a < 256 := by decide!

set_option maxRecDepth 100000 in
theorem entry_crc16_lt : ∀ a < 256, entry_crc16 a < 65536 := by decide!

set_option maxRecDepth 100000 in
theorem entry_crc32_lt : ∀ a < 256, entry_crc32 a < 4294967296 := by decide!

theorem range_inj {f : Nat → Nat} (h : ((List.range 256).map f).Nodup) (a b : Nat)
    (ha : a < 256) (hb : b < 256) (e : f a = f b) : a = b :=
  List.inj_on_of_nodup_map h (List.mem_range.2 ha) (List.mem_range.2 hb) e

theorem xor_byte_lt {a b : Nat} (ha : a < 256) (hb : b < 256) : a ^^^ b < 256 :=
  Nat.xor_lt_two_pow (n := 8) ha hb

theorem crc8_step_eq {s d : Nat} (hs : s < 256) (hd : d < 256) :
    crc8_step s d = entry_crc8 (s ^^^ d) := by
  simp only [crc8_step, CRC8_TABLE, table_getD, if_pos (xor_byte_lt hs hd)]

theorem crc8_step_lt (s d : Nat) : crc8_step s d < 256 := by
  simp only [crc8_step, CRC8_TABLE, table_getD]
  split_ifs with h
  · exact entry_crc8_lt _ h
  · decide

theorem crc8_step_state_inj (s s' d : Nat) (hs : s < 256) (hs' : s' < 256) (hd : d < 256)
    (e : crc8_step s d = crc8_step s' d) : s = s' := by
  rw [crc8_step_eq hs hd, crc8_step_eq hs' hd] at e
  exact Nat.xor_left_inj.1
    (range_inj CRC8_TABLE_nodup _ _ (xor_byte_lt hs hd) (xor_byte_lt hs' hd) e)

theorem crc8_step_byte_inj (s d d' : Nat) (hs : s < 256) (hd : d < 256) (hd' : d' < 256)
    (e : crc8_step s d = crc8_step s d') : d = d' := by
  rw [crc8_step_eq hs hd, crc8_step_eq hs hd'] at e
  exact Nat.xor_right_inj.1
    (range_inj CRC8_TABLE_nodup _ _ (xor_byte_lt hs hd) (xor_byte_lt hs hd') e)

/-- The two bytes of the next CRC-16 state. -/
theorem crc16_step_bytes {s d : Nat} (hs : s < 65536) (hd : d < 256) :
    crc16_step s d % 256 = entry_crc16 ((s / 256) ^^^ d) % 256 ∧
    crc16_step s d / 256 = (s % 256) ^^^ (entry_crc16 ((s / 256) ^^^ d) / 256) := by
  have hhi : s / 256 < 256 := by omega
  have hidx := xor_byte_lt hhi hd
  have ht := entry_crc16_lt _ hidx
  have hstep : crc16_step s d = ((s * 256) ^^^ entry_crc16 ((s / 256) ^^^ d)) % 65536 := by
    simp only [crc16_step, CRC16_TABLE, table_getD, Nat.shiftLeft_eq, Nat.shiftRight_eq_div_pow,
      Nat.reducePow, if_pos hidx]
  generalize entry_crc16 ((s / 256) ^^^ d) = t at ht hstep
  rw [hstep]
  constructor
  · rw [Nat.mod_mod_of_dvd _ (by decide : 256 ∣ 65536)]
    have := xor_mod_two_pow (s * 256) t 8
    simp only [Nat.reducePow, Nat.mul_mod_left, Nat.zero_xor] at this
    exact this
  · have h1 : ((s * 256) ^^^ t) % 65536 / 256 = (((s * 256) ^^^ t) / 256) % 256 :=
      Nat.mod_mul_right_div_self _ 256 256
    have h2 := xor_shiftRight (s * 256) t 8
    simp only [Nat.shiftRight_eq_div_pow, Nat.reducePow] at h2
    have h3 := xor_mod_two_pow s (t / 256) 8
    simp only [Nat.reducePow] at h3
    rw [h1, h2, Nat.mul_div_cancel _ (by decide : 0 < 256), h3,
      Nat.mod_eq_of_lt (by omega : t / 256 < 256)]

theorem crc16_step_lt (s d : Nat) : crc16_step s d < 65536 := by
  unfold crc16_step
  exact Nat.mod_lt _ (by decide)

theorem crc16_step_state_inj (s s' d : Nat) (hs : s < 65536) (hs' : s' < 65536)
    (hd : d < 256) (e : crc16_step s d = crc16_step s' d) : s = s' := by
  obtain ⟨l1, h1⟩ := crc16_step_bytes hs hd
  obtain ⟨l2, h2⟩ := crc16_step_bytes hs' hd
  rw [e] at l1 h1
  have hhi : s / 256 = s' / 256 :=
    Nat.xor_left_inj.1 (range_inj CRC16_TABLE_low_nodup _ _
      (xor_byte_lt (by omega) hd) (xor_byte_lt (by omega) hd) (l1.symm.trans l2))
  rw [hhi] at h1
  have hlo : s % 256 = s' % 256 := Nat.xor_left_inj.1 (h1.symm.trans h2)
  omega

theorem crc16_step_byte_inj (s d d' : Nat) (hs : s < 65536) (hd : d < 256) (hd' : d' < 256)
    (e : crc16_step s d = crc16_step s d') : d = d' := by
  obtain ⟨l1, _⟩ := crc16_step_bytes hs hd
  obtain ⟨l2, _⟩ := crc16_step_bytes hs hd'
  rw [e] at l1
  exact Nat.xor_right_inj.1 (range_inj CRC16_TABLE_low_nodup _ _
    (xor_byte_lt (by omega) hd) (xor_byte_lt (by omega) hd') (l1.symm.trans l2))

/-- The next CRC-32 state, and its top byte. -/
theorem crc32_step_parts {s d : Nat} (hs : s < 4294967296) (hd : d < 256) :
    crc32_step s d = (s / 256) ^^^ entry_crc32 ((s % 256) ^^^ d) ∧
    crc32_step s d / 16777216 = entry_crc32 ((s % 256) ^^^ d) / 16777216 := by
  have hidx : (s % 256) ^^^ d < 256 := xor_byte_lt (by omega) hd
  have hand : (s ^^^ d) &&& 0xFF = (s % 256) ^^^ d := by
    have h1 := Nat.and_pow_two_sub_one_eq_mod (s ^^^ d) 8
    have h2 := xor_mod_two_pow s d 8
    simp only [Nat.reducePow, Nat.reduceSub] at h1 h2
    rw [h1, h2, Nat.mod_eq_of_lt hd]
  have hstep : crc32_step s d = (s / 256) ^^^ entry_crc32 ((s % 256) ^^^ d) := by
    simp only [crc32_step, CRC32_TABLE, table_getD, hand, Nat.shiftRight_eq_div_pow,
      Nat.reducePow, if_pos hidx]
  refine ⟨hstep, ?_⟩
  rw [hstep]
  have h2 := xor_shiftRight (s / 256) (entry_crc32 ((s % 256) ^^^ d)) 24
  simp only [Nat.shiftRight_eq_div_pow, Nat.reducePow] at h2
  rw [h2, Nat.div_eq_of_lt (by omega : s / 256 < 16777216), Nat.zero_xor]

theorem crc32_step_lt (s d : Nat) (hs : s < 4294967296) : crc32_step s d < 4294967296 := by
  simp only [crc32_step, CRC32_TABLE, table_getD, Nat.shiftRight_eq_div_pow, Nat.reducePow]
  refine Nat.xor_lt_two_pow (n := 32) (by omega) ?_
  split_ifs with h
  · exact entry_crc32_lt _ h
  · decide

theorem crc32_step_state_inj (s s' d : Nat) (hs : s < 4294967296) (hs' : s' < 4294967296)
    (hd : d < 256) (e : crc32_step s d = crc32_step s' d) : s = s' := by
  obtain ⟨p1, t1⟩ := crc32_step_parts hs hd
  obtain ⟨p2, t2⟩ := crc32_step_parts hs' hd
  rw [e] at p1 t1
  have hlo : s % 256 = s' % 256 :=
    Nat.xor_left_inj.1 (range_inj CRC32_TABLE_high_nodup _ _
      (xor_byte_lt (by omega) hd) (xor_byte_lt (by omega) hd) (t1.symm.trans t2))
  rw [hlo] at p1
  have hhi : s / 256 = s' / 256 := Nat.xor_left_inj.1 (p1.symm.trans p2)
  omega

theorem crc32_step_byte_inj (s d d' : Nat) (hs : s < 4294967296) (hd : d < 256)
    (hd' : d' < 256) (e : crc32_step s d = crc32_step s d') : d = d' := by
  obtain ⟨_, t1⟩ := crc32_step_parts hs hd
  obtain ⟨_, t2⟩ := crc32_step_parts hs hd'
  rw [e] at t1
  exact Nat.xor_right_inj.1 (range_inj CRC32_TABLE_high_nodup _ _
    (xor_byte_lt (by omega) hd) (xor_byte_lt (by omega) hd') (t1.symm.trans t2))

theorem foldl_state_lt {step : Nat → Nat → Nat} {P : Nat → Prop}
    (hP : ∀ s d, P s → P (step s d)) (data : List Nat) (s : Nat) (h : P s) :
    P (data.foldl step s) := by
  induction data generalizing s with
  | nil => simpa using h
  | cons x rest ih =>
    simp only [List.foldl_cons]
    exact ih _ (hP s x h)

/-- Replacing one byte changes the CRC-8. -/
theorem crc8_of_set_ne (data : List Nat) (hdata : ∀ x ∈ data, x < 256) (i b : Nat)
    (hb : b < 256) (hi : i < data.length) (hne : b ≠ data.getD i 0) :
    crc8_of (data.set i b) ≠ crc8_of data :=
  foldl_set_ne (P := fun s => s < 256) (fun s d _ _ => crc8_step_lt s d) crc8_step_state_inj
    crc8_step_byte_inj data hdata i b hb hi hne 0 (by decide)

/-- Replacing one byte changes the CRC-16. -/
theorem crc16_of_set_ne (data : List Nat) (hdata : ∀ x ∈ data, x < 256) (i b : Nat)
    (hb : b < 256) (hi : i < data.length) (hne : b ≠ data.getD i 0) :
    crc16_of (data.set i b) ≠ crc16_of data :=
  foldl_set_ne (P := fun s => s < 65536) (fun s d _ _ => crc16_step_lt s d)
    crc16_step_state_inj crc16_step_byte_inj data hdata i b hb hi hne 0xFFFF (by decide)

/-- Replacing one byte changes the CRC-32. -/
theorem crc32_of_set_ne (data : List Nat) (hdata : ∀ x ∈ data, x < 256) (i b : Nat)
    (hb : b < 256) (hi : i < data.length) (hne : b ≠ data.getD i 0) :
    crc32_of (data.set i b) ≠ crc32_of data := by
  unfold crc32_of
  intro e
  exact foldl_set_ne (P := fun s => s < 4294967296) (fun s d h _ => crc32_step_lt s d h)
    crc32_step_state_inj crc32_step_byte_inj data hdata i b hb hi hne 0xFFFFFFFF (by decide)
    (Nat.xor_left_inj.1 e)

theorem crc8_of_lt (data : List Nat) : crc8_of data < 256 :=
  foldl_state_lt (P := fun s => s < 256) (fun s d _ => crc8_step_lt s d) data 0 (by decide)

theorem crc16_of_lt (data : List Nat) : crc16_of data < 65536 :=
  foldl_state_lt (P := fun s => s < 65536) (fun s d _ => crc16_step_lt s d) data 0xFFFF
    (by decide)

theorem crc32_of_lt (data : List Nat) : crc32_of data < 4294967296 :=
  Nat.xor_lt_two_pow (n := 32)
    (foldl_state_lt (P := fun s => s < 4294967296) crc32_step_lt data 0xFFFFFFFF (by decide))
    (by decide)

/-! ### Every byte the encoder writes is a byte -/

theorem all_bytes_append (a b : List Nat) :
    all_bytes (a ++ b) = (all_bytes a && all_bytes b) := by
  simp [all_bytes, List.all_append]

theorem all_bytes_iff (a : List Nat) : all_bytes a = true ↔ ∀ x ∈ a, x < 256 := by
  simp [all_bytes]

theorem all_bytes_to_bytes (w n : Nat) : all_bytes (to_bytes w n) = true := by
  induction w generalizing n with
  | zero => rfl
  | succ k ih =>
    simp only [to_bytes, all_bytes, List.all_cons, Bool.and_eq_true, decide_eq_true_eq]
    exact ⟨Nat.mod_lt _ (by decide), ih _⟩

theorem length_to_bytes (w n : Nat) : (to_bytes w n).length = w := by
  induction w generalizing n with
  | zero => rfl
  | succ k ih => simp [to_bytes, ih]

theorem all_bytes_data_header (h : data_header) : all_bytes h.object_repr = true := by
  simp only [data_header.object_repr, all_bytes, List.all_cons, Bool.and_eq_true,
    decide_eq_true_eq]
  exact ⟨Nat.mod_lt _ (by decide), all_bytes_to_bytes 4 _⟩

theorem all_bytes_write_pod (w : bytes_writer) (bytes : List Nat)
    (hw : all_bytes w.m_data = true) (hb : all_bytes bytes = true) :
    all_bytes (w.write_pod bytes).m_data = true := by
  simp [bytes_writer.write_pod, all_bytes_append, hw, hb]

theorem all_bytes_write_vector (w : bytes_writer) (bytes : List Nat)
    (hw : all_bytes w.m_data = true) (hb : all_bytes bytes = true) :
    all_bytes (w.write_vector bytes).m_data = true := by
  simp [bytes_writer.write_vector, all_bytes_append, hw, hb]

/-- The object representation of a well-typed trivially copyable value consists of bytes. -/
theorem all_bytes_object_repr (T : Ty) (v : Val) (hv : has_type T v = true)
    (ht : is_trivially_copyable T = true) : all_bytes (object_repr v) = true := by
  cases T <;> simp only [is_trivially_copyable, Bool.false_eq_true] at ht <;>
    cases v <;> simp only [has_type, Bool.false_eq_true, Bool.and_eq_true] at hv <;>
    first
    | exact hv.2
    | (simp only [ht, Bool.not_true, Bool.false_eq_true, false_and] at hv)

/-- The bytes of a well-typed `std::vector<std::uint8_t>` are bytes. -/
theorem all_bytes_byte_vector_data (T : Ty) (v : Val) (hv : has_type T v = true)
    (ht : is_byte_vector T = true) : all_bytes (byte_vector_data v) = true := by
  unfold is_byte_vector at ht
  split at ht
  · cases v <;> simp only [has_type, Bool.false_eq_true, Bool.and_eq_true] at hv
    rename_i vs
    rw [all_bytes_iff]
    intro x hx
    simp only [byte_vector_data, elements, List.mem_flatten, List.mem_map] at hx
    obtain ⟨l, ⟨y, hy, rfl⟩, hxl⟩ := hx
    have hy2 := List.all_eq_true.1 hv.2 y hy
    cases y <;> simp only [has_type, Bool.false_eq_true, Bool.and_eq_true] at hy2
    exact (all_bytes_iff _).1 hy2.2 x hxl
  · exact absurd ht (by simp)

theorem all_bytes_op_shl (T : Ty) (ser : Val → bytes_writer → bytes_writer) (v : Val)
    (w : bytes_writer) (hv : has_type T v = true) (hw : all_bytes w.m_data = true)
    (hser : ∀ w : bytes_writer, all_bytes w.m_data = true → all_bytes (ser v w).m_data = true) :
    all_bytes (w.op_shl T ser v).m_data = true := by
  unfold bytes_writer.op_shl
  split_ifs with h1 h2
  · exact all_bytes_write_vector w _ hw (all_bytes_byte_vector_data T v hv h1)
  · exact all_bytes_write_pod w _ hw (all_bytes_object_repr T v hv h2)
  · exact hser w hw

theorem all_bytes_foldl_op_shl (T : Ty) (ser : Val → bytes_writer → bytes_writer)
    (vs : List Val) (w : bytes_writer) (hvs : vs.all (fun x => has_type T x) = true)
    (hw : all_bytes w.m_data = true)
    (hser : ∀ (v : Val) (w : bytes_writer), has_type T v = true → all_bytes w.m_data = true →
      all_bytes (ser v w).m_data = true) :
    all_bytes (vs.foldl (fun writer v => writer.op_shl T ser v) w).m_data = true := by
  induction vs generalizing w with
  | nil => simpa using hw
  | cons v rest ih =>
    simp only [List.all_cons, Bool.and_eq_true] at hvs
    simp only [List.foldl_cons]
    exact ih _ hvs.2 (all_bytes_op_shl T ser v w hvs.1 hw (fun w hw => hser v w hvs.1 hw))

theorem all_bytes_chunks (w n : Nat) (bytes : List Nat) (hb : all_bytes bytes = true) :
    ∀ c ∈ chunks w n bytes, all_bytes c = true := by
  induction n generalizing bytes with
  | zero => simp [chunks]
  | succ k ih =>
    intro c hc
    simp only [chunks, List.mem_cons] at hc
    rcases hc with rfl | hc
    · rw [all_bytes_iff] at hb ⊢
      exact fun x hx => hb x (List.mem_of_mem_take hx)
    · refine ih (bytes.drop w) ?_ c hc
      rw [all_bytes_iff] at hb ⊢
      exact fun x hx => hb x (List.mem_of_mem_drop hx)

theorem not_byte_vector_of_trivially_copyable (T : Ty) (h : is_trivially_copyable T = true) :
    is_byte_vector T = false := by
  cases T <;> simp_all [is_trivially_copyable, is_byte_vector]

/-- Streaming the elements of a trivially copyable `std::array` copies their bytes. -/
theorem all_bytes_foldl_op_shl_raw (T : Ty) (ser : Val → bytes_writer → bytes_writer)
    (cs : List (List Nat)) (w : bytes_writer) (ht : is_trivially_copyable T = true)
    (hcs : ∀ c ∈ cs, all_bytes c = true) (hw : all_bytes w.m_data = true) :
    all_bytes ((cs.map Val.raw).foldl (fun writer v => writer.op_shl T ser v) w).m_data
      = true := by
  induction cs generalizing w with
  | nil => simpa using hw
  | cons c rest ih =>
    simp only [List.map_cons, List.foldl_cons]
    refine ih _ (fun c hc => hcs c (by simp [hc])) ?_
    simp only [bytes_writer.op_shl, not_byte_vector_of_trivially_copyable T ht, ht,
      Bool.false_eq_true, if_false, if_true, object_repr]
    exact all_bytes_write_pod w _ hw (hcs c (by simp))

mutual
theorem all_bytes_serialize_object : ∀ (T : Ty) (v : Val) (w : bytes_writer),
    has_type T v = true → all_bytes w.m_data = true →
    all_bytes (serialize_object T v w).m_data = true
  | .uint8, v, w, hv, hw => by
      simp only [serialize_object]
      exact all_bytes_write_pod w _ hw (all_bytes_object_repr .uint8 v hv rfl)
  | .integral k, v, w, hv, hw => by
      simp only [serialize_object]
      exact all_bytes_write_pod w _ hw (all_bytes_object_repr (.integral k) v hv rfl)
  | .floating k, v, w, hv, hw => by
      simp only [serialize_object]
      exact all_bytes_write_pod w _ hw (all_bytes_object_repr (.floating k) v hv rfl)
  | .pod k, v, w, hv, hw => by
      simp only [serialize_object]
      exact all_bytes_write_pod _ _ (all_bytes_write_pod w _ hw (all_bytes_data_header _))
        (all_bytes_object_repr (.pod k) v hv rfl)
  | .pair a b, v, w, hv, hw => by
      cases v <;> simp only [has_type, Bool.false_eq_true, Bool.and_eq_true] at hv
      simp only [serialize_object]
      exact all_bytes_op_shl b _ _ _ hv.2
        (all_bytes_op_shl a _ _ _ hv.1 (all_bytes_write_pod w _ hw (all_bytes_data_header _))
          (fun w hw => all_bytes_serialize_object a _ w hv.1 hw))
        (fun w hw => all_bytes_serialize_object b _ w hv.2 hw)
  | .variant alts, v, w, hv, hw => by
      cases v <;> simp only [has_type, Bool.false_eq_true] at hv
      simp only [serialize_object]
      exact all_bytes_serialize_variant_alt alts _ _ _ hv
        (all_bytes_write_pod _ _ (all_bytes_write_pod w _ hw (all_bytes_data_header _))
          (all_bytes_to_bytes 4 _))
  | .tuple elems, v, w, hv, hw => by
      cases v <;> simp only [has_type, Bool.false_eq_true] at hv
      simp only [serialize_object]
      exact all_bytes_serialize_tuple_impl elems _ _ hv
        (all_bytes_write_pod w _ hw (all_bytes_data_header _))
  | .custom fields, v, w, hv, hw => by
      cases v <;> simp only [has_type, Bool.false_eq_true] at hv
      simp only [serialize_object]
      exact all_bytes_serialize_tuple_impl fields _ _ hv hw
  | .seq k e, v, w, hv, hw => by
      cases v <;> simp only [has_type, Bool.false_eq_true, Bool.and_eq_true] at hv
      simp only [serialize_object, elements]
      exact all_bytes_foldl_op_shl e _ _ _ hv.2
        (all_bytes_write_pod w _ hw (all_bytes_data_header _))
        (fun v w hv hw => all_bytes_serialize_object e v w hv hw)
  | .aso e, v, w, hv, hw => by
      cases v <;> simp only [has_type, Bool.false_eq_true, Bool.and_eq_true] at hv
      simp only [serialize_object, elements]
      exact all_bytes_foldl_op_shl e _ _ _ hv.2
        (all_bytes_write_pod w _ hw (all_bytes_data_header _))
        (fun v w hv hw => all_bytes_serialize_object e v w hv hw)
  | .forward_list e, v, w, hv, hw => by
      cases v <;> simp only [has_type, Bool.false_eq_true, Bool.and_eq_true] at hv
      simp only [serialize_object, elements]
      exact all_bytes_write_vector _ _
        (all_bytes_write_pod w _ hw (all_bytes_data_header _))
        (all_bytes_foldl_op_shl e _ _ _ hv.2 rfl
          (fun v w hv hw => all_bytes_serialize_object e v w hv hw))
  | .array e n, v, w, hv, hw => by
      simp only [serialize_object]
      cases v <;> simp only [has_type, Bool.false_eq_true, Bool.and_eq_true,
        decide_eq_true_eq] at hv
      · simp only [elements]
        exact all_bytes_foldl_op_shl_raw e _ _ _ hv.1.1.1.1 (all_bytes_chunks _ _ _ hv.2)
          (all_bytes_write_pod w _ hw (all_bytes_data_header _))
      · simp only [elements]
        exact all_bytes_foldl_op_shl e _ _ _ hv.2
          (all_bytes_write_pod w _ hw (all_bytes_data_header _))
          (fun v w hv hw => all_bytes_serialize_object e v w hv hw)
theorem all_bytes_serialize_variant_alt : ∀ (alts : List Ty) (i : Nat) (v : Val)
    (w : bytes_writer), has_type_alt alts i v = true → all_bytes w.m_data = true →
    all_bytes (serialize_variant_alt alts i v w).m_data = true
  | [], _, _, _, hv, _ => by simp [has_type_alt] at hv
  | t :: ts, 0, v, w, hv, hw => by
      simp only [has_type_alt] at hv
      simp only [serialize_variant_alt]
      exact all_bytes_op_shl t _ _ _ hv hw (fun w hw => all_bytes_serialize_object t v w hv hw)
  | t :: ts, i + 1, v, w, hv, hw => by
      simp only [has_type_alt] at hv
      simp only [serialize_variant_alt]
      exact all_bytes_serialize_variant_alt ts i v w hv hw
theorem all_bytes_serialize_tuple_impl : ∀ (ts : List Ty) (vs : List Val)
    (w : bytes_writer), has_types ts vs = true → all_bytes w.m_data = true →
    all_bytes (serialize_tuple_impl ts vs w).m_data = true
  | [], _, w, _, hw => by simpa [serialize_tuple_impl] using hw
  | t :: ts, [], _, hv, _ => by simp [has_types] at hv
  | t :: ts, v :: vs, w, hv, hw => by
      simp only [has_types, Bool.and_eq_true] at hv
      simp only [serialize_tuple_impl]
      exact all_bytes_serialize_tuple_impl ts vs _ hv.2
        (all_bytes_op_shl t _ _ _ hv.1 hw (fun w hw => all_bytes_serialize_object t v w hv.1 hw))
end

/-! ### The classifier and the header nibbles -/

theorem VERSION_eq : VERSION = 1 := by decide

theorem get_data_type_range (T : Ty) :
    (1 ≤ get_data_type T ∧ get_data_type T ≤ 6) ∨
      (8 ≤ get_data_type T ∧ get_data_type T ≤ 13) := by
  cases T <;> simp only [get_data_type, d_pair, d_variant, d_tuple, d_seq_container,
    d_aso_container, d_custom, d_byte8, d_byte16, d_byte32, d_byte64, d_float32, d_float64]
    <;> (try split_ifs) <;> decide

theorem get_sub_type_nibbles (S m len : Nat) (hm : m < 16) :
    (data_header.mk (S * 16 + m) len).get_sub_type = S := by
  simp only [data_header.get_sub_type, Nat.shiftRight_eq_div_pow, Nat.reducePow]
  omega

/-! ### The envelope in bytes -/

theorem from_bytes_to_bytes (w n : Nat) : from_bytes (to_bytes w n) = n % 256 ^ w := by
  induction w generalizing n with
  | zero => simp [to_bytes, from_bytes, Nat.mod_one]
  | succ k ih =>
    simp only [to_bytes, from_bytes, ih, Nat.pow_succ]
    rw [Nat.mul_comm (256 ^ k) 256, Nat.mod_mul, Nat.add_comm]

theorem to_bytes_mod (w n : Nat) : to_bytes w (n % 256 ^ w) = to_bytes w n := by
  induction w generalizing n with
  | zero => rfl
  | succ k ih =>
    simp only [to_bytes, Nat.pow_succ, List.cons.injEq]
    constructor
    · exact Nat.mod_mod_of_dvd n (Dvd.intro_left _ rfl)
    · rw [Nat.mul_comm (256 ^ k) 256, Nat.mod_mul_right_div_self, ih]

theorem length_envelope_bytes (a b c : Nat) : (envelope_bytes a b c).length = 10 := by
  simp only [envelope_bytes, List.length_append, length_to_bytes]

theorem packer_header_of_bytes (a b c : Nat) :
    packer_header.of_bytes (envelope_bytes a b c) =
      { version := a % 65536, crc := b % 4294967296, length := c % 4294967296 } := by
  have h2 := length_to_bytes 2 a
  have h4 := length_to_bytes 4 b
  have h4c := length_to_bytes 4 c
  unfold envelope_bytes packer_header.of_bytes
  rw [List.append_assoc, List.take_left' h2, List.drop_left' h2, List.take_left' h4,
    show (6 : Nat) = 2 + 4 from rfl, ← List.drop_drop, List.drop_left' h2, List.drop_left' h4,
    List.take_of_length_le (by rw [h4c]), from_bytes_to_bytes, from_bytes_to_bytes,
    from_bytes_to_bytes]
  rfl

theorem serialize_eq (T : Ty) (v : Val) (c : checksum_fn) (crc : Nat)
    (hc : c (serialize_payload T v) (serialize_payload T v).length = some crc) :
    serialize T v c = some (envelope_bytes VERSION (crc % 4294967296)
      ((serialize_payload T v).length % 4294967296) ++ serialize_payload T v) := by
  simp only [serialize, hc, make_packer_header, packer_header.set_version,
    packer_header.object_repr, bytes_writer.write_pod, bytes_writer.write_vector,
    List.nil_append, envelope_bytes]
  rfl

theorem read_envelope (hdr p : List Nat) (h : hdr.length = 10) :
    (Reader.unbounded { m_data := hdr ++ p, m_pos := 0 }).read packer_header_size =
      (hdr, .unbounded { m_data := hdr ++ p, m_pos := 10 }) := by
  have hcan : (10 : Nat) ≤ (hdr ++ p).length := by simp [h]
  simp only [Reader.read, bytes_reader.read, bytes_reader.can_read, bytes_reader.remaining,
    size_t_sub, packer_header_size, Nat.zero_le, if_true, Nat.sub_zero, ge_iff_le, hcan,
    decide_True, Bool.not_true, Bool.false_eq_true, if_false, List.drop_zero,
    List.take_left' h, Nat.zero_add]

/-- What `deserialize` does with an input of at least ten bytes. -/
theorem deserialize_append (T : Ty) (c : checksum_fn) (hdr p : List Nat)
    (h : hdr.length = 10) :
    deserialize T (hdr ++ p) c =
      if (packer_header.of_bytes hdr).version ≠ VERSION then some (default_val T)
      else
        match c p (packer_header.of_bytes hdr).length with
        | none => none
        | some x =>
            if x % 4294967296 ≠ (packer_header.of_bytes hdr).crc then some (default_val T)
            else (deserialize_object T
              (.unbounded { m_data := hdr ++ p, m_pos := 10 })).map Prod.fst := by
  unfold deserialize
  simp only [read_envelope hdr p h]
  rw [show packer_header_size = 10 from rfl, List.drop_left' h]

theorem to_bytes_4_of_lt_256 (x : Nat) (h : x < 256) : to_bytes 4 x = [x, 0, 0, 0] := by
  simp [to_bytes, Nat.mod_eq_of_lt h, Nat.div_eq_of_lt h]

theorem to_bytes_4_of_lt_65536 (x : Nat) (h : x < 65536) :
    to_bytes 4 x = [x % 256, x / 256, 0, 0] := by
  simp only [to_bytes, List.cons.injEq, and_true, true_and]
  omega

theorem length_serialize (T : Ty) (v : Val) (c : checksum_fn) (out : List Nat)
    (h : serialize T v c = some out) : out.length = 10 + (serialize_payload T v).length := by
  cases hc : c (serialize_payload T v) (serialize_payload T v).length with
  | none => simp [serialize, hc] at h
  | some crc =>
    rw [serialize_eq T v c crc hc, Option.some.injEq] at h
    rw [← h, List.length_append, length_envelope_bytes]

/-- A non-empty built-in strategy: it runs `f` over the range when the range is inside the
memory it is given, `f` stays within 32 bits and tells apart two inputs that differ in one
byte. -/
theorem builtin_crc (c : checksum_fn)
    (hc : c = crc8_checksum ∨ c = crc16_checksum ∨ c = crc32_checksum) :
    ∃ f : List Nat → Nat,
      (∀ data length, c data length =
        if length ≤ data.length then some (f (data.take length)) else none) ∧
      (∀ data, f data < 4294967296) ∧
      (∀ (data : List Nat) (i b : Nat), (∀ x ∈ data, x < 256) → b < 256 → i < data.length →
        b ≠ data.getD i 0 → f (data.set i b) ≠ f data) := by
  rcases hc with rfl | rfl | rfl
  · exact ⟨crc8_of, fun _ _ => rfl, fun d => by have := crc8_of_lt d; omega,
      fun d i b hd hb hi hne => crc8_of_set_ne d hd i b hb hi hne⟩
  · exact ⟨crc16_of, fun _ _ => rfl, fun d => by have := crc16_of_lt d; omega,
      fun d i b hd hb hi hne => crc16_of_set_ne d hd i b hb hi hne⟩
  · exact ⟨crc32_of, fun _ _ => rfl, crc32_of_lt,
      fun d i b hd hb hi hne => crc32_of_set_ne d hd i b hb hi hne⟩

theorem all_bytes_serialize_payload (T : Ty) (v : Val) (hv : has_type T v = true) :
    ∀ x ∈ serialize_payload T v, x < 256 :=
  (all_bytes_iff _).1 (all_bytes_serialize_object T v (bytes_writer.mk []) hv rfl)

/-! ### The growing writer only appends -/

theorem op_shl_append_of (T : Ty) (ser : Val → bytes_writer → bytes_writer) (v : Val)
    (hser : ∀ w : bytes_writer, ser v w = ⟨w.m_data ++ (ser v ⟨[]⟩).m_data⟩)
    (w : bytes_writer) :
    w.op_shl T ser v = ⟨w.m_data ++ ((bytes_writer.mk []).op_shl T ser v).m_data⟩ := by
  unfold bytes_writer.op_shl
  split_ifs
  · simp [bytes_writer.write_vector]
  · simp [bytes_writer.write_pod]
  · exact hser w

theorem foldl_op_shl_append_of (T : Ty) (ser : Val → bytes_writer → bytes_writer)
    (vs : List Val)
    (hser : ∀ (v : Val) (w : bytes_writer), ser v w = ⟨w.m_data ++ (ser v ⟨[]⟩).m_data⟩)
    (w : bytes_writer) :
    vs.foldl (fun writer v => writer.op_shl T ser v) w =
      ⟨w.m_data ++ (vs.map (fun v => ((bytes_writer.mk []).op_shl T ser v).m_data)).flatten⟩ := by
  induction vs generalizing w with
  | nil => simp
  | cons v rest ih =>
    simp only [List.foldl_cons, List.map_cons, List.flatten_cons]
    rw [ih, op_shl_append_of T ser v (hser v) w]
    simp

mutual
theorem serialize_object_append : ∀ (T : Ty) (v : Val) (w : bytes_writer),
    serialize_object T v w = ⟨w.m_data ++ (serialize_object T v ⟨[]⟩).m_data⟩
  | .uint8, v, w => by simp [serialize_object, bytes_writer.write_pod]
  | .integral _, v, w => by simp [serialize_object, bytes_writer.write_pod]
  | .floating _, v, w => by simp [serialize_object, bytes_writer.write_pod]
  | .pod _, v, w => by simp [serialize_object, bytes_writer.write_pod]
  | .pair a b, v, w => by
      cases v <;> simp only [serialize_object, List.append_nil]
      rw [op_shl_append_of b _ _ (serialize_object_append b _),
        op_shl_append_of a _ _ (serialize_object_append a _),
        op_shl_append_of b _ _ (serialize_object_append b _) (bytes_writer.op_shl _ _ _ _),
        op_shl_append_of a _ _ (serialize_object_append a _) (bytes_writer.write_pod _ _)]
      simp [bytes_writer.write_pod]
  | .variant alts, v, w => by
      cases v <;> simp only [serialize_object, List.append_nil]
      rw [serialize_variant_alt_append, serialize_variant_alt_append alts _ _
        (bytes_writer.write_pod _ _)]
      simp [bytes_writer.write_pod]
  | .tuple elems, v, w => by
      cases v <;> simp only [serialize_object, List.append_nil]
      rw [serialize_tuple_impl_append, serialize_tuple_impl_append elems _
        (bytes_writer.write_pod _ _)]
      simp [bytes_writer.write_pod]
  | .custom fields, v, w => by
      cases v <;> simp only [serialize_object, List.append_nil]
      exact serialize_tuple_impl_append fields _ w
  | .seq k e, v, w => by
      simp only [serialize_object]
      rw [foldl_op_shl_append_of e _ _ (serialize_object_append e),
        foldl_op_shl_append_of e _ _ (serialize_object_append e) (bytes_writer.write_pod _ _)]
      simp [bytes_writer.write_pod]
  | .aso e, v, w => by
      simp only [serialize_object]
      rw [foldl_op_shl_append_of e _ _ (serialize_object_append e),
        foldl_op_shl_append_of e _ _ (serialize_object_append e) (bytes_writer.write_pod _ _)]
      simp [bytes_writer.write_pod]
  | .array e n, v, w => by
      simp only [serialize_object]
      rw [foldl_op_shl_append_of e _ _ (serialize_object_append e),
        foldl_op_shl_append_of e _ _ (serialize_object_append e) (bytes_writer.write_pod _ _)]
      simp [bytes_writer.write_pod]
  | .forward_list e, v, w => by
      simp [serialize_object, bytes_writer.write_pod, bytes_writer.write_vector]
theorem serialize_variant_alt_append : ∀ (alts : List Ty) (i : Nat) (v : Val)
    (w : bytes_writer),
    serialize_variant_alt alts i v w = ⟨w.m_data ++ (serialize_variant_alt alts i v ⟨[]⟩).m_data⟩
  | [], _, _, w => by simp [serialize_variant_alt]
  | t :: ts, 0, v, w => by
      simp only [serialize_variant_alt]
      exact op_shl_append_of t _ _ (serialize_object_append t v) w
  | t :: ts, i + 1, v, w => by
      simp only [serialize_variant_alt]
      exact serialize_variant_alt_append ts i v w
theorem serialize_tuple_impl_append : ∀ (ts : List Ty) (vs : List Val) (w : bytes_writer),
    serialize_tuple_impl ts vs w = ⟨w.m_data ++ (serialize_tuple_impl ts vs ⟨[]⟩).m_data⟩
  | [], _, w => by simp [serialize_tuple_impl]
  | t :: ts, [], w => by simp [serialize_tuple_impl]
  | t :: ts, v :: vs, w => by
      simp only [serialize_tuple_impl]
      rw [serialize_tuple_impl_append ts vs, serialize_tuple_impl_append ts vs
        (bytes_writer.op_shl _ _ _ _), op_shl_append_of t _ _ (serialize_object_append t v) w]
      simp
end

/-! ### The layout of the payload -/

theorem stream_bytes_eq (T : Ty) (v : Val) :
    stream_bytes T v =
      if is_byte_vector T then byte_vector_data v
      else if is_trivially_copyable T then object_repr v
      else serialize_payload T v := by
  unfold stream_bytes bytes_writer.op_shl serialize_payload
  split_ifs <;> simp [bytes_writer.write_vector, bytes_writer.write_pod]

theorem serialize_payload_pair (a b : Ty) (x y : Val) :
    serialize_payload (.pair a b) (.pair x y) =
      (data_header.mk d_pair 2).object_repr ++ (stream_bytes a x ++ stream_bytes b y) := by
  unfold serialize_payload stream_bytes
  simp only [serialize_object]
  rw [op_shl_append_of b _ _ (serialize_object_append b _),
    op_shl_append_of a _ _ (serialize_object_append a _)]
  simp [bytes_writer.write_pod]

theorem serialize_payload_variant (alts : List Ty) (i : Nat) (x : Val) :
    serialize_payload (.variant alts) (.variant i x) =
      ((data_header.mk d_variant alts.length).set_sub_type (alt_data_type alts i)).object_repr
        ++ (to_bytes 4 i ++ alt_bytes alts i x) := by
  unfold serialize_payload alt_bytes
  simp only [serialize_object]
  rw [serialize_variant_alt_append]
  simp [bytes_writer.write_pod]

theorem serialize_payload_tuple (ts : List Ty) (vs : List Val) :
    serialize_payload (.tuple ts) (.tuple vs) =
      (data_header.mk d_tuple ts.length).object_repr ++ tuple_bytes ts vs := by
  unfold serialize_payload tuple_bytes
  simp only [serialize_object]
  rw [serialize_tuple_impl_append]
  simp [bytes_writer.write_pod]

theorem serialize_payload_custom (ts : List Ty) (vs : List Val) :
    serialize_payload (.custom ts) (.tuple vs) = tuple_bytes ts vs := by
  unfold serialize_payload tuple_bytes
  simp only [serialize_object]

theorem serialize_payload_seq (k : seq_kind) (e : Ty) (vs : List Val) :
    serialize_payload (.seq k e) (.seq vs) =
      (container_header d_seq_container (get_data_type e) vs.length).object_repr ++
        (vs.map (stream_bytes e)).flatten := by
  unfold serialize_payload
  simp only [serialize_object, elements]
  rw [foldl_op_shl_append_of e _ _ (serialize_object_append e)]
  simp only [bytes_writer.write_pod, List.nil_append]
  rfl

theorem serialize_payload_aso (e : Ty) (vs : List Val) :
    serialize_payload (.aso e) (.seq vs) =
      (container_header d_aso_container (get_data_type e) vs.length).object_repr ++
        (vs.map (stream_bytes e)).flatten := by
  unfold serialize_payload
  simp only [serialize_object, elements]
  rw [foldl_op_shl_append_of e _ _ (serialize_object_append e)]
  simp only [bytes_writer.write_pod, List.nil_append]
  rfl

theorem serialize_payload_forward_list (e : Ty) (vs : List Val) :
    serialize_payload (.forward_list e) (.seq vs) =
      (container_header d_seq_container (get_data_type e) vs.length).object_repr ++
        (vs.map (stream_bytes e)).flatten := by
  unfold serialize_payload
  simp only [serialize_object, elements]
  rw [foldl_op_shl_append_of e _ _ (serialize_object_append e)]
  simp only [bytes_writer.write_pod, bytes_writer.write_vector, List.nil_append]
  rfl

theorem tuple_bytes_cons (t : Ty) (ts : List Ty) (v : Val) (vs : List Val) :
    tuple_bytes (t :: ts) (v :: vs) = stream_bytes t v ++ tuple_bytes ts vs := by
  unfold tuple_bytes stream_bytes
  simp only [serialize_tuple_impl]
  rw [serialize_tuple_impl_append]

theorem alt_bytes_zero (t : Ty) (ts : List Ty) (v : Val) :
    alt_bytes (t :: ts) 0 v = stream_bytes t v := by
  unfold alt_bytes stream_bytes
  simp only [serialize_variant_alt]

theorem alt_bytes_succ (t : Ty) (ts : List Ty) (i : Nat) (v : Val) :
    alt_bytes (t :: ts) (i + 1) v = alt_bytes ts i v := by
  unfold alt_bytes
  simp only [serialize_variant_alt]

/-! ### Reading back what was written -/

theorem read_at (data : List Nat) (pos : Nat) (x rest : List Nat) (hpos : pos ≤ data.length)
    (hd : data.drop pos = x ++ rest) :
    (Reader.unbounded { m_data := data, m_pos := pos }).read x.length =
        (x, .unbounded { m_data := data, m_pos := pos + x.length }) ∧
      pos + x.length ≤ data.length ∧ data.drop (pos + x.length) = rest := by
  have hlen : data.length - pos = x.length + rest.length := by
    have := congrArg List.length hd
    simpa using this
  refine ⟨?_, by omega, ?_⟩
  · simp only [Reader.read, bytes_reader.read, bytes_reader.can_read, bytes_reader.remaining,
      size_t_sub, if_pos hpos, hd, List.take_left, ge_iff_le]
    rw [if_neg (by simp; omega)]
  · rw [← List.drop_drop, hd, List.drop_left]

theorem data_header_of_bytes (h : data_header) (ht : h.type < 256)
    (hl : h.length < 4294967296) : data_header.of_bytes h.object_repr = h := by
  cases h with
  | mk t l =>
    simp only [data_header.of_bytes, data_header.object_repr, List.headD_cons, List.drop_succ_cons,
      List.drop_zero, from_bytes_to_bytes, data_header.mk.injEq]
    exact ⟨Nat.mod_eq_of_lt ht, Nat.mod_eq_of_lt hl⟩

theorem length_data_header (h : data_header) : h.object_repr.length = 5 := by
  simp [data_header.object_repr, length_to_bytes]

theorem read_header_at (data : List Nat) (pos : Nat) (h : data_header) (rest : List Nat)
    (ht : h.type < 256) (hl : h.length < 4294967296) (hpos : pos ≤ data.length)
    (hd : data.drop pos = h.object_repr ++ rest) :
    (Reader.unbounded { m_data := data, m_pos := pos }).read_header =
        (h, .unbounded { m_data := data, m_pos := pos + 5 }) ∧
      pos + 5 ≤ data.length ∧ data.drop (pos + 5) = rest := by
  have := read_at data pos h.object_repr rest hpos hd
  rw [length_data_header] at this
  refine ⟨?_, this.2⟩
  simp only [Reader.read_header, header_size, this.1, data_header_of_bytes h ht hl]

/-- A well-typed value of a trivially copyable type is its object representation, of
`sizeof` bytes. -/
theorem has_type_trivially_copyable (T : Ty) (v : Val) (hv : has_type T v = true)
    (ht : is_trivially_copyable T = true) :
    v = .raw (object_repr v) ∧ (object_repr v).length = sizeof T := by
  cases T <;> simp only [is_trivially_copyable, Bool.false_eq_true] at ht <;>
    cases v <;> simp only [has_type, Bool.false_eq_true, Bool.and_eq_true,
      decide_eq_true_eq] at hv <;>
    first
    | exact ⟨rfl, by simpa [object_repr, sizeof] using hv.1⟩
    | exact ⟨rfl, by simpa [object_repr, sizeof] using hv.1.2⟩
    | (simp only [ht, Bool.not_true, Bool.false_eq_true, false_and] at hv)

theorem read_value_at (T : Ty) (v : Val) (data : List Nat) (pos : Nat) (suf : List Nat)
    (hT : restorable_member T (restorable T) = true) (hv : has_type T v = true)
    (hpos : pos ≤ data.length) (hd : data.drop pos = stream_bytes T v ++ suf)
    (hrec : restorable T = true → ∀ (data : List Nat) (pos : Nat) (suf : List Nat),
      pos ≤ data.length → data.drop pos = serialize_payload T v ++ suf →
      deserialize_object T (.unbounded { m_data := data, m_pos := pos }) =
        some (v, .unbounded { m_data := data,
                              m_pos := pos + (serialize_payload T v).length })) :
    (Reader.unbounded { m_data := data, m_pos := pos }).read_value T (deserialize_object T) =
      some (v, .unbounded { m_data := data, m_pos := pos + (stream_bytes T v).length }) := by
  by_cases htc : is_trivially_copyable T = true
  · have hsb : stream_bytes T v = object_repr v := by
      rw [stream_bytes_eq, if_neg (by simp [not_byte_vector_of_trivially_copyable T htc]),
        if_pos htc]
    obtain ⟨hraw, hlen⟩ := has_type_trivially_copyable T v hv htc
    rw [hsb] at hd ⊢
    have := (read_at data pos (object_repr v) suf hpos hd).1
    rw [hlen] at this
    unfold Reader.read_value
    rw [if_pos htc, this, ← hraw, hlen]
  · have hb : is_byte_vector T = false ∧ restorable T = true := by
      simpa [restorable_member, htc] using hT
    have hsb : stream_bytes T v = serialize_payload T v := by
      rw [stream_bytes_eq, if_neg (by simp [hb.1]), if_neg htc]
    rw [hsb] at hd ⊢
    unfold Reader.read_value
    rw [if_neg htc]
    exact hrec hb.2 data pos suf hpos hd

theorem read_elements_at (e : Ty) (vs : List Val) (data : List Nat) (pos : Nat)
    (suf : List Nat) (hT : restorable_member e (restorable e) = true)
    (hvs : vs.all (fun x => has_type e x) = true)
    (hpos : pos ≤ data.length)
    (hd : data.drop pos = (vs.map (stream_bytes e)).flatten ++ suf)
    (hrec : ∀ v : Val, has_type e v = true → restorable e = true →
      ∀ (data : List Nat) (pos : Nat) (suf : List Nat),
      pos ≤ data.length → data.drop pos = serialize_payload e v ++ suf →
      deserialize_object e (.unbounded { m_data := data, m_pos := pos }) =
        some (v, .unbounded { m_data := data,
                              m_pos := pos + (serialize_payload e v).length })) :
    read_elements (fun r => r.read_value e (deserialize_object e)) vs.length
        (.unbounded { m_data := data, m_pos := pos }) =
      some (vs, .unbounded { m_data := data,
                             m_pos := pos + ((vs.map (stream_bytes e)).flatten).length }) := by
  induction vs generalizing pos with
  | nil => simp [read_elements]
  | cons v rest ih =>
    simp only [List.all_cons, Bool.and_eq_true] at hvs
    simp only [List.map_cons, List.flatten_cons, List.append_assoc] at hd
    have h1 := read_value_at e v data pos _ hT hvs.1 hpos hd (hrec v hvs.1)
    have h2 := read_at data pos (stream_bytes e v) _ hpos hd
    have h3 := ih (pos + (stream_bytes e v).length) hvs.2 h2.2.1 h2.2.2
    simp only [List.length_cons, read_elements, h1, h3, List.map_cons, List.flatten_cons,
      List.length_append, Nat.add_assoc]

theorem container_header_facts (main sub size : Nat) (hm : main < 16) (hs : sub < 16) :
    (container_header main sub size).type < 256 ∧
    (container_header main sub size).get_main_type = main ∧
    (container_header main sub size).get_sub_type = sub ∧
    (container_header main sub size).length = size % 4294967296 := by
  simp only [container_header, data_header.set_main_type, data_header.set_sub_type,
    data_header.get_main_type, data_header.get_sub_type, and_true]
  interval_cases main <;> interval_cases sub <;> decide

theorem get_data_type_lt (T : Ty) : get_data_type T < 16 := by
  have := get_data_type_range T
  omega

theorem is_subtype_compitable_self (h : data_header) (dt : Nat) (hs : h.get_sub_type = dt) :
    h.is_subtype_compitable dt = true := by
  simp only [data_header.is_subtype_compitable, hs]
  split_ifs <;> simp

theorem has_type_alt_lt : ∀ (alts : List Ty) (i : Nat) (v : Val),
    has_type_alt alts i v = true → i < alts.length
  | [], _, _, h => by simp [has_type_alt] at h
  | _ :: _, 0, _, _ => by simp
  | _ :: ts, i + 1, v, h => by
      simp only [has_type_alt] at h
      have := has_type_alt_lt ts i v h
      simp only [List.length_cons]
      omega

mutual
/-- For a restorable type, `deserialize_object` reading at the start of the bytes
`serialize_object` wrote returns the value and stops right after those bytes, whatever
follows them. -/
theorem deserialize_object_at : ∀ (T : Ty) (v : Val) (data : List Nat) (pos : Nat)
    (suf : List Nat), restorable T = true → has_type T v = true → pos ≤ data.length →
    data.drop pos = serialize_payload T v ++ suf →
    deserialize_object T (.unbounded { m_data := data, m_pos := pos }) =
      some (v, .unbounded { m_data := data, m_pos := pos + (serialize_payload T v).length })
  | .uint8, v, data, pos, suf, _, hv, hpos, hd => by
      obtain ⟨hraw, hlen⟩ := has_type_trivially_copyable .uint8 v hv rfl
      have hp : serialize_payload .uint8 v = object_repr v := by
        simp [serialize_payload, serialize_object, bytes_writer.write_pod]
      rw [hp] at hd ⊢
      have := (read_at data pos _ suf hpos hd).1
      rw [hlen] at this
      simp only [deserialize_object]
      rw [show (1 : Nat) = sizeof .uint8 from rfl, this, ← hraw, hlen]
  | .integral w, v, data, pos, suf, _, hv, hpos, hd => by
      obtain ⟨hraw, hlen⟩ := has_type_trivially_copyable (.integral w) v hv rfl
      have hp : serialize_payload (.integral w) v = object_repr v := by
        simp [serialize_payload, serialize_object, bytes_writer.write_pod]
      rw [hp] at hd ⊢
      have := (read_at data pos _ suf hpos hd).1
      rw [hlen] at this
      simp only [deserialize_object]
      rw [show w = sizeof (.integral w) from rfl, this, ← hraw, hlen]
  | .floating w, v, data, pos, suf, _, hv, hpos, hd => by
      obtain ⟨hraw, hlen⟩ := has_type_trivially_copyable (.floating w) v hv rfl
      have hp : serialize_payload (.floating w) v = object_repr v := by
        simp [serialize_payload, serialize_object, bytes_writer.write_pod]
      rw [hp] at hd ⊢
      have := (read_at data pos _ suf hpos hd).1
      rw [hlen] at this
      simp only [deserialize_object]
      rw [show w = sizeof (.floating w) from rfl, this, ← hraw, hlen]
  | .pod w, v, data, pos, suf, hT, hv, hpos, hd => by
      obtain ⟨hraw, hlen⟩ := has_type_trivially_copyable (.pod w) v hv rfl
      simp only [restorable, decide_eq_true_eq] at hT
      have hp : serialize_payload (.pod w) v =
          (data_header.mk d_pod w).object_repr ++ object_repr v := by
        simp [serialize_payload, serialize_object, bytes_writer.write_pod,
          Nat.mod_eq_of_lt hT]
      rw [hp, List.append_assoc] at hd
      obtain ⟨h1, h2, h3⟩ := read_header_at data pos (data_header.mk d_pod w) _
        (by simp [d_pod]) hT hpos hd
      have h4 := (read_at data (pos + 5) _ suf h2 h3).1
      rw [hlen] at h4
      simp only [sizeof] at h4 hlen
      simp only [deserialize_object, h1, Nat.lt_irrefl, if_false, h4]
      rw [← hraw, hp, List.length_append, length_data_header, hlen, Nat.add_assoc]
  | .pair a b, v, data, pos, suf, hT, hv, hpos, hd => by
      cases v <;> simp only [has_type, Bool.false_eq_true, Bool.and_eq_true] at hv
      rename_i x y
      simp only [restorable, Bool.and_eq_true] at hT
      rw [serialize_payload_pair, List.append_assoc, List.append_assoc] at hd
      obtain ⟨h1, h2, h3⟩ := read_header_at data pos (data_header.mk d_pair 2) _
        (by decide) (by decide) hpos hd
      have r1 := read_value_at a x data (pos + 5) _ hT.1 hv.1 h2 h3
        (fun hr d p s hp hd => deserialize_object_at a x d p s hr hv.1 hp hd)
      obtain ⟨_, h4, h5⟩ := read_at data (pos + 5) (stream_bytes a x) _ h2 h3
      have r2 := read_value_at b y data (pos + 5 + (stream_bytes a x).length) _ hT.2 hv.2 h4 h5
        (fun hr d p s hp hd => deserialize_object_at b y d p s hr hv.2 hp hd)
      simp only [deserialize_object, h1]
      rw [if_neg (by decide), r1]
      simp only [r2]
      rw [serialize_payload_pair, List.length_append, List.length_append, length_data_header]
      simp only [Nat.add_assoc]
  | .variant alts, v, data, pos, suf, hT, hv, hpos, hd => by
      cases v <;> simp only [has_type, Bool.false_eq_true] at hv
      rename_i i x
      simp only [restorable, Bool.and_eq_true, decide_eq_true_eq] at hT
      have hi : i < alts.length := has_type_alt_lt alts i x hv
      rw [serialize_payload_variant, List.append_assoc, List.append_assoc] at hd
      obtain ⟨h1, h2, h3⟩ := read_header_at data pos
        ((data_header.mk d_variant alts.length).set_sub_type (alt_data_type alts i)) _
        (by simp only [data_header.set_sub_type]; exact Nat.mod_lt _ (by decide))
        (by simpa [data_header.set_sub_type] using hT.1) hpos hd
      obtain ⟨h4, h5, h6⟩ := read_at data (pos + 5) (to_bytes 4 i) _ h2 h3
      rw [length_to_bytes] at h4 h5 h6
      have r1 := deserialize_variant_impl_at alts i x data (pos + 5 + 4) suf hT.2 hv h5 h6
      have hidx : from_bytes (to_bytes 4 i) = i := by
        rw [from_bytes_to_bytes]
        exact Nat.mod_eq_of_lt (by omega)
      simp only [deserialize_object, h1, h4, hidx, data_header.set_sub_type, ne_eq,
        not_true_eq_false, if_false, gt_iff_lt]
      rw [if_neg (by omega), r1]
      simp only [serialize_payload_variant, List.length_append, length_data_header,
        length_to_bytes, Nat.add_assoc]
  | .tuple elems, v, data, pos, suf, hT, hv, hpos, hd => by
      cases v <;> simp only [has_type, Bool.false_eq_true] at hv
      rename_i vs
      simp only [restorable, Bool.and_eq_true, decide_eq_true_eq] at hT
      rw [serialize_payload_tuple, List.append_assoc] at hd
      obtain ⟨h1, h2, h3⟩ := read_header_at data pos (data_header.mk d_tuple elems.length) _
        (by simp [d_tuple]) hT.1 hpos hd
      have r1 := deserialize_tuple_impl_at elems vs data (pos + 5) suf hT.2 hv h2 h3
      simp only [deserialize_object, h1, ne_eq, not_true_eq_false, if_false, r1]
      simp only [serialize_payload_tuple, List.length_append, length_data_header, Nat.add_assoc]
  | .custom fields, v, data, pos, suf, hT, hv, hpos, hd => by
      cases v <;> simp only [has_type, Bool.false_eq_true] at hv
      rename_i vs
      simp only [restorable] at hT
      rw [serialize_payload_custom] at hd
      have r1 := deserialize_tuple_impl_at fields vs data pos suf hT hv hpos hd
      simp only [deserialize_object, r1, serialize_payload_custom]
  | .seq k e, v, data, pos, suf, hT, hv, hpos, hd => by
      cases v <;> simp only [has_type, Bool.false_eq_true, Bool.and_eq_true,
        decide_eq_true_eq] at hv
      rename_i vs
      simp only [restorable] at hT
      rw [serialize_payload_seq, List.append_assoc] at hd
      obtain ⟨f1, f2, f3, f4⟩ := container_header_facts d_seq_container (get_data_type e)
        vs.length (by decide) (get_data_type_lt e)
      rw [Nat.mod_eq_of_lt hv.1] at f4
      obtain ⟨h1, h2, h3⟩ := read_header_at data pos _ _ f1 (by rw [f4]; exact hv.1) hpos hd
      have r1 := read_elements_at e vs data (pos + 5) suf hT hv.2 h2 h3
        (fun x hx hr d p s hp hd => deserialize_object_at e x d p s hr hx hp hd)
      simp only [deserialize_object, h1, f2, is_subtype_compitable_self _ _ f3, and_self,
        if_true, f4, r1]
      simp only [serialize_payload_seq, List.length_append, length_data_header, Nat.add_assoc]
  | .aso e, v, data, pos, suf, hT, hv, hpos, hd => by
      cases v <;> simp only [has_type, Bool.false_eq_true, Bool.and_eq_true,
        decide_eq_true_eq] at hv
      rename_i vs
      simp only [restorable] at hT
      rw [serialize_payload_aso, List.append_assoc] at hd
      obtain ⟨f1, f2, f3, f4⟩ := container_header_facts d_aso_container (get_data_type e)
        vs.length (by decide) (get_data_type_lt e)
      rw [Nat.mod_eq_of_lt hv.1] at f4
      obtain ⟨h1, h2, h3⟩ := read_header_at data pos _ _ f1 (by rw [f4]; exact hv.1) hpos hd
      have r1 := read_elements_at e vs data (pos + 5) suf hT hv.2 h2 h3
        (fun x hx hr d p s hp hd => deserialize_object_at e x d p s hr hx hp hd)
      simp only [deserialize_object, h1, f2, is_subtype_compitable_self _ _ f3, and_self,
        if_true, f4, r1]
      simp only [serialize_payload_aso, List.length_append, length_data_header, Nat.add_assoc]
  | .array _ _, _, _, _, _, hT, _, _, _ => by simp [restorable] at hT
  | .forward_list _, _, _, _, _, hT, _, _, _ => by simp [restorable] at hT
theorem deserialize_variant_impl_at : ∀ (alts : List Ty) (i : Nat) (v : Val)
    (data : List Nat) (pos : Nat) (suf : List Nat), restorable_members alts = true →
    has_type_alt alts i v = true → pos ≤ data.length →
    data.drop pos = alt_bytes alts i v ++ suf →
    deserialize_variant_impl alts i (.unbounded { m_data := data, m_pos := pos }) =
      some (v, .unbounded { m_data := data, m_pos := pos + (alt_bytes alts i v).length })
  | [], _, _, _, _, _, _, hv, _, _ => by simp [has_type_alt] at hv
  | t :: ts, 0, v, data, pos, suf, hT, hv, hpos, hd => by
      simp only [has_type_alt] at hv
      simp only [restorable_members, Bool.and_eq_true] at hT
      rw [alt_bytes_zero] at hd ⊢
      simp only [deserialize_variant_impl]
      exact read_value_at t v data pos suf hT.1 hv hpos hd
        (fun hr d p s hp hd => deserialize_object_at t v d p s hr hv hp hd)
  | t :: ts, i + 1, v, data, pos, suf, hT, hv, hpos, hd => by
      simp only [has_type_alt] at hv
      simp only [restorable_members, Bool.and_eq_true] at hT
      rw [alt_bytes_succ] at hd ⊢
      simp only [deserialize_variant_impl]
      exact deserialize_variant_impl_at ts i v data pos suf hT.2 hv hpos hd
theorem deserialize_tuple_impl_at : ∀ (ts : List Ty) (vs : List Val) (data : List Nat)
    (pos : Nat) (suf : List Nat), restorable_members ts = true → has_types ts vs = true →
    pos ≤ data.length → data.drop pos = tuple_bytes ts vs ++ suf →
    deserialize_tuple_impl ts (.unbounded { m_data := data, m_pos := pos }) =
      some (vs, .unbounded { m_data := data, m_pos := pos + (tuple_bytes ts vs).length })
  | [], vs, data, pos, suf, _, hv, _, _ => by
      cases vs <;> simp only [has_types, Bool.false_eq_true] at hv
      simp [deserialize_tuple_impl, tuple_bytes, serialize_tuple_impl]
  | t :: ts, [], _, _, _, _, hv, _, _ => by simp [has_types] at hv
  | t :: ts, v :: vs, data, pos, suf, hT, hv, hpos, hd => by
      simp only [has_types, Bool.and_eq_true] at hv
      simp only [restorable_members, Bool.and_eq_true] at hT
      rw [tuple_bytes_cons, List.append_assoc] at hd
      have r1 := read_value_at t v data pos _ hT.1 hv.1 hpos hd
        (fun hr d p s hp hd => deserialize_object_at t v d p s hr hv.1 hp hd)
      obtain ⟨_, h4, h5⟩ := read_at data pos (stream_bytes t v) _ hpos hd
      have r2 := deserialize_tuple_impl_at ts vs data _ suf hT.2 hv.2 h4 h5
      simp only [deserialize_tuple_impl, r1, r2, tuple_bytes_cons, List.length_append,
        Nat.add_assoc]
end

/-- Round trip and conservation on the restorable types: over the bytes `serialize_object`
wrote for `v`, followed by any suffix, `deserialize_object<T>` from cursor 0 returns `v` and
leaves the cursor right after those bytes. -/
theorem round_trip_restorable (T : Ty) (v : Val) (suf : List Nat)
    (hT : restorable T = true) (hv : has_type T v = true) :
    deserialize_object T (.unbounded { m_data := serialize_payload T v ++ suf, m_pos := 0 }) =
      some (v, .unbounded { m_data := serialize_payload T v ++ suf,
                            m_pos := (serialize_payload T v).length }) := by
  have := deserialize_object_at T v (serialize_payload T v ++ suf) 0 suf hT hv
    (Nat.zero_le _) rfl
  rwa [Nat.zero_add] at this

/-- What a built-in strategy returns on the whole payload. -/
theorem builtin_checksum_total (c : checksum_fn)
    (hc : c = empty_checksum ∨ c = crc8_checksum ∨ c = crc16_checksum ∨ c = crc32_checksum)
    (p : List Nat) : ∃ x, c p p.length = some x ∧ x < 4294967296 := by
  rcases hc with rfl | rfl | rfl | rfl
  · exact ⟨0, rfl, by decide⟩
  · exact ⟨crc8_of p, by simp [crc8_checksum], by have := crc8_of_lt p; omega⟩
  · exact ⟨crc16_of p, by simp [crc16_checksum], by have := crc16_of_lt p; omega⟩
  · exact ⟨crc32_of p, by simp [crc32_checksum], crc32_of_lt p⟩

/-- Envelope round trip on the restorable types, for payloads below `2 ^ 32` bytes. -/
theorem envelope_round_trip_restorable (T : Ty) (v : Val) (c : checksum_fn)
    (hc : c = empty_checksum ∨ c = crc8_checksum ∨ c = crc16_checksum ∨ c = crc32_checksum)
    (hT : restorable T = true) (hv : has_type T v = true)
    (hlen : (serialize_payload T v).length < 4294967296) :
    (serialize T v c).bind (fun out => deserialize T out c) = some v := by
  obtain ⟨x, hx, hlt⟩ := builtin_checksum_total c hc (serialize_payload T v)
  rw [serialize_eq T v c x hx, Nat.mod_eq_of_lt hlt, Nat.mod_eq_of_lt hlen, Option.some_bind,
    deserialize_append T c _ _ (length_envelope_bytes _ _ _), packer_header_of_bytes,
    Nat.mod_eq_of_lt hlt, Nat.mod_eq_of_lt hlen]
  simp only [VERSION_eq, hx, Nat.mod_eq_of_lt hlt]
  rw [if_neg (by decide), if_neg (by simp)]
  have := deserialize_object_at T v
    (envelope_bytes 1 x (serialize_payload T v).length ++ serialize_payload T v) 10 [] hT hv
    (by simp [length_envelope_bytes])
    (by rw [List.drop_left' (length_envelope_bytes _ _ _), List.append_nil])
  rw [this]
  rfl

/-- The three container branches of the encoder write the same bytes for the same elements:
a header with main category `d_seq_container`, the element category and the element count,
then the elements streamed in order. -/
theorem serialize_payload_sequence (e : Ty) (n : Nat) (v : Val) :
    (∀ k, serialize_payload (.seq k e) v =
      (container_header d_seq_container (get_data_type e) (elements e 0 v).length).object_repr
        ++ ((elements e 0 v).map (stream_bytes e)).flatten) ∧
    serialize_payload (.forward_list e) v =
      (container_header d_seq_container (get_data_type e) (elements e 0 v).length).object_repr
        ++ ((elements e 0 v).map (stream_bytes e)).flatten ∧
    serialize_payload (.array e n) v =
      (container_header d_seq_container (get_data_type e) (elements e n v).length).object_repr
        ++ ((elements e n v).map (stream_bytes e)).flatten := by
  refine ⟨fun k => ?_, ?_, ?_⟩ <;>
  · unfold serialize_payload
    simp only [serialize_object]
    try rw [foldl_op_shl_append_of e _ _ (serialize_object_append e)]
    try rw [foldl_op_shl_append_of e _ _ (serialize_object_append e)]
    simp only [bytes_writer.write_pod, bytes_writer.write_vector, List.nil_append]
    rfl

/-- Cross-container substitution on the restorable element types: the bytes written for a
sequence of elements `xs`, each streamed as a member, decode as any `std::vector`,
`std::list`, `std::deque` or `std::basic_string` of that element type to `xs`. -/
theorem decode_sequence_bytes (k : seq_kind) (e : Ty) (xs : List Val) (suf : List Nat)
    (hT : restorable_member e (restorable e) = true)
    (hxs : xs.all (fun x => has_type e x) = true) (hlen : xs.length < 4294967296) :
    (deserialize_object (.seq k e) (.unbounded
      { m_data := (container_header d_seq_container (get_data_type e) xs.length).object_repr
          ++ (xs.map (stream_bytes e)).flatten ++ suf, m_pos := 0 })).map Prod.fst
      = some (.seq xs) := by
  have h := deserialize_object_at (.seq k e) (.seq xs)
    ((container_header d_seq_container (get_data_type e) xs.length).object_repr
          ++ (xs.map (stream_bytes e)).flatten ++ suf) 0 suf
    (by simpa [restorable] using hT)
    (by simp only [has_type, Bool.and_eq_true, decide_eq_true_eq]; exact ⟨hlen, hxs⟩)
    (Nat.zero_le _) (by rw [serialize_payload_seq]; rfl)
  rw [h]
  rfl

/-! ### The size estimator -/

theorem foldl_get_object_size_add (f : Val → Nat → Nat) (vs : List Val)
    (hf : ∀ v size, f v size = size + f v 0) (size : Nat) :
    vs.foldl (fun size v => f v size) size = size + (vs.map (fun v => f v 0)).sum := by
  induction vs generalizing size with
  | nil => simp
  | cons v rest ih =>
    simp only [List.foldl_cons, List.map_cons, List.sum_cons]
    rw [ih, hf v size, Nat.add_assoc]

mutual
theorem get_object_size_add : ∀ (T : Ty) (v : Val) (size : Nat),
    get_object_size T v size = size + get_object_size T v 0
  | .uint8, v, size => by simp [get_object_size]
  | .integral _, v, size => by simp [get_object_size]
  | .floating _, v, size => by simp [get_object_size]
  | .pod _, v, size => by simp [get_object_size, Nat.add_assoc]
  | .variant _, v, size => by cases v <;> simp [get_object_size, Nat.add_assoc]
  | .tuple _, v, size => by cases v <;> simp [get_object_size, Nat.add_assoc]
  | .custom _, v, size => by cases v <;> simp [get_object_size]
  | .pair a b, v, size => by
      cases v <;> simp only [get_object_size, Nat.add_zero, Nat.zero_add]
      rw [get_object_size_add b _ (get_object_size a _ _), get_object_size_add a _ (size + _),
        get_object_size_add b _ (get_object_size a _ _), get_object_size_add a _ header_size]
      omega
  | .seq _ e, v, size => by
      simp only [get_object_size]
      split_ifs
      · omega
      · rw [foldl_get_object_size_add _ _ (get_object_size_add e),
          foldl_get_object_size_add _ _ (get_object_size_add e) (0 + header_size)]
        omega
  | .aso e, v, size => by
      simp only [get_object_size]
      split_ifs
      · omega
      · rw [foldl_get_object_size_add _ _ (get_object_size_add e),
          foldl_get_object_size_add _ _ (get_object_size_add e) (0 + header_size)]
        omega
  | .array e n, v, size => by
      simp only [get_object_size]
      split_ifs
      · omega
      · rw [foldl_get_object_size_add _ _ (get_object_size_add e),
          foldl_get_object_size_add _ _ (get_object_size_add e) (0 + header_size)]
        omega
  | .forward_list e, v, size => by
      simp only [get_object_size]
      split_ifs
      · omega
      · rw [foldl_get_object_size_add _ _ (get_object_size_add e),
          foldl_get_object_size_add _ _ (get_object_size_add e) (0 + header_size)]
        omega
end

theorem length_container_payload (h : data_header) (e : Ty) (vs : List Val) :
    (h.object_repr ++ (vs.map (stream_bytes e)).flatten).length =
      5 + (vs.map (fun v => (stream_bytes e v).length)).sum := by
  rw [List.length_append, length_data_header, List.length_flatten, List.map_map]
  rfl

/-- The estimate for a scalar member is its width. -/
theorem scalar_member_size (T : Ty) (v : Val) (hv : has_type T v = true)
    (hs : T = .uint8 ∨ (∃ w, T = .integral w) ∨ ∃ w, T = .floating w) :
    get_object_size T v 0 = sizeof T ∧ (stream_bytes T v).length = sizeof T := by
  have htc : is_trivially_copyable T = true := by
    rcases hs with rfl | ⟨w, rfl⟩ | ⟨w, rfl⟩ <;> rfl
  have hlen := (has_type_trivially_copyable T v hv htc).2
  have hsb : stream_bytes T v = object_repr v := by
    rw [stream_bytes_eq, if_neg (by simp [not_byte_vector_of_trivially_copyable T htc]),
      if_pos htc]
  refine ⟨?_, by rw [hsb, hlen]⟩
  rcases hs with rfl | ⟨w, rfl⟩ | ⟨w, rfl⟩ <;> simp [get_object_size, sizeof]

theorem member_size (T : Ty) (v : Val) (hT : size_exact_member T (size_exact T) = true)
    (hv : has_type T v = true)
    (hrec : size_exact T = true → get_object_size T v 0 = (serialize_payload T v).length) :
    get_object_size T v 0 = (stream_bytes T v).length := by
  by_cases hs : T = .uint8 ∨ (∃ w, T = .integral w) ∨ ∃ w, T = .floating w
  · obtain ⟨h1, h2⟩ := scalar_member_size T v hv hs
    rw [h1, h2]
  · have h : is_trivially_copyable T = false ∧ is_byte_vector T = false ∧
        size_exact T = true := by
      cases T <;> simp_all [size_exact_member]
    rw [stream_bytes_eq, if_neg (by simp [h.2.1]), if_neg (by simp [h.1])]
    exact hrec h.2.2

theorem members_sum (e : Ty) (vs : List Val) (hT : size_exact_member e (size_exact e) = true)
    (hvs : vs.all (fun x => has_type e x) = true)
    (hrec : ∀ v, has_type e v = true → size_exact e = true →
      get_object_size e v 0 = (serialize_payload e v).length) :
    (vs.map (fun v => get_object_size e v 0)).sum =
      (vs.map (fun v => (stream_bytes e v).length)).sum := by
  induction vs with
  | nil => rfl
  | cons v rest ih =>
    simp only [List.all_cons, Bool.and_eq_true] at hvs
    simp only [List.map_cons, List.sum_cons]
    rw [ih hvs.2, member_size e v hT hvs.1 (hrec v hvs.1)]

/-- The estimate for a container whose elements are exact as members. -/
theorem container_size (e : Ty) (vs : List Val) (size : Nat)
    (hT : size_exact_member e (size_exact e) = true)
    (hvs : vs.all (fun x => has_type e x) = true)
    (hrec : ∀ v, has_type e v = true → size_exact e = true →
      get_object_size e v 0 = (serialize_payload e v).length) :
    (if get_data_type e < d_pod then size + header_size + sizeof e * vs.length
      else vs.foldl (fun size v => get_object_size e v size) (size + header_size)) =
      size + 5 + (vs.map (fun v => (stream_bytes e v).length)).sum := by
  have hsum := members_sum e vs hT hvs hrec
  split_ifs with h
  · have hs : e = .uint8 ∨ (∃ w, e = .integral w) ∨ ∃ w, e = .floating w := by
      cases e <;> simp_all [get_data_type, d_pod, d_pair, d_variant, d_tuple,
        d_seq_container, d_aso_container, d_custom]
    have hall : ∀ v ∈ vs, (stream_bytes e v).length = sizeof e := fun v hv =>
      (scalar_member_size e v (List.all_eq_true.1 hvs v hv) hs).2
    rw [List.map_congr_left hall, List.map_const', List.sum_replicate, smul_eq_mul,
      Nat.mul_comm]
    rfl
  · rw [foldl_get_object_size_add _ _ (get_object_size_add e), hsum]
    rfl

mutual
/-- Size fidelity on the exact types: `get_size(v)` is the number of bytes
`serialize_object` appends for `v`. -/
theorem get_size_exact : ∀ (T : Ty) (v : Val), size_exact T = true → has_type T v = true →
    get_object_size T v 0 = (serialize_payload T v).length
  | .uint8, v, _, hv => by
      rw [(scalar_member_size .uint8 v hv (Or.inl rfl)).1,
        ← (scalar_member_size .uint8 v hv (Or.inl rfl)).2, stream_bytes_eq]
      rfl
  | .integral w, v, _, hv => by
      rw [(scalar_member_size (.integral w) v hv (Or.inr (Or.inl ⟨w, rfl⟩))).1,
        ← (scalar_member_size (.integral w) v hv (Or.inr (Or.inl ⟨w, rfl⟩))).2,
        stream_bytes_eq]
      rfl
  | .floating w, v, _, hv => by
      rw [(scalar_member_size (.floating w) v hv (Or.inr (Or.inr ⟨w, rfl⟩))).1,
        ← (scalar_member_size (.floating w) v hv (Or.inr (Or.inr ⟨w, rfl⟩))).2,
        stream_bytes_eq]
      rfl
  | .pod w, v, _, hv => by
      have hlen := (has_type_trivially_copyable (.pod w) v hv rfl).2
      simp only [sizeof] at hlen
      simp [get_object_size, serialize_payload, serialize_object, bytes_writer.write_pod,
        length_data_header, hlen, header_size]
  | .pair a b, v, hT, hv => by
      cases v <;> simp only [has_type, Bool.false_eq_true, Bool.and_eq_true] at hv
      rename_i x y
      simp only [size_exact, Bool.and_eq_true] at hT
      rw [serialize_payload_pair, List.length_append, List.length_append, length_data_header,
        ← member_size a x hT.1 hv.1 (fun h => get_size_exact a x h hv.1),
        ← member_size b y hT.2 hv.2 (fun h => get_size_exact b y h hv.2)]
      simp only [get_object_size, header_size, Nat.zero_add]
      rw [get_object_size_add b, get_object_size_add a]
      omega
  | .variant _, _, hT, _ => by simp [size_exact] at hT
  | .tuple elems, v, hT, hv => by
      cases v <;> simp only [has_type, Bool.false_eq_true] at hv
      rename_i vs
      simp only [size_exact] at hT
      rw [serialize_payload_tuple, List.length_append, length_data_header,
        ← get_tuple_size_exact elems vs hT hv]
      simp [get_object_size, header_size]
  | .custom fields, v, hT, hv => by
      cases v <;> simp only [has_type, Bool.false_eq_true] at hv
      rename_i vs
      simp only [size_exact] at hT
      rw [serialize_payload_custom, ← get_tuple_size_exact fields vs hT hv]
      simp [get_object_size]
  | .seq k e, v, hT, hv => by
      cases v <;> simp only [has_type, Bool.false_eq_true, Bool.and_eq_true] at hv
      rename_i vs
      simp only [size_exact] at hT
      rw [serialize_payload_seq, length_container_payload]
      simp only [get_object_size, elements]
      rw [container_size e vs 0 hT hv.2 (fun x hx h => get_size_exact e x h hx)]
  | .aso e, v, hT, hv => by
      cases v <;> simp only [has_type, Bool.false_eq_true, Bool.and_eq_true] at hv
      rename_i vs
      simp only [size_exact] at hT
      rw [serialize_payload_aso, length_container_payload]
      simp only [get_object_size, elements]
      rw [container_size e vs 0 hT hv.2 (fun x hx h => get_size_exact e x h hx)]
  | .forward_list e, v, hT, hv => by
      cases v <;> simp only [has_type, Bool.false_eq_true, Bool.and_eq_true] at hv
      rename_i vs
      simp only [size_exact] at hT
      rw [serialize_payload_forward_list, length_container_payload]
      simp only [get_object_size, elements]
      rw [container_size e vs 0 hT hv.2 (fun x hx h => get_size_exact e x h hx)]
  | .array _ _, _, hT, _ => by simp [size_exact] at hT
theorem get_tuple_size_exact : ∀ (ts : List Ty) (vs : List Val),
    size_exact_members ts = true → has_types ts vs = true →
    get_tuple_size_impl ts vs = (tuple_bytes ts vs).length
  | [], vs, _, hv => by
      cases vs <;> simp only [has_types, Bool.false_eq_true] at hv
      simp [get_tuple_size_impl, tuple_bytes, serialize_tuple_impl]
  | t :: ts, [], _, hv => by simp [has_types] at hv
  | t :: ts, v :: vs, hT, hv => by
      simp only [has_types, Bool.and_eq_true] at hv
      simp only [size_exact_members, Bool.and_eq_true] at hT
      rw [tuple_bytes_cons, List.length_append,
        ← member_size t v hT.1 hv.1 (fun h => get_size_exact t v h hv.1),
        ← get_tuple_size_exact ts vs hT.2 hv.2]
      simp [get_tuple_size_impl]
end

/-! ### The bounded writer stays inside its buffer -/

theorem length_store (memory : List Nat) (pos : Nat) (bytes : List Nat)
    (h : pos + bytes.length ≤ memory.length) :
    (store memory pos bytes).length = memory.length := by
  simp [store]
  omega

theorem store_take (memory : List Nat) (pos : Nat) (bytes : List Nat)
    (h : pos + bytes.length ≤ memory.length) :
    (store memory pos bytes).take (pos + bytes.length) = memory.take pos ++ bytes := by
  have h1 : (memory.take pos ++ bytes).length = pos + bytes.length := by
    simp; omega
  unfold store
  rw [← h1, List.take_left]

theorem store_drop (memory : List Nat) (pos : Nat) (bytes : List Nat) (L : Nat)
    (h : pos + bytes.length ≤ L) (hL : L ≤ memory.length) :
    (store memory pos bytes).drop L = memory.drop L := by
  have h1 : (memory.take pos ++ bytes).length = pos + bytes.length := by
    simp; omega
  unfold store
  rw [List.drop_append_eq_append_drop, h1]
  have h2 : (memory.take pos ++ bytes).drop L = [] := by
    apply List.drop_eq_nil_of_le; omega
  rw [h2, List.drop_drop, List.nil_append]
  congr 1
  omega

theorem size_t_sub_of_le (a b : Nat) (h : b ≤ a) : size_t_sub a b = a - b := by
  simp [size_t_sub, h]

/-- A fixed-width write that fits is stored whole at the cursor. -/
theorem write_pod_fits (w : bytes_writer_bounded) (b : List Nat)
    (hpos : w.m_pos ≤ w.m_length) (hfit : b.length ≤ w.m_length - w.m_pos) :
    w.write_pod b =
      { w with m_data := store w.m_data w.m_pos b, m_pos := w.m_pos + b.length } := by
  simp [bytes_writer_bounded.write_pod, bytes_writer_bounded.can_write,
    bytes_writer_bounded.remaining, size_t_sub_of_le _ _ hpos, hfit]

/-- A fixed-width write that does not fit changes nothing. -/
theorem write_pod_refused (w : bytes_writer_bounded) (b : List Nat)
    (hpos : w.m_pos ≤ w.m_length) (hfit : ¬ b.length ≤ w.m_length - w.m_pos) :
    w.write_pod b = w := by
  simp [bytes_writer_bounded.write_pod, bytes_writer_bounded.can_write,
    bytes_writer_bounded.remaining, size_t_sub_of_le _ _ hpos, hfit]

/-- What one fixed-width write does to a bounded writer in a sound state. -/
theorem write_pod_facts (w : bytes_writer_bounded) (b : List Nat)
    (hpos : w.m_pos ≤ w.m_length) (hmem : w.m_length ≤ w.m_data.length) :
    (w.write_pod b).m_length = w.m_length ∧
    (w.write_pod b).m_pos ≤ w.m_length ∧
    (w.write_pod b).m_data.length = w.m_data.length ∧
    (w.write_pod b).m_data.drop w.m_length = w.m_data.drop w.m_length ∧
    (w.write_pod b).m_pos =
      w.m_pos + (if b.length ≤ w.m_length - w.m_pos then b.length else 0) ∧
    (w.write_pod b).written =
      w.written ++ (if b.length ≤ w.m_length - w.m_pos then b else []) := by
  by_cases hfit : b.length ≤ w.m_length - w.m_pos
  · rw [write_pod_fits w b hpos hfit]
    simp only [if_pos hfit, bytes_writer_bounded.written]
    refine ⟨trivial, by omega, length_store _ _ _ (by omega),
      store_drop _ _ _ _ (by omega) hmem, trivial, ?_⟩
    exact store_take _ _ _ (by omega)
  · rw [write_pod_refused w b hpos hfit]
    simp [hfit, hpos]

/-- What one write of a raw span does to a bounded writer in a sound state. -/
theorem write_span_facts (w : bytes_writer_bounded) (data : List Nat)
    (hpos : w.m_pos ≤ w.m_length) (hmem : w.m_length ≤ w.m_data.length) :
    (w.write_span data data.length).m_length = w.m_length ∧
    (w.write_span data data.length).m_pos ≤ w.m_length ∧
    (w.write_span data data.length).m_data.length = w.m_data.length ∧
    (w.write_span data data.length).m_data.drop w.m_length = w.m_data.drop w.m_length ∧
    (w.write_span data data.length).written =
      w.written ++ data.take (w.m_length - w.m_pos) := by
  unfold bytes_writer_bounded.write_span
  simp only [size_t_sub_of_le _ _ hpos]
  have hlen : (data.take (min data.length (w.m_length - w.m_pos))).length =
      min data.length (w.m_length - w.m_pos) := by
    simp
  have htake : data.take (min data.length (w.m_length - w.m_pos)) =
      data.take (w.m_length - w.m_pos) := by
    rw [Nat.min_comm, ← List.take_take, List.take_length]
  split_ifs with h
  · simp only [bytes_writer_bounded.written]
    refine ⟨trivial, by omega, length_store _ _ _ (by omega),
      store_drop _ _ _ _ (by omega) hmem, ?_⟩
    have := store_take w.m_data w.m_pos
      (data.take (min data.length (w.m_length - w.m_pos))) (by omega)
    rw [hlen] at this
    rw [this, htake]
  · have h0 : data.take (w.m_length - w.m_pos) = [] := by
      rw [← htake]
      have : min data.length (w.m_length - w.m_pos) = 0 := by omega
      rw [this]; rfl
    simp [h0, hpos]

/-- What a sequence of writes does to a bounded writer in a sound state. -/
theorem apply_all_facts (ops : List bounded_write) (w : bytes_writer_bounded)
    (hpos : w.m_pos ≤ w.m_length) (hmem : w.m_length ≤ w.m_data.length) :
    (ops.foldl bytes_writer_bounded.apply w).m_length = w.m_length ∧
    (ops.foldl bytes_writer_bounded.apply w).m_pos ≤ w.m_length ∧
    (ops.foldl bytes_writer_bounded.apply w).m_data.length = w.m_data.length ∧
    (ops.foldl bytes_writer_bounded.apply w).m_data.drop w.m_length =
      w.m_data.drop w.m_length := by
  induction ops generalizing w with
  | nil => exact ⟨rfl, hpos, rfl, rfl⟩
  | cons op rest ih =>
    have h1 : (w.apply op).m_length = w.m_length ∧ (w.apply op).m_pos ≤ w.m_length ∧
        (w.apply op).m_data.length = w.m_data.length ∧
        (w.apply op).m_data.drop w.m_length = w.m_data.drop w.m_length := by
      cases op with
      | value bytes =>
        obtain ⟨a, b, c, d, _⟩ := write_pod_facts w bytes hpos hmem
        exact ⟨a, b, c, d⟩
      | span data =>
        obtain ⟨a, b, c, d, _⟩ := write_span_facts w data hpos hmem
        exact ⟨a, b, c, d⟩
    obtain ⟨a, b, c, d⟩ := h1
    have h2 := ih (w.apply op) (by omega) (by omega)
    rw [a, c, d] at h2
    exact h2

theorem write_all_cons (w : bytes_writer_bounded) (b : List Nat) (ws : List (List Nat)) :
    w.write_all (b :: ws) = (w.write_pod b).write_all ws := rfl

theorem write_all_append (w : bytes_writer_bounded) (xs ys : List (List Nat)) :
    w.write_all (xs ++ ys) = (w.write_all xs).write_all ys := by
  simp [bytes_writer_bounded.write_all]

/-- A sequence of fixed-width writes on a bounded writer in a sound state: the state stays
sound, nothing changes from the capacity on, and the bytes held grow by the writes that fit
at their turn. -/
theorem write_all_facts (ws : List (List Nat)) (w : bytes_writer_bounded)
    (hpos : w.m_pos ≤ w.m_length) (hmem : w.m_length ≤ w.m_data.length) :
    (w.write_all ws).m_length = w.m_length ∧
    (w.write_all ws).m_pos ≤ w.m_length ∧
    (w.write_all ws).m_data.length = w.m_data.length ∧
    (w.write_all ws).m_data.drop w.m_length = w.m_data.drop w.m_length ∧
    (w.write_all ws).written =
      w.written ++ (kept_writes ws (w.m_length - w.m_pos)).flatten := by
  induction ws generalizing w with
  | nil => simp [bytes_writer_bounded.write_all, kept_writes, hpos]
  | cons b rest ih =>
    obtain ⟨a, b1, c, d, e, f⟩ := write_pod_facts w b hpos hmem
    have h2 := ih (w.write_pod b) (by omega) (by omega)
    rw [a, c, d, f, e] at h2
    obtain ⟨h21, h22, h23, h24, h25⟩ := h2
    rw [write_all_cons]
    refine ⟨h21, h22, h23, h24, ?_⟩
    rw [h25]
    by_cases hfit : b.length ≤ w.m_length - w.m_pos
    · have hroom : w.m_length - (w.m_pos + b.length) = w.m_length - w.m_pos - b.length := by
        omega
      simp only [if_pos hfit, kept_writes, List.flatten_cons, List.append_assoc, hroom]
    · simp [hfit, kept_writes]

theorem kept_writes_sublist (ws : List (List Nat)) (room : Nat) :
    (kept_writes ws room).Sublist ws := by
  induction ws generalizing room with
  | nil => simp [kept_writes]
  | cons b rest ih =>
    unfold kept_writes
    split_ifs
    · exact (ih _).cons₂ b
    · exact (ih _).cons b

theorem kept_writes_length_le (ws : List (List Nat)) (room : Nat) :
    (kept_writes ws room).flatten.length ≤ room := by
  induction ws generalizing room with
  | nil => simp [kept_writes]
  | cons b rest ih =>
    unfold kept_writes
    split_ifs with h
    · have := ih (room - b.length)
      simp only [List.flatten_cons, List.length_append]
      omega
    · exact ih room

theorem kept_writes_of_fits (ws : List (List Nat)) (room : Nat)
    (h : ws.flatten.length ≤ room) : kept_writes ws room = ws := by
  induction ws generalizing room with
  | nil => simp [kept_writes]
  | cons b rest ih =>
    simp only [List.flatten_cons, List.length_append] at h
    unfold kept_writes
    rw [if_pos (by omega), ih _ (by omega)]

theorem flatten_sublist_of_sublist (xs ys : List (List Nat)) (h : xs.Sublist ys) :
    xs.flatten.Sublist ys.flatten := by
  induction h with
  | slnil => simp
  | cons a _ ih =>
    simp only [List.flatten_cons]
    exact ih.trans (List.sublist_append_right _ _)
  | cons₂ a _ ih =>
    simp only [List.flatten_cons]
    exact List.Sublist.append (List.Sublist.refl a) ih

/-! ### The bounded encoder is a sequence of fixed-width writes -/

theorem op_shl_bounded_eq (T : Ty) (ser : Val → bytes_writer_bounded → bytes_writer_bounded)
    (top : List (List Nat)) (v : Val) (w : bytes_writer_bounded)
    (hser : ∀ w : bytes_writer_bounded, ser v w = w.write_all top) :
    w.op_shl T ser v = w.write_all (member_writes T top v) := by
  unfold bytes_writer_bounded.op_shl member_writes
  split_ifs
  · rfl
  · exact hser w

theorem foldl_op_shl_bounded_eq (T : Ty)
    (ser : Val → bytes_writer_bounded → bytes_writer_bounded)
    (top : Val → List (List Nat)) (vs : List Val)
    (hser : ∀ (v : Val) (w : bytes_writer_bounded), ser v w = w.write_all (top v))
    (w : bytes_writer_bounded) :
    vs.foldl (fun writer v => writer.op_shl T ser v) w =
      w.write_all (vs.map (fun v => member_writes T (top v) v)).flatten := by
  induction vs generalizing w with
  | nil => rfl
  | cons v rest ih =>
    simp only [List.foldl_cons, List.map_cons, List.flatten_cons]
    rw [ih, op_shl_bounded_eq T ser (top v) v w (hser v), write_all_append]

theorem serialize_scratch_bounded_eq (w : bytes_writer_bounded) (scratch : List Nat) :
    serialize_scratch_bounded w scratch =
      w.write_all ((container_header d_seq_container d_byte8 scratch.length).object_repr ::
        scratch.map (fun b => [b])) := by
  unfold serialize_scratch_bounded bytes_writer_bounded.write_all
  rw [List.foldl_cons, List.foldl_map]

theorem scratch_eq (e : Ty) (vs : List Val) :
    (vs.foldl (fun _writer v => _writer.op_shl e (serialize_object e) v)
      (bytes_writer.mk [])).m_data = (vs.map (stream_bytes e)).flatten := by
  rw [foldl_op_shl_append_of e _ _ (serialize_object_append e)]
  simp only [List.nil_append]
  rfl

mutual
theorem serialize_object_bounded_eq : ∀ (T : Ty) (v : Val) (w : bytes_writer_bounded),
    serialize_object_bounded T v w = w.write_all (bounded_writes T v)
  | .uint8, v, w => by simp [serialize_object_bounded, bounded_writes,
      bytes_writer_bounded.write_all]
  | .integral _, v, w => by simp [serialize_object_bounded, bounded_writes,
      bytes_writer_bounded.write_all]
  | .floating _, v, w => by simp [serialize_object_bounded, bounded_writes,
      bytes_writer_bounded.write_all]
  | .pod _, v, w => by simp [serialize_object_bounded, bounded_writes,
      bytes_writer_bounded.write_all]
  | .pair a b, v, w => by
      cases v <;> simp only [serialize_object_bounded, bounded_writes] <;>
        try rfl
      rw [op_shl_bounded_eq b _ _ _ _ (serialize_object_bounded_eq b _),
        op_shl_bounded_eq a _ _ _ _ (serialize_object_bounded_eq a _),
        write_all_cons, write_all_append]
  | .variant alts, v, w => by
      cases v <;> simp only [serialize_object_bounded, bounded_writes] <;>
        try rfl
      rw [serialize_variant_alt_bounded_eq, write_all_cons, write_all_cons]
  | .tuple elems, v, w => by
      cases v <;> simp only [serialize_object_bounded, bounded_writes] <;>
        try rfl
      rw [serialize_tuple_impl_bounded_eq, write_all_cons]
  | .custom fields, v, w => by
      cases v <;> simp only [serialize_object_bounded, bounded_writes] <;>
        try rfl
      exact serialize_tuple_impl_bounded_eq fields _ w
  | .seq k e, v, w => by
      simp only [serialize_object_bounded, bounded_writes]
      rw [foldl_op_shl_bounded_eq e _ (bounded_writes e) _ (serialize_object_bounded_eq e),
        write_all_cons]
  | .aso e, v, w => by
      simp only [serialize_object_bounded, bounded_writes]
      rw [foldl_op_shl_bounded_eq e _ (bounded_writes e) _ (serialize_object_bounded_eq e),
        write_all_cons]
  | .array e n, v, w => by
      simp only [serialize_object_bounded, bounded_writes]
      rw [foldl_op_shl_bounded_eq e _ (bounded_writes e) _ (serialize_object_bounded_eq e),
        write_all_cons]
  | .forward_list e, v, w => by
      simp only [serialize_object_bounded, bounded_writes]
      rw [serialize_scratch_bounded_eq, scratch_eq, write_all_cons, write_all_cons,
        write_all_cons]
theorem serialize_variant_alt_bounded_eq : ∀ (alts : List Ty) (i : Nat) (v : Val)
    (w : bytes_writer_bounded),
    serialize_variant_alt_bounded alts i v w = w.write_all (bounded_alt_writes alts i v)
  | [], _, _, w => by simp [serialize_variant_alt_bounded, bounded_alt_writes,
      bytes_writer_bounded.write_all]
  | t :: ts, 0, v, w => by
      simp only [serialize_variant_alt_bounded, bounded_alt_writes]
      exact op_shl_bounded_eq t _ _ _ w (serialize_object_bounded_eq t v)
  | t :: ts, i + 1, v, w => by
      simp only [serialize_variant_alt_bounded, bounded_alt_writes]
      exact serialize_variant_alt_bounded_eq ts i v w
theorem serialize_tuple_impl_bounded_eq : ∀ (ts : List Ty) (vs : List Val)
    (w : bytes_writer_bounded),
    serialize_tuple_impl_bounded ts vs w = w.write_all (bounded_tuple_writes ts vs)
  | [], _, w => by simp [serialize_tuple_impl_bounded, bounded_tuple_writes,
      bytes_writer_bounded.write_all]
  | t :: ts, [], w => by simp [serialize_tuple_impl_bounded, bounded_tuple_writes,
      bytes_writer_bounded.write_all]
  | t :: ts, v :: vs, w => by
      simp only [serialize_tuple_impl_bounded, bounded_tuple_writes]
      rw [serialize_tuple_impl_bounded_eq ts vs, write_all_append,
        op_shl_bounded_eq t _ _ _ w (serialize_object_bounded_eq t v)]
end

/-- The call `writer << v` on a bounded writer is the sequence of its fixed-width writes. -/
theorem op_shl_bounded_writes (T : Ty) (v : Val) (w : bytes_writer_bounded) :
    w.op_shl T (serialize_object_bounded T) v =
      w.write_all (member_writes T (bounded_writes T v) v) :=
  op_shl_bounded_eq T _ _ v w (serialize_object_bounded_eq T v)

/-! ### Where both writers emit the same bytes -/

theorem serialize_payload_container (T : Ty) (e : Ty) (main : Nat) (n : Nat) (object : Val)
    (hT : ∀ w : bytes_writer, serialize_object T object w =
      (elements e n object).foldl (fun writer v => writer.op_shl e (serialize_object e) v)
        (w.write_pod (container_header main (get_data_type e)
          (elements e n object).length).object_repr)) :
    serialize_payload T object =
      (container_header main (get_data_type e) (elements e n object).length).object_repr ++
        ((elements e n object).map (stream_bytes e)).flatten := by
  unfold serialize_payload
  rw [hT, foldl_op_shl_append_of e _ _ (serialize_object_append e)]
  simp only [bytes_writer.write_pod, List.nil_append]
  rfl

theorem member_writes_flatten (T : Ty) (top : List (List Nat)) (v : Val)
    (h : writers_agree_member T (writers_agree T) = true)
    (htop : writers_agree T = true → top.flatten = serialize_payload T v) :
    (member_writes T top v).flatten = stream_bytes T v := by
  simp only [writers_agree_member, Bool.and_eq_true, Bool.not_eq_true', Bool.or_eq_true] at h
  rw [stream_bytes_eq, if_neg (by simp [h.1])]
  unfold member_writes
  split_ifs with hc
  · simp
  · rcases h.2 with h2 | h2
    · exact absurd h2 hc
    · exact htop h2

theorem map_member_writes_flatten (e : Ty) (top : Val → List (List Nat)) (vs : List Val)
    (h : ∀ v, (member_writes e (top v) v).flatten = stream_bytes e v) :
    ((vs.map (fun v => member_writes e (top v) v)).flatten).flatten =
      (vs.map (stream_bytes e)).flatten := by
  induction vs with
  | nil => rfl
  | cons v rest ih =>
    simp only [List.map_cons, List.flatten_cons, List.flatten_append, ih, h]

mutual
theorem bounded_writes_flatten : ∀ (T : Ty) (v : Val), writers_agree T = true →
    (bounded_writes T v).flatten = serialize_payload T v
  | .uint8, v, _ => by
      simp [bounded_writes, serialize_payload, serialize_object, bytes_writer.write_pod]
  | .integral _, v, _ => by
      simp [bounded_writes, serialize_payload, serialize_object, bytes_writer.write_pod]
  | .floating _, v, _ => by
      simp [bounded_writes, serialize_payload, serialize_object, bytes_writer.write_pod]
  | .pod _, v, _ => by
      simp [bounded_writes, serialize_payload, serialize_object, bytes_writer.write_pod]
  | .pair a b, v, h => by
      simp only [writers_agree, Bool.and_eq_true] at h
      cases v with
      | pair x y =>
        rw [serialize_payload_pair]
        simp only [bounded_writes, List.flatten_cons, List.flatten_append]
        rw [member_writes_flatten a _ x h.1 (bounded_writes_flatten a x),
          member_writes_flatten b _ y h.2 (bounded_writes_flatten b y)]
      | _ => simp [bounded_writes, serialize_payload, serialize_object]
  | .variant alts, v, h => by
      simp only [writers_agree] at h
      cases v with
      | variant i x =>
        rw [serialize_payload_variant]
        simp only [bounded_writes, List.flatten_cons]
        rw [bounded_alt_writes_flatten alts i x h]
      | _ => simp [bounded_writes, serialize_payload, serialize_object]
  | .tuple elems, v, h => by
      simp only [writers_agree] at h
      cases v with
      | tuple vs =>
        rw [serialize_payload_tuple]
        simp only [bounded_writes, List.flatten_cons]
        rw [bounded_tuple_writes_flatten elems vs h]
      | _ => simp [bounded_writes, serialize_payload, serialize_object]
  | .custom fields, v, h => by
      simp only [writers_agree] at h
      cases v with
      | tuple vs =>
        rw [serialize_payload_custom]
        simp only [bounded_writes]
        exact bounded_tuple_writes_flatten fields vs h
      | _ => simp [bounded_writes, serialize_payload, serialize_object]
  | .seq k e, v, h => by
      simp only [writers_agree] at h
      rw [serialize_payload_container (.seq k e) e d_seq_container 0 v
        (fun w => by simp only [serialize_object])]
      simp only [bounded_writes, List.flatten_cons]
      rw [map_member_writes_flatten e _ _
        (fun x => member_writes_flatten e _ x h (bounded_writes_flatten e x))]
  | .aso e, v, h => by
      simp only [writers_agree] at h
      rw [serialize_payload_container (.aso e) e d_aso_container 0 v
        (fun w => by simp only [serialize_object])]
      simp only [bounded_writes, List.flatten_cons]
      rw [map_member_writes_flatten e _ _
        (fun x => member_writes_flatten e _ x h (bounded_writes_flatten e x))]
  | .array e n, v, h => by
      simp only [writers_agree] at h
      rw [serialize_payload_container (.array e n) e d_seq_container n v
        (fun w => by simp only [serialize_object])]
      simp only [bounded_writes, List.flatten_cons]
      rw [map_member_writes_flatten e _ _
        (fun x => member_writes_flatten e _ x h (bounded_writes_flatten e x))]
  | .forward_list e, v, h => by simp [writers_agree] at h
theorem bounded_alt_writes_flatten : ∀ (alts : List Ty) (i : Nat) (v : Val),
    writers_agree_members alts = true →
    (bounded_alt_writes alts i v).flatten = alt_bytes alts i v
  | [], _, _, _ => by simp [bounded_alt_writes, alt_bytes, serialize_variant_alt]
  | t :: ts, 0, v, h => by
      simp only [writers_agree_members, Bool.and_eq_true] at h
      rw [alt_bytes_zero]
      simp only [bounded_alt_writes]
      exact member_writes_flatten t _ v h.1 (bounded_writes_flatten t v)
  | t :: ts, i + 1, v, h => by
      simp only [writers_agree_members, Bool.and_eq_true] at h
      rw [alt_bytes_succ]
      simp only [bounded_alt_writes]
      exact bounded_alt_writes_flatten ts i v h.2
theorem bounded_tuple_writes_flatten : ∀ (ts : List Ty) (vs : List Val),
    writers_agree_members ts = true →
    (bounded_tuple_writes ts vs).flatten = tuple_bytes ts vs
  | [], _, _ => by simp [bounded_tuple_writes, tuple_bytes, serialize_tuple_impl]
  | t :: ts, [], _ => by simp [bounded_tuple_writes, tuple_bytes, serialize_tuple_impl]
  | t :: ts, v :: vs, h => by
      simp only [writers_agree_members, Bool.and_eq_true] at h
      rw [tuple_bytes_cons]
      simp only [bounded_tuple_writes, List.flatten_append]
      rw [member_writes_flatten t _ v h.1 (bounded_writes_flatten t v),
        bounded_tuple_writes_flatten ts vs h.2]
end

/-- For a member type on which the writers agree, the fixed-width writes of the bounded
writer for `writer << v` are, joined, the bytes the growing writer appends. -/
theorem member_writes_stream_bytes (T : Ty) (v : Val)
    (h : writers_agree_member T (writers_agree T) = true) :
    (member_writes T (bounded_writes T v) v).flatten = stream_bytes T v :=
  member_writes_flatten T _ v h (bounded_writes_flatten T v)

/-- The bytes a bounded writer of capacity `n` over `buffer` holds after `writer << v`. -/
theorem written_op_shl (T : Ty) (v : Val) (buffer : List Nat) (n : Nat)
    (hn : n ≤ buffer.length) :
    ((bytes_writer_bounded.mk buffer 0 n).op_shl T (serialize_object_bounded T) v).written =
      (kept_writes (member_writes T (bounded_writes T v) v) n).flatten ∧
    ((bytes_writer_bounded.mk buffer 0 n).op_shl T (serialize_object_bounded T) v).m_pos ≤ n ∧
    ((bytes_writer_bounded.mk buffer 0 n).op_shl T
      (serialize_object_bounded T) v).m_data.length = buffer.length := by
  rw [op_shl_bounded_writes]
  obtain ⟨_, h2, h3, _, h5⟩ := write_all_facts (member_writes T (bounded_writes T v) v)
    (bytes_writer_bounded.mk buffer 0 n) (Nat.zero_le _) hn
  refine ⟨?_, h2, h3⟩
  rw [h5]
  simp [bytes_writer_bounded.written]

/-! ### The bounded overload of `serialize` -/

/-- A built-in checksum strategy reads the first `n` bytes of the memory only. -/
theorem builtin_checksum_take (c : checksum_fn)
    (hc : c = empty_checksum ∨ c = crc8_checksum ∨ c = crc16_checksum ∨ c = crc32_checksum)
    (memory : List Nat) (n : Nat) (hn : n ≤ memory.length) :
    c memory n = c (memory.take n) (memory.take n).length := by
  have hlen : (memory.take n).length = n := by simp [hn]
  rcases hc with rfl | rfl | rfl | rfl
  · rfl
  · simp [crc8_checksum, hn, hlen, List.take_take]
  · simp [crc16_checksum, hn, hlen, List.take_take]
  · simp [crc32_checksum, hn, hlen, List.take_take]

/-- The bounded overload of `serialize` in terms of the bytes its writer holds. -/
theorem serialize_bounded_eq (T : Ty) (buffer : List Nat) (bufsize : Nat) (v : Val)
    (c : checksum_fn)
    (hc : c = empty_checksum ∨ c = crc8_checksum ∨ c = crc16_checksum ∨ c = crc32_checksum)
    (hb : bufsize ≤ buffer.length) :
    serialize_bounded T buffer bufsize v c =
      match c (serialize_bounded_payload T buffer bufsize v)
        (serialize_bounded_payload T buffer bufsize v).length with
      | none => none
      | some crc => some ((make_packer_header crc
          (serialize_bounded_payload T buffer bufsize v).length).object_repr ++
          serialize_bounded_payload T buffer bufsize v) := by
  obtain ⟨_, h2, h3⟩ := written_op_shl T v buffer bufsize hb
  have hle : ((bytes_writer_bounded.mk buffer 0 bufsize).op_shl T
      (serialize_object_bounded T) v).m_pos ≤ ((bytes_writer_bounded.mk buffer 0 bufsize).op_shl T
      (serialize_object_bounded T) v).m_data.length := by omega
  have hlen : (serialize_bounded_payload T buffer bufsize v).length =
      ((bytes_writer_bounded.mk buffer 0 bufsize).op_shl T
        (serialize_object_bounded T) v).m_pos := by
    simp [serialize_bounded_payload, bytes_writer_bounded.written, hle]
  unfold serialize_bounded
  simp only [bytes_writer_bounded.count]
  rw [builtin_checksum_take c hc _ _ hle, hlen]
  simp only [serialize_bounded_payload, bytes_writer_bounded.written, bytes_writer.write_pod,
    bytes_writer.write_span, List.nil_append]
  rw [List.length_take, Nat.min_eq_left hle]

/-- At the top level the call `writer << v` appends what `serialize_object` appends, for a
scalar and for a type that is neither trivially copyable nor the byte vector. -/
theorem stream_bytes_top (T : Ty) (v : Val)
    (hT : size_exact_member T (size_exact T) = true) :
    stream_bytes T v = serialize_payload T v := by
  rw [stream_bytes_eq]
  cases T <;>
    simp_all [size_exact_member, is_byte_vector, is_trivially_copyable, serialize_payload,
      serialize_object, bytes_writer.write_pod]

/-! ### Reader bounds and the scenarios of the examples -/

/-- On `bytes_reader` the methods `read<T>`, `skip` and `seek` keep the cursor within the
source. -/
theorem bytes_reader_cursor_bound (r : bytes_reader) (n : Nat)
    (h : r.m_pos ≤ r.m_data.length) :
    (r.read n).2.m_pos ≤ r.m_data.length ∧ (r.skip n).m_pos ≤ r.m_data.length ∧
    (r.seek n).m_pos ≤ r.m_data.length ∧
    (r.read n).2.m_data = r.m_data ∧ (r.skip n).m_data = r.m_data ∧
    (r.seek n).m_data = r.m_data := by
  simp only [bytes_reader.read, bytes_reader.skip, bytes_reader.seek, bytes_reader.can_read,
    bytes_reader.remaining, bytes_reader.count, size_t_sub_of_le _ _ h]
  refine ⟨?_, ?_, ?_, ?_, ?_, ?_⟩ <;> split_ifs <;> simp_all <;> omega

/-- On `bytes_reader_bounded` the methods `read<T>`, `skip` and `seek` keep the cursor within
the declared length. -/
theorem bytes_reader_bounded_cursor_bound (r : bytes_reader_bounded) (n : Nat)
    (h : r.m_pos ≤ r.m_length) :
    (r.read n).2.m_pos ≤ r.m_length ∧ (r.skip n).m_pos ≤ r.m_length ∧
    (r.seek n).m_pos ≤ r.m_length ∧
    (r.read n).2.m_length = r.m_length ∧ (r.skip n).m_length = r.m_length ∧
    (r.seek n).m_length = r.m_length := by
  simp only [bytes_reader_bounded.read, bytes_reader_bounded.skip, bytes_reader_bounded.seek,
    bytes_reader_bounded.can_read, bytes_reader_bounded.remaining, bytes_reader_bounded.count,
    size_t_sub_of_le _ _ h]
  refine ⟨?_, ?_, ?_, ?_, ?_, ?_⟩ <;> split_ifs <;> simp_all <;> omega

/-- The header a reader of either class reads from five bytes at the cursor. -/
theorem read_header_zero_length (ty : Nat) (suf : List Nat) :
    (Reader.unbounded ⟨ty :: 0 :: 0 :: 0 :: 0 :: suf, 0⟩).read_header =
      (⟨ty, 0⟩, .unbounded ⟨ty :: 0 :: 0 :: 0 :: 0 :: suf, 5⟩) ∧
    ∀ length, 5 ≤ length →
      (Reader.bounded ⟨ty :: 0 :: 0 :: 0 :: 0 :: suf, 0, length⟩).read_header =
        (⟨ty, 0⟩, .bounded ⟨ty :: 0 :: 0 :: 0 :: 0 :: suf, 5, length⟩) := by
  constructor
  · simp [Reader.read_header, Reader.read, bytes_reader.read, bytes_reader.can_read,
      bytes_reader.remaining, size_t_sub, header_size, data_header.of_bytes, from_bytes]
  · intro length h5
    simp [Reader.read_header, Reader.read, bytes_reader_bounded.read,
      bytes_reader_bounded.can_read, bytes_reader_bounded.remaining, size_t_sub, header_size,
      data_header.of_bytes, from_bytes, h5]

theorem stream_bytes_int (x : Nat) : stream_bytes (.integral 4) (.raw (to_bytes 4 x)) =
    to_bytes 4 x := by
  rw [stream_bytes_eq]
  simp [is_byte_vector, is_trivially_copyable, object_repr]

theorem map_map_flatten_int (xs : List Nat) :
    ((xs.map (fun x => Val.raw (to_bytes 4 x))).map (stream_bytes (.integral 4))).flatten =
      (xs.map (to_bytes 4)).flatten := by
  induction xs with
  | nil => rfl
  | cons x rest ih =>
    simp only [List.map_cons, List.flatten_cons, stream_bytes_int, ih]

theorem length_flatten_int (xs : List Nat) :
    ((xs.map (to_bytes 4)).flatten).length = 4 * xs.length := by
  induction xs with
  | nil => rfl
  | cons x rest ih =>
    simp only [List.map_cons, List.flatten_cons, List.length_append, ih, length_to_bytes,
      List.length_cons]
    omega

/-- The six orders in which an `unordered_map` of three entries can iterate. -/
theorem map1_orders (entries : List (List Nat × Nat)) (h : entries.Perm map1) :
    entries ∈
      [[([74, 97, 99, 107, 121], 68), ([69, 108, 101, 109, 101, 110, 116], 97),
          ([66, 111, 98], 45)],
        [([74, 97, 99, 107, 121], 68), ([66, 111, 98], 45),
          ([69, 108, 101, 109, 101, 110, 116], 97)],
        [([69, 108, 101, 109, 101, 110, 116], 97), ([74, 97, 99, 107, 121], 68),
          ([66, 111, 98], 45)],
        [([69, 108, 101, 109, 101, 110, 116], 97), ([66, 111, 98], 45),
          ([74, 97, 99, 107, 121], 68)],
        [([66, 111, 98], 45), ([74, 97, 99, 107, 121], 68),
          ([69, 108, 101, 109, 101, 110, 116], 97)],
        [([66, 111, 98], 45), ([69, 108, 101, 109, 101, 110, 116], 97),
          ([74, 97, 99, 107, 121], 68)]] := by
  have hl := h.length_eq
  match entries, hl, h with
  | [x, y, z], _, h =>
    have hx : x ∈ map1 := h.subset (by simp)
    have hy : y ∈ map1 := h.subset (by simp)
    have hz : z ∈ map1 := h.subset (by simp)
    simp only [map1, List.mem_cons, List.mem_singleton, List.not_mem_nil, or_false] at hx hy hz
    rcases hx with rfl | rfl | rfl <;> rcases hy with rfl | rfl | rfl <;>
      rcases hz with rfl | rfl | rfl <;>
      first
      | decide
      | (exfalso; revert h; decide)

/-! ### Versions -/

theorem make_version_lt (major minor : Nat) (hM : major < 256) (hm : minor < 256) :
    make_version major minor < 4096 := by
  unfold make_version
  have h1 : major <<< 4 < 2 ^ 12 := by rw [Nat.shiftLeft_eq]; norm_num; omega
  have h2 : minor < 2 ^ 12 := by norm_num; omega
  have := Nat.or_lt_two_pow h1 h2
  norm_num at this
  omega

set_option maxRecDepth 100000 in
theorem make_version_small : ∀ major < 16, ∀ minor < 256,
    (make_version major minor = major * 256 + minor ↔ major = 0) := by
  decide!

/-- The result of `make_version` has the major version in the upper byte only when the major
version is 0. -/
theorem make_version_eq_iff (major minor : Nat) (hM : major < 256) (hm : minor < 256) :
    make_version major minor = major * 256 + minor ↔ major = 0 := by
  by_cases h : major < 16
  · exact make_version_small major h minor hm
  · have := make_version_lt major minor hM hm
    constructor <;> intro h2 <;> omega

/-- The setters of `packer_header` put the major version in the upper byte and the minor
version in the lower byte. -/
theorem set_major_minor_version (h : packer_header) (major minor : Nat) (hM : major < 256)
    (hm : minor < 256) :
    ((h.set_major_version major).set_minor_version minor).version = major * 256 + minor := by
  simp only [packer_header.set_major_version, packer_header.set_minor_version,
    Nat.mod_eq_of_lt hM, Nat.mod_eq_of_lt hm]
  have e1 : (0x00ff : Nat) = 2 ^ 8 - 1 := by norm_num
  have e2 : (65536 : Nat) = 2 ^ 16 := by norm_num
  have hsum : major * 256 + minor = (major <<< 8) ||| minor := by
    have := Nat.mul_add_lt_is_or (i := 8) (by norm_num; exact hm) major
    rw [Nat.shiftLeft_eq, Nat.mul_comm major (2 ^ 8), ← this]
    norm_num
    omega
  rw [hsum]
  apply Nat.eq_of_testBit_eq
  intro i
  have hMbit : ∀ j, 8 ≤ j → major.testBit j = false := by
    intro j hj
    apply Nat.testBit_lt_two_pow
    calc major < 2 ^ 8 := by norm_num; exact hM
      _ ≤ 2 ^ j := Nat.pow_le_pow_right (by decide) hj
  have hff00 : (0xff00 : Nat).testBit i = (decide (8 ≤ i) && decide (i < 16)) := by
    have : (0xff00 : Nat) = (2 ^ 8 - 1) <<< 8 := by decide
    rw [this, Nat.testBit_shiftLeft, Nat.testBit_two_pow_sub_one]
    by_cases h8 : 8 ≤ i <;> by_cases h16 : i < 16 <;> simp [h8, h16] <;> omega
  rw [e2, Nat.testBit_mod_two_pow, Nat.testBit_or, Nat.testBit_and, hff00,
    Nat.testBit_mod_two_pow, Nat.testBit_or, Nat.testBit_mod_two_pow, Nat.testBit_and, e1,
    Nat.testBit_two_pow_sub_one, Nat.testBit_or, Nat.testBit_shiftLeft]
  have hmbit : 8 ≤ i → minor.testBit i = false := by
    intro hi
    apply Nat.testBit_lt_two_pow
    calc minor < 2 ^ 8 := by norm_num; exact hm
      _ ≤ 2 ^ i := Nat.pow_le_pow_right (by decide) hi
  by_cases h8 : 8 ≤ i
  · by_cases h16 : i < 16
    · have : ¬ i < 8 := by omega
      simp [h8, h16, this, hmbit h8]
    · have : major.testBit (i - 8) = false := hMbit _ (by omega)
      simp [h8, h16, this, hmbit h8]
  · have : i < 8 := by omega
    have h16 : i < 16 := by omega
    simp [h8, h16, this]

/-! ### The tables against the bit-by-bit references -/

theorem crc32_round_eq (x : Nat) : crc32_round x = reflected_bit 0xEDB88320 x := by
  unfold crc32_round reflected_bit _polynomial_crc32
  have h1 : x &&& 1 = x % 2 := Nat.and_one_is_mod x
  have h2 : x >>> 1 = x / 2 := by simp [Nat.shiftRight_eq_div_pow]
  rw [h1, h2]
  by_cases h : x % 2 = 1
  · simp [h]
  · have : x % 2 = 0 := by omega
    simp [this]

theorem crc32_round_xor (a b : Nat) :
    crc32_round (a ^^^ b) = crc32_round a ^^^ crc32_round b := by
  have hm := xor_mod_two_pow a b 1
  simp only [pow_one] at hm
  have hx : (a ^^^ b) &&& 1 = (a % 2) ^^^ (b % 2) := by rw [Nat.and_one_is_mod, hm]
  unfold crc32_round
  rw [hx, Nat.and_one_is_mod, Nat.and_one_is_mod, xor_shiftRight]
  rcases Nat.mod_two_eq_zero_or_one a with ha | ha <;>
    rcases Nat.mod_two_eq_zero_or_one b with hb | hb <;>
    simp only [ha, hb] <;> simp
  · rw [Nat.xor_assoc]
  · ac_rfl
  · have h : a >>> 1 ^^^ _polynomial_crc32 ^^^ (b >>> 1 ^^^ _polynomial_crc32) =
        a >>> 1 ^^^ b >>> 1 ^^^ (_polynomial_crc32 ^^^ _polynomial_crc32) := by ac_rfl
    rw [h, Nat.xor_self, Nat.xor_zero]

theorem iterate_xor (f : Nat → Nat) (hf : ∀ a b, f (a ^^^ b) = f a ^^^ f b) (k a b : Nat) :
    Nat.iterate f k (a ^^^ b) = Nat.iterate f k a ^^^ Nat.iterate f k b := by
  induction k generalizing a b with
  | zero => rfl
  | succ k ih => simp only [Function.iterate_succ, Function.comp, hf, ih]

theorem crc32_iterate_high (k a : Nat) (h : a % 2 ^ k = 0) :
    Nat.iterate crc32_round k a = a >>> k := by
  induction k generalizing a with
  | zero => rfl
  | succ k ih =>
    have h2 : a % 2 = 0 := by
      have := Nat.mod_mod_of_dvd a (Dvd.intro_left (2 ^ k) rfl : 2 ∣ 2 ^ (k + 1))
      omega
    have hr : crc32_round a = a >>> 1 := by
      simp [crc32_round, Nat.and_one_is_mod, h2]
    have h3 : (a >>> 1) % 2 ^ k = 0 := by
      rw [Nat.shiftRight_eq_div_pow, pow_one]
      have : a % (2 * 2 ^ k) = 0 := by rw [← h]; congr 1; ring
      have h4 := Nat.mod_mul_right_div_self a 2 (2 ^ k)
      omega
    rw [Function.iterate_succ, Function.comp, hr, ih _ h3, ← Nat.shiftRight_add, Nat.add_comm]

theorem split_low_byte (x : Nat) : x = (x % 256) ^^^ ((x >>> 8) <<< 8) := by
  apply Nat.eq_of_testBit_eq
  intro i
  have : (256 : Nat) = 2 ^ 8 := by norm_num
  rw [this, Nat.testBit_xor, Nat.testBit_mod_two_pow, Nat.testBit_shiftLeft,
    Nat.testBit_shiftRight]
  by_cases h : i < 8
  · have h8 : ¬ 8 ≤ i := by omega
    simp [h, h8]
  · have h2 : 8 + (i - 8) = i := by omega
    simp [h, h2]
    omega

/-- Eight bits of the reflected register: the table entry of the low byte, under the rest. -/
theorem crc32_eight_bits (x : Nat) :
    Nat.iterate crc32_round 8 x = (x >>> 8) ^^^ entry_crc32 (x % 256) := by
  have hhigh : ((x >>> 8) <<< 8) % 2 ^ 8 = 0 := by
    rw [Nat.shiftLeft_eq]; simp
  have hshift : ((x >>> 8) <<< 8) >>> 8 = x >>> 8 := by
    rw [Nat.shiftLeft_eq, Nat.shiftRight_eq_div_pow ((x >>> 8) * 2 ^ 8)]; simp
  have hentry : entry_crc32 (x % 256) = Nat.iterate crc32_round 8 (x % 256) := by
    unfold entry_crc32
    rw [Nat.mod_eq_of_lt (a := x % 256) (by omega)]
  conv_lhs => rw [split_low_byte x]
  rw [iterate_xor _ crc32_round_xor, crc32_iterate_high 8 _ hhigh, hshift, hentry, Nat.xor_comm]

theorem crc32_step_eq_bits (s d : Nat) (hs : s < 4294967296) (hd : d < 256) :
    crc32_step s d = Nat.iterate (reflected_bit 0xEDB88320) 8 (s ^^^ d) := by
  have hfun : reflected_bit 0xEDB88320 = crc32_round := by
    funext x; exact (crc32_round_eq x).symm
  rw [hfun, crc32_eight_bits, (crc32_step_parts hs hd).1, xor_shiftRight]
  have h1 := xor_mod_two_pow s d 8
  simp only [Nat.reducePow] at h1
  have h2 : d >>> 8 = 0 := by
    rw [Nat.shiftRight_eq_div_pow]; simp; omega
  rw [h1, h2, Nat.mod_eq_of_lt hd, Nat.xor_zero, Nat.shiftRight_eq_div_pow]

theorem foldl_step_eq {f g : Nat → Nat → Nat} {P : Nat → Prop}
    (hP : ∀ s d, P s → d < 256 → P (f s d))
    (hfg : ∀ s d, P s → d < 256 → f s d = g s d)
    (data : List Nat) (hd : ∀ b ∈ data, b < 256) (s : Nat) (hs : P s) :
    data.foldl f s = data.foldl g s ∧ P (data.foldl f s) := by
  induction data generalizing s with
  | nil => exact ⟨rfl, hs⟩
  | cons x rest ih =>
    have hx : x < 256 := hd x (List.mem_cons_self _ _)
    simp only [List.foldl_cons]
    rw [← hfg s x hs hx]
    exact ih (fun b hb => hd b (List.mem_cons_of_mem _ hb)) _ (hP s x hs hx)

theorem complement_32 (x : Nat) (h : x < 4294967296) : x ^^^ 0xFFFFFFFF = 0xFFFFFFFF - x := by
  have h1 : (0xFFFFFFFF : Nat) - x = 2 ^ 32 - (x + 1) := by norm_num; omega
  have h2 : (0xFFFFFFFF : Nat) = 2 ^ 32 - 1 := by norm_num
  rw [h1]
  apply Nat.eq_of_testBit_eq
  intro i
  rw [Nat.testBit_two_pow_sub_succ (by norm_num; exact h), Nat.testBit_xor, h2,
    Nat.testBit_two_pow_sub_one]
  by_cases hi : i < 32
  · simp [hi]
  · have : x.testBit i = false := by
      apply Nat.testBit_lt_two_pow
      calc x < 2 ^ 32 := by norm_num; exact h
        _ ≤ 2 ^ i := Nat.pow_le_pow_right (by decide) (by omega)
    simp [hi, this]

/-- The table-driven CRC-32 is the reflected CRC-32 computed bit by bit. -/
theorem crc32_of_eq_bit_by_bit (data : List Nat) (hd : ∀ b ∈ data, b < 256) :
    crc32_of data = crc32_bit_by_bit data := by
  obtain ⟨h1, h2⟩ := foldl_step_eq (f := crc32_step)
    (g := fun crc b => Nat.iterate (reflected_bit 0xEDB88320) 8 (crc ^^^ b))
    (P := fun s => s < 4294967296)
    (fun s d hs _ => crc32_step_lt s d hs)
    (fun s d hs hd => crc32_step_eq_bits s d hs hd) data hd 0xFFFFFFFF (by decide)
  unfold crc32_of crc32_bit_by_bit
  rw [complement_32 _ h2, h1]

/-! #### CRC-16 -/

theorem crc16_round_eq (x : Nat) : crc16_round x = msb_first_bit 16 0x1021 x := by
  unfold crc16_round msb_first_bit polynomial_crc16
  have h1 : (x &&& 0x8000 ≠ 0) ↔ x.testBit 15 = true := by
    have : (0x8000 : Nat) = 2 ^ 15 := by norm_num
    rw [this, Nat.and_two_pow]
    cases x.testBit 15 <;> simp
  have h2 : x <<< 1 = 2 * x := by rw [Nat.shiftLeft_eq]; omega
  rw [h2]
  by_cases h : x.testBit 15 = true
  · rw [if_pos (h1.2 h)]; simp [h]
  · rw [if_neg (fun hh => h (h1.1 hh))]; simp [h]

theorem shiftLeft_xor (a b n : Nat) : (a ^^^ b) <<< n = (a <<< n) ^^^ (b <<< n) := by
  apply Nat.eq_of_testBit_eq
  intro i
  simp only [Nat.testBit_shiftLeft, Nat.testBit_xor]
  cases decide (i ≥ n) <;> simp

theorem crc16_round_xor (a b : Nat) :
    crc16_round (a ^^^ b) = crc16_round a ^^^ crc16_round b := by
  have hbit : ∀ x : Nat, (x &&& 0x8000 ≠ 0) ↔ x.testBit 15 = true := by
    intro x
    have : (0x8000 : Nat) = 2 ^ 15 := by norm_num
    rw [this, Nat.and_two_pow]
    cases x.testBit 15 <;> simp
  have hm : ∀ x y : Nat, (x ^^^ y) % 65536 = (x % 65536) ^^^ (y % 65536) := by
    intro x y
    have := xor_mod_two_pow x y 16
    simpa using this
  have hx : (a ^^^ b).testBit 15 = (a.testBit 15 ^^ b.testBit 15) := Nat.testBit_xor _ _ _
  unfold crc16_round
  simp only [hbit, hx, shiftLeft_xor, hm]
  cases ha : a.testBit 15 <;> cases hb : b.testBit 15 <;> simp
  · rw [Nat.xor_assoc]
  · ac_rfl
  · have h : a <<< 1 % 65536 ^^^ polynomial_crc16 % 65536 ^^^
        (b <<< 1 % 65536 ^^^ polynomial_crc16 % 65536) =
        a <<< 1 % 65536 ^^^ b <<< 1 % 65536 ^^^
          (polynomial_crc16 % 65536 ^^^ polynomial_crc16 % 65536) := by ac_rfl
    rw [h, Nat.xor_self, Nat.xor_zero]

theorem crc16_iterate_low (k x : Nat) (h : x * 2 ^ k < 65536) :
    Nat.iterate crc16_round k x = x <<< k := by
  induction k generalizing x with
  | zero => rfl
  | succ k ih =>
    have hx : x < 32768 := by
      have : 2 ^ (k + 1) ≥ 2 := by
        calc 2 ^ (k + 1) ≥ 2 ^ 1 := Nat.pow_le_pow_right (by decide) (by omega)
          _ = 2 := by norm_num
      nlinarith
    have htop : x.testBit 15 = false := by
      apply Nat.testBit_lt_two_pow
      norm_num; exact hx
    have hr : crc16_round x = x <<< 1 := by
      rw [crc16_round_eq]
      unfold msb_first_bit
      simp only [htop, Nat.shiftLeft_eq]
      norm_num
      omega
    have h3 : (x <<< 1) * 2 ^ k < 65536 := by
      rw [Nat.shiftLeft_eq]
      calc x * 2 ^ 1 * 2 ^ k = x * 2 ^ (k + 1) := by ring
        _ < 65536 := h
    rw [Function.iterate_succ, Function.comp, hr, ih _ h3, ← Nat.shiftLeft_add, Nat.add_comm]

theorem crc16_step_eq_bits (s d : Nat) (hs : s < 65536) (hd : d < 256) :
    crc16_step s d = Nat.iterate (msb_first_bit 16 0x1021) 8 (s ^^^ (d * 256)) := by
  have hfun : msb_first_bit 16 0x1021 = crc16_round := by
    funext x; exact (crc16_round_eq x).symm
  have hhi : s >>> 8 < 256 := by
    rw [Nat.shiftRight_eq_div_pow]; norm_num; omega
  have ht : (s >>> 8) ^^^ d < 256 := xor_byte_lt hhi hd
  have hsplit : s ^^^ (d * 256) = (s % 256) ^^^ (((s >>> 8) ^^^ d) <<< 8) := by
    have hd8 : d * 256 = d <<< 8 := by rw [Nat.shiftLeft_eq]
    conv_lhs => rw [split_low_byte s]
    rw [hd8, shiftLeft_xor, Nat.xor_assoc]
  have hlow : Nat.iterate crc16_round 8 (s % 256) = (s % 256) <<< 8 :=
    crc16_iterate_low 8 _ (by norm_num; omega)
  have hentry : entry_crc16 ((s >>> 8) ^^^ d) =
      Nat.iterate crc16_round 8 (((s >>> 8) ^^^ d) <<< 8) := by
    unfold entry_crc16
    rw [Nat.mod_eq_of_lt ht, Nat.mod_eq_of_lt]
    rw [Nat.shiftLeft_eq]; norm_num; omega
  have hm := xor_mod_two_pow (s <<< 8) (entry_crc16 ((s >>> 8) ^^^ d)) 16
  simp only [Nat.reducePow] at hm
  have hs8 : (s <<< 8) % 65536 = (s % 256) <<< 8 := by
    rw [Nat.shiftLeft_eq, Nat.shiftLeft_eq]; norm_num; omega
  rw [hfun, hsplit, iterate_xor _ crc16_round_xor, hlow, ← hentry]
  simp only [crc16_step, CRC16_TABLE, table_getD, if_pos ht]
  rw [hm, hs8, Nat.mod_eq_of_lt (entry_crc16_lt _ ht)]

/-- The table-driven CRC-16 is the MSB-first CRC-16 computed bit by bit. -/
theorem crc16_of_eq_bit_by_bit (data : List Nat) (hd : ∀ b ∈ data, b < 256) :
    crc16_of data = crc16_bit_by_bit data :=
  (foldl_step_eq (f := crc16_step)
    (g := fun crc b => Nat.iterate (msb_first_bit 16 0x1021) 8 (crc ^^^ (b * 256)))
    (P := fun s => s < 65536)
    (fun s d _ _ => crc16_step_lt s d)
    (fun s d hs hd => crc16_step_eq_bits s d hs hd) data hd 0xFFFF (by decide)).1

/-! #### CRC-8 -/

theorem crc8_round_eq (x : Nat) : crc8_round x = msb_first_bit 8 0x07 x := by
  unfold crc8_round msb_first_bit polynomial_crc8
  have h1 : (x &&& 0x80 ≠ 0) ↔ x.testBit 7 = true := by
    have : (0x80 : Nat) = 2 ^ 7 := by norm_num
    rw [this, Nat.and_two_pow]
    cases x.testBit 7 <;> simp
  have h2 : x <<< 1 = 2 * x := by rw [Nat.shiftLeft_eq]; omega
  rw [h2]
  by_cases h : x.testBit 7 = true
  · rw [if_pos (h1.2 h)]; simp [h]
  · rw [if_neg (fun hh => h (h1.1 hh))]; simp [h]

theorem crc8_step_eq_bits (s d : Nat) (hs : s < 256) (hd : d < 256) :
    crc8_step s d = Nat.iterate (msb_first_bit 8 0x07) 8 (s ^^^ d) := by
  have hfun : msb_first_bit 8 0x07 = crc8_round := by
    funext x; exact (crc8_round_eq x).symm
  rw [hfun, crc8_step_eq hs hd, entry_crc8, Nat.mod_eq_of_lt (xor_byte_lt hs hd)]

/-- The table-driven CRC-8 is the MSB-first CRC-8 computed bit by bit. -/
theorem crc8_of_eq_bit_by_bit (data : List Nat) (hd : ∀ b ∈ data, b < 256) :
    crc8_of data = crc8_bit_by_bit data :=
  (foldl_step_eq (f := crc8_step)
    (g := fun crc b => Nat.iterate (msb_first_bit 8 0x07) 8 (crc ^^^ b))
    (P := fun s => s < 256)
    (fun s d _ _ => crc8_step_lt s d)
    (fun s d hs hd => crc8_step_eq_bits s d hs hd) data hd 0 (by decide)).1

theorem checksum_of_leading_bytes (f : List Nat → Nat) (c : checksum_fn)
    (hc : ∀ data length, c data length =
      if length ≤ data.length then some (f (data.take length)) else none)
    (data rest : List Nat) : c (data ++ rest) data.length = some (f data) := by
  rw [hc, if_pos (by simp), List.take_left]

theorem stream_bytes_pod (w : Nat) (v : Val) : stream_bytes (.pod w) v = object_repr v := by
  rw [stream_bytes_eq]
  simp [is_byte_vector, is_trivially_copyable]

theorem map_stream_bytes_pod (w : Nat) (vs : List Val) :
    (vs.map (stream_bytes (.pod w))).flatten = (vs.map object_repr).flatten := by
  induction vs with
  | nil => rfl
  | cons v rest ih => simp only [List.map_cons, List.flatten_cons, stream_bytes_pod, ih]

/-! ### Decoding depends on the bytes ahead only -/

theorem drop_add_of_drop_eq {a b : List Nat} {p : Nat} (h : a.drop p = b.drop p) (n : Nat) :
    a.drop (p + n) = b.drop (p + n) := by
  rw [← List.drop_drop, ← List.drop_drop, h]

theorem read_same_ahead (r r' : Reader) (n : Nat) (h : r.same_ahead r') :
    (r.read n).1 = (r'.read n).1 ∧ (r.read n).2.same_ahead (r'.read n).2 := by
  cases r with
  | unbounded a =>
    cases r' with
    | unbounded b =>
      obtain ⟨h1, h2, h3⟩ := h
      simp only [Reader.read, bytes_reader.read, bytes_reader.can_read, bytes_reader.remaining,
        h1, h2]
      rw [h1] at h3
      split_ifs
      · exact ⟨rfl, h1, h2, by rw [h1]; exact h3⟩
      · exact ⟨by rw [h3], rfl, h2, drop_add_of_drop_eq h3 n⟩
    | bounded b => exact absurd h (by simp [Reader.same_ahead])
  | bounded a =>
    cases r' with
    | unbounded b => exact absurd h (by simp [Reader.same_ahead])
    | bounded b =>
      obtain ⟨h1, h2, h3⟩ := h
      simp only [Reader.read, bytes_reader_bounded.read, bytes_reader_bounded.can_read,
        bytes_reader_bounded.remaining, h1, h2]
      rw [h1] at h3
      split_ifs
      · exact ⟨rfl, h1, h2, by rw [h1]; exact h3⟩
      · exact ⟨by rw [h3], rfl, rfl, drop_add_of_drop_eq h3 n⟩

theorem read_header_same_ahead (r r' : Reader) (h : r.same_ahead r') :
    r.read_header.1 = r'.read_header.1 ∧ r.read_header.2.same_ahead r'.read_header.2 := by
  obtain ⟨h1, h2⟩ := read_same_ahead r r' header_size h
  simp only [Reader.read_header, h1]
  exact ⟨trivial, h2⟩

theorem read_value_same (T : Ty) (deser : Reader → Option (Val × Reader))
    (hd : ∀ r r' : Reader, r.same_ahead r' → same_result (deser r) (deser r'))
    (r r' : Reader) (h : r.same_ahead r') :
    same_result (r.read_value T deser) (r'.read_value T deser) := by
  unfold Reader.read_value
  split_ifs
  · obtain ⟨h1, h2⟩ := read_same_ahead r r' (sizeof T) h
    exact ⟨by rw [h1], h2⟩
  · exact hd r r' h

theorem read_elements_same (read : Reader → Option (Val × Reader))
    (hd : ∀ r r' : Reader, r.same_ahead r' → same_result (read r) (read r'))
    (n : Nat) (r r' : Reader) (h : r.same_ahead r') :
    same_result (read_elements read n r) (read_elements read n r') := by
  induction n generalizing r r' with
  | zero => exact ⟨rfl, h⟩
  | succ n ih =>
    simp only [read_elements]
    have h1 := hd r r' h
    cases hr : read r with
    | none =>
      cases hr' : read r' with
      | none => trivial
      | some p => rw [hr, hr'] at h1; exact h1.elim
    | some p =>
      cases hr' : read r' with
      | none => rw [hr, hr'] at h1; exact h1.elim
      | some p' =>
        rw [hr, hr'] at h1
        obtain ⟨v, s⟩ := p
        obtain ⟨v', s'⟩ := p'
        obtain ⟨hv, hs⟩ := h1
        have h2 := ih s s' hs
        simp only []
        cases he : read_elements read n s with
        | none =>
          cases he' : read_elements read n s' with
          | none => trivial
          | some q => rw [he, he'] at h2; exact h2.elim
        | some q =>
          cases he' : read_elements read n s' with
          | none => rw [he, he'] at h2; exact h2.elim
          | some q' =>
            rw [he, he'] at h2
            obtain ⟨vs, t⟩ := q
            obtain ⟨vs', t'⟩ := q'
            exact ⟨by rw [hv, h2.1], h2.2⟩

theorem same_result_value {α : Type} (x y : Option (α × Reader)) (h : same_result x y) :
    x.map Prod.fst = y.map Prod.fst := by
  cases x with
  | none => cases y with
    | none => rfl
    | some q => exact h.elim
  | some p => cases y with
    | none => exact h.elim
    | some q =>
      obtain ⟨v, r⟩ := p
      obtain ⟨v', r'⟩ := q
      simp only [Option.map_some', h.1]

mutual
theorem deserialize_object_same : ∀ (T : Ty) (r r' : Reader), r.same_ahead r' →
    same_result (deserialize_object T r) (deserialize_object T r')
  | .uint8, r, r', h => by
      obtain ⟨h1, h2⟩ := read_same_ahead r r' 1 h
      simp only [deserialize_object, h1]
      exact ⟨rfl, h2⟩
  | .integral w, r, r', h => by
      obtain ⟨h1, h2⟩ := read_same_ahead r r' w h
      simp only [deserialize_object, h1]
      exact ⟨rfl, h2⟩
  | .floating w, r, r', h => by
      obtain ⟨h1, h2⟩ := read_same_ahead r r' w h
      simp only [deserialize_object, h1]
      exact ⟨rfl, h2⟩
  | .pod w, r, r', h => by
      obtain ⟨h1, h2⟩ := read_header_same_ahead r r' h
      obtain ⟨h3, h4⟩ := read_same_ahead _ _ w h2
      simp only [deserialize_object, h1, h3]
      split_ifs
      · exact ⟨rfl, h2⟩
      · exact ⟨rfl, h4⟩
  | .array e n, r, r', h => by
      obtain ⟨_, h2⟩ := read_header_same_ahead r r' h
      simp only [deserialize_object]
      exact ⟨rfl, h2⟩
  | .forward_list e, r, r', h => by
      simp only [deserialize_object]
      trivial
  | .custom fields, r, r', h => by
      have h1 := deserialize_tuple_impl_same fields r r' h
      simp only [deserialize_object]
      cases hx : deserialize_tuple_impl fields r with
      | none =>
        cases hy : deserialize_tuple_impl fields r' with
        | none => trivial
        | some q => rw [hx, hy] at h1; exact h1.elim
      | some p =>
        cases hy : deserialize_tuple_impl fields r' with
        | none => rw [hx, hy] at h1; exact h1.elim
        | some q =>
          rw [hx, hy] at h1
          exact ⟨by rw [h1.1], h1.2⟩
  | .tuple elems, r, r', h => by
      obtain ⟨h1, h2⟩ := read_header_same_ahead r r' h
      have h3 := deserialize_tuple_impl_same elems _ _ h2
      simp only [deserialize_object, h1]
      split_ifs
      · exact ⟨rfl, h2⟩
      · cases hx : deserialize_tuple_impl elems r.read_header.2 with
        | none =>
          cases hy : deserialize_tuple_impl elems r'.read_header.2 with
          | none => trivial
          | some q => rw [hx, hy] at h3; exact h3.elim
        | some p =>
          cases hy : deserialize_tuple_impl elems r'.read_header.2 with
          | none => rw [hx, hy] at h3; exact h3.elim
          | some q =>
            rw [hx, hy] at h3
            exact ⟨by rw [h3.1], h3.2⟩
  | .pair a b, r, r', h => by
      obtain ⟨h1, h2⟩ := read_header_same_ahead r r' h
      have h3 := read_value_same a _ (deserialize_object_same a) _ _ h2
      simp only [deserialize_object, h1]
      split_ifs
      · exact ⟨rfl, h2⟩
      · cases hx : r.read_header.2.read_value a (deserialize_object a) with
        | none =>
          cases hy : r'.read_header.2.read_value a (deserialize_object a) with
          | none => trivial
          | some q => rw [hx, hy] at h3; exact h3.elim
        | some p =>
          cases hy : r'.read_header.2.read_value a (deserialize_object a) with
          | none => rw [hx, hy] at h3; exact h3.elim
          | some q =>
            rw [hx, hy] at h3
            obtain ⟨x, s⟩ := p
            obtain ⟨x', s'⟩ := q
            have h4 := read_value_same b _ (deserialize_object_same b) s s' h3.2
            simp only []
            cases hx2 : s.read_value b (deserialize_object b) with
            | none =>
              cases hy2 : s'.read_value b (deserialize_object b) with
              | none => trivial
              | some q2 => rw [hx2, hy2] at h4; exact h4.elim
            | some p2 =>
              cases hy2 : s'.read_value b (deserialize_object b) with
              | none => rw [hx2, hy2] at h4; exact h4.elim
              | some q2 =>
                rw [hx2, hy2] at h4
                exact ⟨by rw [h3.1, h4.1], h4.2⟩
  | .variant alts, r, r', h => by
      obtain ⟨h1, h2⟩ := read_header_same_ahead r r' h
      obtain ⟨h3, h4⟩ := read_same_ahead _ _ 4 h2
      have h5 := deserialize_variant_impl_same alts
        (from_bytes (r'.read_header.2.read 4).1) _ _ h4
      simp only [deserialize_object, h1, h3]
      split_ifs
      · exact ⟨rfl, h2⟩
      · exact ⟨rfl, h4⟩
      · cases hx : deserialize_variant_impl alts (from_bytes (r'.read_header.2.read 4).1)
            (r.read_header.2.read 4).2 with
        | none =>
          cases hy : deserialize_variant_impl alts (from_bytes (r'.read_header.2.read 4).1)
              (r'.read_header.2.read 4).2 with
          | none => trivial
          | some q => rw [hx, hy] at h5; exact h5.elim
        | some p =>
          cases hy : deserialize_variant_impl alts (from_bytes (r'.read_header.2.read 4).1)
              (r'.read_header.2.read 4).2 with
          | none => rw [hx, hy] at h5; exact h5.elim
          | some q =>
            rw [hx, hy] at h5
            exact ⟨by rw [h5.1], h5.2⟩
  | .seq k e, r, r', h => by
      obtain ⟨h1, h2⟩ := read_header_same_ahead r r' h
      have h3 := read_elements_same _
        (read_value_same e _ (deserialize_object_same e)) r'.read_header.1.length _ _ h2
      simp only [deserialize_object, h1]
      split_ifs
      · cases hx : read_elements (fun r => r.read_value e (deserialize_object e))
            r'.read_header.1.length r.read_header.2 with
        | none =>
          cases hy : read_elements (fun r => r.read_value e (deserialize_object e))
              r'.read_header.1.length r'.read_header.2 with
          | none => trivial
          | some q => rw [hx, hy] at h3; exact h3.elim
        | some p =>
          cases hy : read_elements (fun r => r.read_value e (deserialize_object e))
              r'.read_header.1.length r'.read_header.2 with
          | none => rw [hx, hy] at h3; exact h3.elim
          | some q =>
            rw [hx, hy] at h3
            exact ⟨by rw [h3.1], h3.2⟩
      · exact ⟨rfl, h2⟩
  | .aso e, r, r', h => by
      obtain ⟨h1, h2⟩ := read_header_same_ahead r r' h
      have h3 := read_elements_same _
        (read_value_same e _ (deserialize_object_same e)) r'.read_header.1.length _ _ h2
      simp only [deserialize_object, h1]
      split_ifs
      · cases hx : read_elements (fun r => r.read_value e (deserialize_object e))
            r'.read_header.1.length r.read_header.2 with
        | none =>
          cases hy : read_elements (fun r => r.read_value e (deserialize_object e))
              r'.read_header.1.length r'.read_header.2 with
          | none => trivial
          | some q => rw [hx, hy] at h3; exact h3.elim
        | some p =>
          cases hy : read_elements (fun r => r.read_value e (deserialize_object e))
              r'.read_header.1.length r'.read_header.2 with
          | none => rw [hx, hy] at h3; exact h3.elim
          | some q =>
            rw [hx, hy] at h3
            exact ⟨by rw [h3.1], h3.2⟩
      · exact ⟨rfl, h2⟩
theorem deserialize_variant_impl_same : ∀ (alts : List Ty) (i : Nat) (r r' : Reader),
    r.same_ahead r' →
    same_result (deserialize_variant_impl alts i r) (deserialize_variant_impl alts i r')
  | [], _, _, _, _ => by simp only [deserialize_variant_impl]; trivial
  | t :: ts, 0, r, r', h => by
      simp only [deserialize_variant_impl]
      exact read_value_same t _ (deserialize_object_same t) r r' h
  | t :: ts, i + 1, r, r', h => by
      simp only [deserialize_variant_impl]
      exact deserialize_variant_impl_same ts i r r' h
theorem deserialize_tuple_impl_same : ∀ (ts : List Ty) (r r' : Reader), r.same_ahead r' →
    same_result (deserialize_tuple_impl ts r) (deserialize_tuple_impl ts r')
  | [], r, r', h => by simp only [deserialize_tuple_impl]; exact ⟨rfl, h⟩
  | t :: ts, r, r', h => by
      have h3 := read_value_same t _ (deserialize_object_same t) r r' h
      simp only [deserialize_tuple_impl]
      cases hx : r.read_value t (deserialize_object t) with
      | none =>
        cases hy : r'.read_value t (deserialize_object t) with
        | none => trivial
        | some q => rw [hx, hy] at h3; exact h3.elim
      | some p =>
        cases hy : r'.read_value t (deserialize_object t) with
        | none => rw [hx, hy] at h3; exact h3.elim
        | some q =>
          rw [hx, hy] at h3
          obtain ⟨x, s⟩ := p
          obtain ⟨x', s'⟩ := q
          have h4 := deserialize_tuple_impl_same ts s s' h3.2
          simp only []
          cases hx2 : deserialize_tuple_impl ts s with
          | none =>
            cases hy2 : deserialize_tuple_impl ts s' with
            | none => trivial
            | some q2 => rw [hx2, hy2] at h4; exact h4.elim
          | some p2 =>
            cases hy2 : deserialize_tuple_impl ts s' with
            | none => rw [hx2, hy2] at h4; exact h4.elim
            | some q2 =>
              rw [hx2, hy2] at h4
              exact ⟨by rw [h3.1, h4.1], h4.2⟩
end

/-- The variant branch of the decoder uses the length field of the header and the bytes
after the header, nothing else. -/
theorem deserialize_variant_of_header (alts : List Ty) (r r' : Reader)
    (hlen : r.read_header.1.length = r'.read_header.1.length)
    (h : r.read_header.2.same_ahead r'.read_header.2) :
    same_result (deserialize_object (.variant alts) r) (deserialize_object (.variant alts) r') := by
  obtain ⟨h3, h4⟩ := read_same_ahead _ _ 4 h
  have h5 := deserialize_variant_impl_same alts
    (from_bytes (r'.read_header.2.read 4).1) _ _ h4
  simp only [deserialize_object, hlen, h3]
  split_ifs
  · exact ⟨rfl, h⟩
  · exact ⟨rfl, h4⟩
  · cases hx : deserialize_variant_impl alts (from_bytes (r'.read_header.2.read 4).1)
        (r.read_header.2.read 4).2 with
    | none =>
      cases hy : deserialize_variant_impl alts (from_bytes (r'.read_header.2.read 4).1)
          (r'.read_header.2.read 4).2 with
      | none => trivial
      | some q => rw [hx, hy] at h5; exact h5.elim
    | some p =>
      cases hy : deserialize_variant_impl alts (from_bytes (r'.read_header.2.read 4).1)
          (r'.read_header.2.read 4).2 with
      | none => rw [hx, hy] at h5; exact h5.elim
      | some q =>
        rw [hx, hy] at h5
        exact ⟨by rw [h5.1], h5.2⟩

/-- A variant header that cannot be read gives the default variant. -/
theorem deserialize_variant_short (alts : List Ty) (r : Reader) (ha : alts ≠ [])
    (h : r.read header_size = (List.replicate header_size 0, r)) :
    deserialize_object (.variant alts) r = some (default_val (.variant alts), r) := by
  have hh : r.read_header = (⟨0, 0⟩, r) := by
    simp only [Reader.read_header, h]
    rfl
  have hne : (0 : Nat) ≠ alts.length := by
    intro h0
    exact ha (List.length_eq_zero.1 h0.symm)
  simp only [deserialize_object, hh]
  rw [if_pos hne]

/-- Reading a header where the type byte is `ty` and the bytes after it are `rest`. -/
theorem read_header_type_byte (pre rest : List Nat) (ty : Nat) :
    (4 ≤ rest.length →
      (Reader.unbounded ⟨pre ++ ty :: rest, pre.length⟩).read_header =
        (⟨ty, from_bytes (rest.take 4)⟩,
          .unbounded ⟨pre ++ ty :: rest, pre.length + 5⟩)) ∧
    (rest.length < 4 →
      (Reader.unbounded ⟨pre ++ ty :: rest, pre.length⟩).read header_size =
        (List.replicate header_size 0, .unbounded ⟨pre ++ ty :: rest, pre.length⟩)) := by
  have hrem : size_t_sub (pre ++ ty :: rest).length pre.length = rest.length + 1 := by
    rw [size_t_sub_of_le _ _ (by simp)]
    simp
  constructor
  · intro h4
    simp only [Reader.read_header, Reader.read, bytes_reader.read, bytes_reader.can_read,
      bytes_reader.remaining, hrem, header_size]
    rw [if_neg (by simp; omega)]
    simp only [List.drop_left, data_header.of_bytes]
    simp
  · intro h4
    simp only [Reader.read, bytes_reader.read, bytes_reader.can_read,
      bytes_reader.remaining, hrem, header_size]
    rw [if_pos (by simp; omega)]

/-- The same on a bounded reader with the declared length `length`. -/
theorem read_header_type_byte_bounded (pre rest : List Nat) (ty length : Nat)
    (hl : pre.length ≤ length) :
    (pre.length + 5 ≤ length →
      (Reader.bounded ⟨pre ++ ty :: rest, pre.length, length⟩).read_header =
        (⟨ty, from_bytes (rest.take 4)⟩,
          .bounded ⟨pre ++ ty :: rest, pre.length + 5, length⟩)) ∧
    (length < pre.length + 5 →
      (Reader.bounded ⟨pre ++ ty :: rest, pre.length, length⟩).read header_size =
        (List.replicate header_size 0,
          .bounded ⟨pre ++ ty :: rest, pre.length, length⟩)) := by
  constructor
  · intro h4
    simp only [Reader.read_header, Reader.read, bytes_reader_bounded.read,
      bytes_reader_bounded.can_read, bytes_reader_bounded.remaining,
      size_t_sub_of_le _ _ hl, header_size]
    rw [if_neg (by simp; omega)]
    simp only [List.drop_left, data_header.of_bytes]
    simp
  · intro h4
    simp only [Reader.read, bytes_reader_bounded.read, bytes_reader_bounded.can_read,
      bytes_reader_bounded.remaining, size_t_sub_of_le _ _ hl, header_size]
    rw [if_pos (by simp; omega)]

theorem set_sub_type_facts (main sub len : Nat) (hm : main < 16) (hs : sub < 16) :
    ((data_header.mk main len).set_sub_type sub).get_main_type = main ∧
    ((data_header.mk main len).set_sub_type sub).get_sub_type = sub ∧
    ((data_header.mk main len).set_sub_type sub).length = len := by
  simp only [data_header.set_sub_type, data_header.get_main_type, data_header.get_sub_type,
    and_true]
  interval_cases main <;> interval_cases sub <;> decide

theorem alt_data_type_get (alts : List Ty) (i : Nat) (h : i < alts.length) :
    alt_data_type alts i = get_data_type (alts.get ⟨i, h⟩) := by
  simp [alt_data_type, List.getElem?_eq_getElem h]

theorem alt_data_type_lt (alts : List Ty) (i : Nat) : alt_data_type alts i < 16 := by
  unfold alt_data_type
  cases alts.get? i with
  | none => decide
  | some t => exact get_data_type_lt t

/-- Decoding a variant from two inputs that differ in the type byte of the header only. -/
theorem deserialize_variant_type_byte (alts : List Ty) (ha : alts ≠ [])
    (pre rest : List Nat) (ty ty' : Nat) :
    (deserialize_object (.variant alts) (.unbounded ⟨pre ++ ty :: rest, pre.length⟩)).map
        Prod.fst =
      (deserialize_object (.variant alts) (.unbounded ⟨pre ++ ty' :: rest, pre.length⟩)).map
        Prod.fst := by
  by_cases h4 : 4 ≤ rest.length
  · apply same_result_value
    apply deserialize_variant_of_header
    · rw [(read_header_type_byte pre rest ty).1 h4, (read_header_type_byte pre rest ty').1 h4]
    · rw [(read_header_type_byte pre rest ty).1 h4, (read_header_type_byte pre rest ty').1 h4]
      refine ⟨rfl, by simp, ?_⟩
      simp only []
      rw [← List.drop_drop, ← List.drop_drop, List.drop_left, List.drop_left]
      rfl
  · rw [deserialize_variant_short alts _ ha ((read_header_type_byte pre rest ty).2 (by omega)),
      deserialize_variant_short alts _ ha ((read_header_type_byte pre rest ty').2 (by omega))]
    rfl

theorem deserialize_variant_type_byte_bounded (alts : List Ty) (ha : alts ≠ [])
    (pre rest : List Nat) (ty ty' length : Nat) (hl : pre.length ≤ length) :
    (deserialize_object (.variant alts)
        (.bounded ⟨pre ++ ty :: rest, pre.length, length⟩)).map Prod.fst =
      (deserialize_object (.variant alts)
        (.bounded ⟨pre ++ ty' :: rest, pre.length, length⟩)).map Prod.fst := by
  by_cases h4 : pre.length + 5 ≤ length
  · apply same_result_value
    apply deserialize_variant_of_header
    · rw [(read_header_type_byte_bounded pre rest ty length hl).1 h4,
        (read_header_type_byte_bounded pre rest ty' length hl).1 h4]
    · rw [(read_header_type_byte_bounded pre rest ty length hl).1 h4,
        (read_header_type_byte_bounded pre rest ty' length hl).1 h4]
      refine ⟨rfl, rfl, ?_⟩
      simp only []
      rw [← List.drop_drop, ← List.drop_drop, List.drop_left, List.drop_left]
      rfl
  · rw [deserialize_variant_short alts _ ha
        ((read_header_type_byte_bounded pre rest ty length hl).2 (by omega)),
      deserialize_variant_short alts _ ha
        ((read_header_type_byte_bounded pre rest ty' length hl).2 (by omega))]
    rfl

theorem read_envelope_bounded (hdr p : List Nat) (length : Nat) (h : hdr.length = 10)
    (hl : 10 ≤ length) :
    (Reader.bounded { m_data := hdr ++ p, m_pos := 0, m_length := length }).read
        packer_header_size =
      (hdr, .bounded { m_data := hdr ++ p, m_pos := 10, m_length := length }) := by
  simp only [Reader.read, bytes_reader_bounded.read, bytes_reader_bounded.can_read,
    bytes_reader_bounded.remaining, size_t_sub, packer_header_size, Nat.zero_le, if_true,
    Nat.sub_zero, ge_iff_le, hl, decide_True, Bool.not_true, Bool.false_eq_true, if_false,
    List.drop_zero, Nat.zero_add]
  rw [← h, List.take_left]

/-- What the bounded `deserialize` does with a declared length of at least ten bytes. -/
theorem deserialize_bounded_append (T : Ty) (c : checksum_fn) (hdr p : List Nat)
    (length : Nat) (h : hdr.length = 10) (hl : 10 ≤ length) :
    deserialize_bounded T (hdr ++ p) length c =
      if (packer_header.of_bytes hdr).version ≠ VERSION then some (default_val T)
      else
        match c p (packer_header.of_bytes hdr).length with
        | none => none
        | some x =>
            if x % 4294967296 ≠ (packer_header.of_bytes hdr).crc then some (default_val T)
            else (deserialize_object T
              (.bounded { m_data := hdr ++ p, m_pos := 10, m_length := length })).map
                Prod.fst := by
  unfold deserialize_bounded
  simp only [read_envelope_bounded hdr p length h hl]
  rw [show packer_header_size = 10 from rfl, List.drop_left' h]

/-! ### Decoding a sequence of fixed-width elements -/

theorem remaining_eq_ahead (r : Reader) (h : r.sound) : r.remaining = r.ahead.length := by
  cases r with
  | unbounded a =>
    simp only [Reader.remaining, bytes_reader.remaining, Reader.ahead, List.length_drop]
    exact size_t_sub_of_le _ _ h
  | bounded a =>
    obtain ⟨h1, h2⟩ := h
    simp only [Reader.remaining, bytes_reader_bounded.remaining, Reader.ahead,
      List.length_drop, List.length_take, Nat.min_eq_left h2]
    exact size_t_sub_of_le _ _ h1

/-- A read that fits returns the bytes ahead and moves the cursor over them. -/
theorem read_of_fits (r : Reader) (w : Nat) (h : r.sound) (hw : w ≤ r.ahead.length) :
    (r.read w).1 = r.ahead.take w ∧ (r.read w).2.sound ∧
    (r.read w).2.ahead = r.ahead.drop w ∧ (r.read w).2.count = r.count + w := by
  cases r with
  | unbounded a =>
    have hs : a.m_pos ≤ a.m_data.length := h
    simp only [Reader.ahead, List.length_drop] at hw
    have hcan : ¬ ((!decide (size_t_sub a.m_data.length a.m_pos ≥ w)) = true) := by
      rw [size_t_sub_of_le _ _ hs]; simp; omega
    simp only [Reader.read, bytes_reader.read, bytes_reader.can_read, bytes_reader.remaining,
      if_neg hcan, Reader.ahead, Reader.sound, Reader.count, bytes_reader.count,
      List.drop_drop]
    refine ⟨trivial, by omega, trivial, trivial⟩
  | bounded a =>
    obtain ⟨h1, h2⟩ := h
    simp only [Reader.ahead, List.length_drop, List.length_take, Nat.min_eq_left h2] at hw
    have hcan : ¬ ((!decide (size_t_sub a.m_length a.m_pos ≥ w)) = true) := by
      rw [size_t_sub_of_le _ _ h1]; simp; omega
    simp only [Reader.read, bytes_reader_bounded.read, bytes_reader_bounded.can_read,
      bytes_reader_bounded.remaining, if_neg hcan, Reader.ahead, Reader.sound, Reader.count,
      bytes_reader_bounded.count, List.drop_drop]
    refine ⟨?_, ⟨by omega, h2⟩, trivial, trivial⟩
    rw [List.drop_take, List.take_take, Nat.min_eq_left (by omega)]

/-- A read that does not fit returns zeros and leaves the reader as it was. -/
theorem read_of_short (r : Reader) (w : Nat) (h : r.sound) (hw : r.ahead.length < w) :
    r.read w = (List.replicate w 0, r) := by
  cases r with
  | unbounded a =>
    have hs : a.m_pos ≤ a.m_data.length := h
    simp only [Reader.ahead, List.length_drop] at hw
    have hcan : (!decide (size_t_sub a.m_data.length a.m_pos ≥ w)) = true := by
      rw [size_t_sub_of_le _ _ hs]; simp; omega
    simp only [Reader.read, bytes_reader.read, bytes_reader.can_read, bytes_reader.remaining,
      if_pos hcan]
  | bounded a =>
    obtain ⟨h1, h2⟩ := h
    simp only [Reader.ahead, List.length_drop, List.length_take, Nat.min_eq_left h2] at hw
    have hcan : (!decide (size_t_sub a.m_length a.m_pos ≥ w)) = true := by
      rw [size_t_sub_of_le _ _ h1]; simp; omega
    simp only [Reader.read, bytes_reader_bounded.read, bytes_reader_bounded.can_read,
      bytes_reader_bounded.remaining, if_pos hcan]

/-- The loop `push_back(read<T>())` for a fixed-width `T`: as many elements as fit are read
from the bytes ahead, the others are zero, and the cursor moves over the bytes read. -/
theorem read_elements_fixed_width (e : Ty) (deser : Reader → Option (Val × Reader))
    (he : is_trivially_copyable e = true) (hw : 0 < sizeof e) (n : Nat) (r : Reader)
    (h : r.sound) :
    ∃ r' : Reader,
      read_elements (fun r => r.read_value e deser) n r =
        some ((chunks (sizeof e) (min n (r.ahead.length / sizeof e)) r.ahead).map Val.raw ++
          List.replicate (n - min n (r.ahead.length / sizeof e))
            (.raw (List.replicate (sizeof e) 0)), r') ∧
      r'.sound ∧
      r'.ahead = r.ahead.drop (min n (r.ahead.length / sizeof e) * sizeof e) ∧
      r'.count = r.count + min n (r.ahead.length / sizeof e) * sizeof e := by
  induction n generalizing r with
  | zero => exact ⟨r, by simp [read_elements, chunks], h, by simp, by simp⟩
  | succ n ih =>
    have hrv : r.read_value e deser =
        some (.raw (r.read (sizeof e)).1, (r.read (sizeof e)).2) := by
      simp only [Reader.read_value, if_pos he]
    simp only [read_elements]
    rw [hrv]
    simp only []
    by_cases hfit : sizeof e ≤ r.ahead.length
    · obtain ⟨f1, f2, f3, f4⟩ := read_of_fits r (sizeof e) h hfit
      obtain ⟨r', g1, g2, g3, g4⟩ := ih (r.read (sizeof e)).2 f2
      have hdiv : r.ahead.length / sizeof e = (r.ahead.length - sizeof e) / sizeof e + 1 := by
        rw [← Nat.sub_add_cancel hfit, Nat.add_div_right _ hw, Nat.add_sub_cancel]
      have hk : min (n + 1) (r.ahead.length / sizeof e) =
          min n ((r.ahead.length - sizeof e) / sizeof e) + 1 := by
        rw [hdiv]; omega
      rw [f3, List.length_drop] at g1 g3 g4
      refine ⟨r', ?_, g2, ?_, ?_⟩
      · rw [g1, hk, f1]
        simp only [chunks, List.map_cons, List.cons_append, Nat.add_sub_add_right]
      · rw [g3, hk, List.drop_drop]
        congr 1
        ring
      · rw [g4, f4, hk]
        ring
    · have hshort : r.ahead.length < sizeof e := by omega
      have f := read_of_short r (sizeof e) h hshort
      obtain ⟨r', g1, g2, g3, g4⟩ := ih r h
      have hz : r.ahead.length / sizeof e = 0 := Nat.div_eq_of_lt hshort
      rw [hz] at g1 g3 g4 ⊢
      simp only [Nat.min_zero, Nat.zero_mul, List.drop_zero, Nat.add_zero, chunks,
        List.map_nil, List.nil_append, Nat.sub_zero] at g1 g3 g4 ⊢
      refine ⟨r', ?_, g2, g3, g4⟩
      rw [f]
      simp only [g1]
      rw [Nat.add_comm n 1, List.replicate_add]
      rfl

/-- Where the two overloads of `serialize` agree: the type is one on which both writers emit
the same bytes, the top-level value is streamed as `serialize_object` encodes it, and the
buffer has room for the payload. -/
theorem serialize_bounded_eq_growing (T : Ty) (v : Val) (buffer : List Nat) (bufsize : Nat)
    (c : checksum_fn)
    (hc : c = empty_checksum ∨ c = crc8_checksum ∨ c = crc16_checksum ∨ c = crc32_checksum)
    (hA : writers_agree_member T (writers_agree T) = true)
    (htop : stream_bytes T v = serialize_payload T v) (hb : bufsize ≤ buffer.length)
    (hfit : (serialize_payload T v).length ≤ bufsize) :
    serialize_bounded T buffer bufsize v c = serialize T v c := by
  obtain ⟨h1, _, _⟩ := written_op_shl T v buffer bufsize hb
  have hflat := member_writes_stream_bytes T v hA
  rw [htop] at hflat
  have hp : serialize_bounded_payload T buffer bufsize v = serialize_payload T v := by
    have : serialize_bounded_payload T buffer bufsize v =
        (kept_writes (member_writes T (bounded_writes T v) v) bufsize).flatten := h1
    rw [this, kept_writes_of_fits _ _ (by rw [hflat]; exact hfit), hflat]
  rw [serialize_bounded_eq T buffer bufsize v c hc hb, hp]
  simp only [serialize, bytes_writer.write_pod, bytes_writer.write_vector, List.nil_append]

theorem stream_bytes_of_not_trivially_copyable (T : Ty) (v : Val)
    (h1 : is_trivially_copyable T = false) (h2 : is_byte_vector T = false) :
    stream_bytes T v = serialize_payload T v := by
  rw [stream_bytes_eq, if_neg (by simp [h2]), if_neg (by simp [h1])]

theorem length_chunks (w n : Nat) (bs : List Nat) : (chunks w n bs).length = n := by
  induction n generalizing bs with
  | zero => rfl
  | succ n ih => simp [chunks, ih]

theorem read_header_of_fits (r : Reader) (h : r.sound) (h5 : 5 ≤ r.remaining) :
    r.read_header.1 = data_header.of_bytes (r.ahead.take 5) ∧ r.read_header.2.sound ∧
    r.read_header.2.ahead = r.ahead.drop 5 ∧ r.read_header.2.count = r.count + 5 := by
  rw [remaining_eq_ahead r h] at h5
  obtain ⟨f1, f2, f3, f4⟩ := read_of_fits r 5 h h5
  simp only [Reader.read_header, header_size, f1]
  exact ⟨trivial, f2, f3, f4⟩

/-! # Properties of the specification -/

/-- C1 (payload round trip), evaluated at `std::vector<std::vector<std::uint8_t>>{{1, 2, 3}}`.
The inner vector is streamed by `writer << v`, which calls the overload
`write(const std::vector<std::uint8_t> &)` and splices the three bytes in without a header.
The decoder expects a header at that place, finds fewer than five bytes, and returns one
empty inner vector. The same bytes held as `std::vector<std::vector<char>>` get the inner
header and are restored. -/
theorem C1_round_trip_nested_byte_vector :
    has_type (.seq .vector (.seq .vector .uint8))
      (.seq [.seq [.raw [1], .raw [2], .raw [3]]]) = true ∧
    serialize_payload (.seq .vector (.seq .vector .uint8))
      (.seq [.seq [.raw [1], .raw [2], .raw [3]]]) = [0xBB, 1, 0, 0, 0, 1, 2, 3] ∧
    (deserialize_object (.seq .vector (.seq .vector .uint8))
      (.unbounded { m_data := [0xBB, 1, 0, 0, 0, 1, 2, 3], m_pos := 0 })).map Prod.fst
      = some (.seq [.seq []]) ∧
    Val.seq [.seq []] ≠ .seq [.seq [.raw [1], .raw [2], .raw [3]]] ∧
    serialize_payload (.seq .vector (.seq .vector (.integral 1)))
      (.seq [.seq [.raw [1], .raw [2], .raw [3]]])
      = [0xBB, 1, 0, 0, 0, 0x1B, 3, 0, 0, 0, 1, 2, 3] ∧
    (deserialize_object (.seq .vector (.seq .vector (.integral 1)))
      (.unbounded { m_data := [0xBB, 1, 0, 0, 0, 0x1B, 3, 0, 0, 0, 1, 2, 3], m_pos := 0 })).map
      Prod.fst = some (.seq [.seq [.raw [1], .raw [2], .raw [3]]]) :=
  ⟨by decide, rfl, rfl, by simp, rfl, rfl⟩

/-- C2 (envelope round trip), evaluated at `std::vector<std::vector<std::uint8_t>>{{1, 2, 3}}`
under each of the four built-in strategies: `deserialize<T>(serialize(v, c), c)` is a vector
holding one empty vector, not `v`. The envelope is accepted; the payload is the one of C1,
in which the inner vector was written by `write(const std::vector<std::uint8_t> &)` without
its header. -/
theorem C2_envelope_round_trip_nested_byte_vector :
    (serialize (.seq .vector (.seq .vector .uint8))
        (.seq [.seq [.raw [1], .raw [2], .raw [3]]]) empty_checksum).bind
      (fun out => deserialize (.seq .vector (.seq .vector .uint8)) out empty_checksum)
      = some (.seq [.seq []]) ∧
    (serialize (.seq .vector (.seq .vector .uint8))
        (.seq [.seq [.raw [1], .raw [2], .raw [3]]]) crc8_checksum).bind
      (fun out => deserialize (.seq .vector (.seq .vector .uint8)) out crc8_checksum)
      = some (.seq [.seq []]) ∧
    (serialize (.seq .vector (.seq .vector .uint8))
        (.seq [.seq [.raw [1], .raw [2], .raw [3]]]) crc16_checksum).bind
      (fun out => deserialize (.seq .vector (.seq .vector .uint8)) out crc16_checksum)
      = some (.seq [.seq []]) ∧
    (serialize (.seq .vector (.seq .vector .uint8))
        (.seq [.seq [.raw [1], .raw [2], .raw [3]]]) crc32_checksum).bind
      (fun out => deserialize (.seq .vector (.seq .vector .uint8)) out crc32_checksum)
      = some (.seq [.seq []]) ∧
    Val.seq [.seq []] ≠ .seq [.seq [.raw [1], .raw [2], .raw [3]]] :=
  ⟨rfl, rfl, rfl, rfl, by simp⟩

/-- C3 (size fidelity), evaluated at `std::variant<int, char>` holding the `int` 7 and at a
`std::vector` of two trivially copyable structs of two bytes. For the variant `get_size`
returns 9 (header and alternative) while the encoder writes 13 bytes (header, four-byte
index, alternative). For the vector `get_size` returns 19 (a header per element) while the
encoder writes 9 bytes (the elements are copied without a header). -/
theorem C3_size_fidelity_variant_and_pod_elements :
    has_type (.variant [.integral 4, .integral 1]) (.variant 0 (.raw [7, 0, 0, 0])) = true ∧
    get_size (.variant [.integral 4, .integral 1]) (.variant 0 (.raw [7, 0, 0, 0])) = 9 ∧
    (serialize_object (.variant [.integral 4, .integral 1]) (.variant 0 (.raw [7, 0, 0, 0]))
      (bytes_writer.mk [])).count = 13 ∧
    serialize_payload (.variant [.integral 4, .integral 1]) (.variant 0 (.raw [7, 0, 0, 0]))
      = [0x39, 2, 0, 0, 0, 0, 0, 0, 0, 7, 0, 0, 0] ∧
    has_type (.seq .vector (.pod 2)) (.seq [.raw [1, 2], .raw [3, 4]]) = true ∧
    get_size (.seq .vector (.pod 2)) (.seq [.raw [1, 2], .raw [3, 4]]) = 19 ∧
    (serialize_object (.seq .vector (.pod 2)) (.seq [.raw [1, 2], .raw [3, 4]])
      (bytes_writer.mk [])).count = 9 :=
  ⟨by decide, by decide, by decide, by decide, by decide, by decide, by decide⟩

/-- C4 (conservation), evaluated at `std::vector<std::vector<std::uint8_t>>{{1, 2, 3}}`, whose
encoding has 8 bytes. Followed by no suffix the decoder stops with `count() = 5`; followed
by the suffix `9, 9, 9, 9, 9` it stops with `count() = 10`, having taken five bytes that
are the raw inner vector and part of the suffix for a header. Neither is 8. -/
theorem C4_conservation_nested_byte_vector :
    (serialize_object (.seq .vector (.seq .vector .uint8))
      (.seq [.seq [.raw [1], .raw [2], .raw [3]]]) (bytes_writer.mk [])).count = 8 ∧
    (deserialize_object (.seq .vector (.seq .vector .uint8))
      (.unbounded { m_data := (serialize_payload (.seq .vector (.seq .vector .uint8))
          (.seq [.seq [.raw [1], .raw [2], .raw [3]]])) ++ [], m_pos := 0 })).map
      (fun r => r.2.count) = some 5 ∧
    (deserialize_object (.seq .vector (.seq .vector .uint8))
      (.unbounded { m_data := (serialize_payload (.seq .vector (.seq .vector .uint8))
          (.seq [.seq [.raw [1], .raw [2], .raw [3]]])) ++ [9, 9, 9, 9, 9], m_pos := 0 })).map
      (fun r => r.2.count) = some 10 :=
  ⟨by decide, by decide, by decide⟩

/-- C5 (envelope integrity). Let `out` be `serialize(v, c)` for a well-typed `v` whose payload
is shorter than `2 ^ 32` bytes (the width of the envelope length field) and `c` one of
`crc8_checksum`, `crc16_checksum`, `crc32_checksum`. Replacing the payload byte at index `i`
by a different byte `b` gives the input `out` with the byte at `10 + i` replaced; the
checksum recomputed over the changed payload differs from the stored crc field, and
`deserialize<T>` of the changed input returns the default-constructed `T`. -/
theorem C5_envelope_integrity (T : Ty) (v : Val) (c : checksum_fn) (out : List Nat) (i b : Nat)
    (hc : c = crc8_checksum ∨ c = crc16_checksum ∨ c = crc32_checksum)
    (hv : has_type T v = true)
    (hlen : (serialize_payload T v).length < 4294967296)
    (hout : serialize T v c = some out)
    (hi : i < (serialize_payload T v).length) (hb : b < 256)
    (hne : b ≠ (serialize_payload T v).getD i 0) :
    out.set (10 + i) b = out.take 10 ++ (serialize_payload T v).set i b ∧
    (∃ x, c ((serialize_payload T v).set i b) (serialize_payload T v).length = some x ∧
      x % 4294967296 ≠ (packer_header.of_bytes (out.take 10)).crc) ∧
    deserialize T (out.set (10 + i) b) c = some (default_val T) := by
  obtain ⟨f, hf, hlt, hdet⟩ := builtin_crc c hc
  have hbytes := all_bytes_serialize_payload T v hv
  generalize hp : serialize_payload T v = p at *
  have hcp : c p p.length = some (f p) := by
    rw [hf, if_pos (Nat.le_refl _), List.take_length]
  have hout2 := serialize_eq T v c (f p) (by rw [hp]; exact hcp)
  rw [hp, hout, Nat.mod_eq_of_lt (hlt p), Nat.mod_eq_of_lt hlen, Option.some.injEq] at hout2
  have hh := length_envelope_bytes VERSION (f p) p.length
  have htake : out.take 10 = envelope_bytes VERSION (f p) p.length := by
    rw [hout2, List.take_left' hh]
  have hset : out.set (10 + i) b = out.take 10 ++ p.set i b := by
    rw [htake, hout2, List.set_append_right _ _ (by omega), hh, Nat.add_sub_cancel_left]
  have hph := packer_header_of_bytes VERSION (f p) p.length
  rw [Nat.mod_eq_of_lt (hlt p), Nat.mod_eq_of_lt hlen] at hph
  have hcs : c (p.set i b) p.length = some (f (p.set i b)) := by
    rw [hf, if_pos (by simp), List.take_of_length_le (by simp)]
  have hdiff : f (p.set i b) % 4294967296 ≠ f p := by
    rw [Nat.mod_eq_of_lt (hlt _)]
    exact hdet p i b hbytes hb hi hne
  refine ⟨hset, ⟨f (p.set i b), hcs, by rw [htake, hph]; exact hdiff⟩, ?_⟩
  rw [hset, deserialize_append T c _ _ (by rw [htake]; exact hh), htake, hph]
  simp only [VERSION_eq, hcs]
  rw [if_neg (by decide), if_pos hdiff]

/-- C5 at the vector `{1, 2, 3, 4}` of 32-bit integers under `crc8_checksum`: with payload
byte 5 (the first byte of the first element) changed from 1 to 9, `deserialize` returns the
empty vector. -/
theorem C5_envelope_integrity_witness :
    deserialize (.seq .vector (.integral 4))
      (List.set [1, 0, 0x64, 0, 0, 0, 21, 0, 0, 0, 0x3B, 4, 0, 0, 0,
        1, 0, 0, 0, 2, 0, 0, 0, 3, 0, 0, 0, 4, 0, 0, 0] (10 + 5) 9) crc8_checksum
      = some (default_val (.seq .vector (.integral 4))) :=
  (C5_envelope_integrity (.seq .vector (.integral 4))
    (.seq [.raw [1, 0, 0, 0], .raw [2, 0, 0, 0], .raw [3, 0, 0, 0], .raw [4, 0, 0, 0]])
    crc8_checksum _ 5 9 (Or.inl rfl) (by decide) (by decide) rfl (by decide) (by decide)
    (by decide)).2.2

/-- C6 (version rejection). For every requested type, every checksum strategy and every input
whose first two bytes, read as a little-endian 16-bit number, differ from the current
version `0x0001`, both `deserialize` overloads return the default-constructed value. This
holds also for a type whose decoder has no result, so the decoder is not consulted. -/
theorem C6_version_rejection (T : Ty) (data : List Nat) (length : Nat) (checksum : checksum_fn)
    (h : from_bytes (data.take 2) ≠ VERSION) :
    VERSION = 0x0001 ∧
    deserialize T data checksum = some (default_val T) ∧
    deserialize_bounded T data length checksum = some (default_val T) := by
  have hv : (packer_header.of_bytes
      ((Reader.unbounded { m_data := data, m_pos := 0 }).read packer_header_size).1).version
      ≠ VERSION := by
    simp only [Reader.read, bytes_reader.read, packer_header.of_bytes, packer_header_size]
    split_ifs
    · simp [from_bytes, VERSION_eq]
    · simpa [List.take_take] using h
  have hb : (packer_header.of_bytes
      ((Reader.bounded { m_data := data, m_pos := 0, m_length := length }).read
        packer_header_size).1).version ≠ VERSION := by
    simp only [Reader.read, bytes_reader_bounded.read, packer_header.of_bytes,
      packer_header_size]
    split_ifs
    · simp [from_bytes, VERSION_eq]
    · simpa [List.take_take] using h
  refine ⟨VERSION_eq, ?_, ?_⟩
  · simp only [deserialize]
    rw [if_pos hv]
  · simp only [deserialize_bounded]
    rw [if_pos hb]

/-- C6 at an envelope with version bytes `02 00` in front of the payload of the vector `{1}`:
both overloads return the empty vector under `crc32_checksum`. -/
theorem C6_version_rejection_witness :
    deserialize (.seq .vector (.integral 4))
      [2, 0, 0, 0, 0, 0, 9, 0, 0, 0, 0x3B, 1, 0, 0, 0, 1, 0, 0, 0] crc32_checksum
      = some (.seq []) ∧
    deserialize_bounded (.seq .vector (.integral 4))
      [2, 0, 0, 0, 0, 0, 9, 0, 0, 0, 0x3B, 1, 0, 0, 0, 1, 0, 0, 0] 19 crc32_checksum
      = some (.seq []) :=
  (C6_version_rejection (.seq .vector (.integral 4))
    [2, 0, 0, 0, 0, 0, 9, 0, 0, 0, 0x3B, 1, 0, 0, 0, 1, 0, 0, 0] 19 crc32_checksum
    (by decide)).2

/-- C7 (cross-container substitution), evaluated at the element type
`std::vector<std::uint8_t>` and the one-element list `{{1, 2, 3}}`: encoded from a
`std::list` or from a `std::forward_list` and decoded as a `std::deque`, the result holds one
empty vector. Each element was written by `write(const std::vector<std::uint8_t> &)` without
its header (the defect of C1). With the element type `int` the list `{1, 2}` is restored. -/
theorem C7_cross_container_nested_byte_vector :
    serialize_payload (.seq .list (.seq .vector .uint8))
      (.seq [.seq [.raw [1], .raw [2], .raw [3]]]) = [0xBB, 1, 0, 0, 0, 1, 2, 3] ∧
    serialize_payload (.forward_list (.seq .vector .uint8))
      (.seq [.seq [.raw [1], .raw [2], .raw [3]]]) = [0xBB, 1, 0, 0, 0, 1, 2, 3] ∧
    (deserialize_object (.seq .deque (.seq .vector .uint8))
      (.unbounded { m_data := [0xBB, 1, 0, 0, 0, 1, 2, 3], m_pos := 0 })).map Prod.fst
      = some (.seq [.seq []]) ∧
    Val.seq [.seq []] ≠ .seq [.seq [.raw [1], .raw [2], .raw [3]]] ∧
    (deserialize_object (.seq .deque (.integral 4))
      (.unbounded { m_data := (serialize_payload (.forward_list (.integral 4))
        (.seq [.raw [1, 0, 0, 0], .raw [2, 0, 0, 0]])), m_pos := 0 })).map Prod.fst
      = some (.seq [.raw [1, 0, 0, 0], .raw [2, 0, 0, 0]]) :=
  ⟨rfl, rfl, rfl, by simp, rfl⟩

/-- C8 (envelope layout). For every value and each built-in strategy, `serialize(v, c)` is
the two version bytes of `0x0001`, the four bytes of the crc field, the four bytes of the
32-bit payload length, and then the payload of `serialize_object`. The crc field is zero for
`empty_checksum`, the CRC-8 in the lowest byte for `crc8_checksum`, the CRC-16 in the two
lowest bytes for `crc16_checksum`, and the CRC-32 for `crc32_checksum`. The length field
reads back as the payload byte count whenever that count fits its 32 bits, and the output
has 10 bytes more than the payload, for every strategy. -/
theorem C8_envelope_layout (T : Ty) (v : Val) :
    serialize T v empty_checksum = some ([1, 0] ++ [0, 0, 0, 0] ++
      to_bytes 4 (serialize_payload T v).length ++ serialize_payload T v) ∧
    serialize T v crc8_checksum = some ([1, 0] ++ [crc8_of (serialize_payload T v), 0, 0, 0] ++
      to_bytes 4 (serialize_payload T v).length ++ serialize_payload T v) ∧
    serialize T v crc16_checksum = some ([1, 0] ++
      [crc16_of (serialize_payload T v) % 256, crc16_of (serialize_payload T v) / 256, 0, 0] ++
      to_bytes 4 (serialize_payload T v).length ++ serialize_payload T v) ∧
    serialize T v crc32_checksum = some ([1, 0] ++
      to_bytes 4 (crc32_of (serialize_payload T v)) ++
      to_bytes 4 (serialize_payload T v).length ++ serialize_payload T v) ∧
    from_bytes [1, 0] = 0x0001 ∧
    from_bytes (to_bytes 4 (crc32_of (serialize_payload T v)))
      = crc32_of (serialize_payload T v) ∧
    ((serialize_payload T v).length < 4294967296 →
      from_bytes (to_bytes 4 (serialize_payload T v).length)
        = (serialize_payload T v).length) ∧
    (∀ (c : checksum_fn) (out : List Nat), serialize T v c = some out →
      out.length = 10 + (serialize_payload T v).length) := by
  have h8 := crc8_of_lt (serialize_payload T v)
  have h16 := crc16_of_lt (serialize_payload T v)
  have h32 := crc32_of_lt (serialize_payload T v)
  have hm := to_bytes_mod 4 (serialize_payload T v).length
  simp only [Nat.reducePow] at hm
  refine ⟨?_, ?_, ?_, ?_, rfl, ?_, fun hlen => ?_, length_serialize T v⟩
  · rw [serialize_eq T v empty_checksum 0 rfl, envelope_bytes, hm]
    rfl
  · rw [serialize_eq T v crc8_checksum (crc8_of (serialize_payload T v))
        (by simp [crc8_checksum]), Nat.mod_eq_of_lt (by omega), envelope_bytes, hm,
      to_bytes_4_of_lt_256 _ h8]
    rfl
  · rw [serialize_eq T v crc16_checksum (crc16_of (serialize_payload T v))
        (by simp [crc16_checksum]), Nat.mod_eq_of_lt (by omega), envelope_bytes, hm,
      to_bytes_4_of_lt_65536 _ h16]
    rfl
  · rw [serialize_eq T v crc32_checksum (crc32_of (serialize_payload T v))
        (by simp [crc32_checksum]), Nat.mod_eq_of_lt h32, envelope_bytes, hm]
    rfl
  · rw [from_bytes_to_bytes]
    exact Nat.mod_eq_of_lt h32
  · rw [from_bytes_to_bytes]
    exact Nat.mod_eq_of_lt hlen

/-- C8 at the vector `{1, 2, 3, 4}` of 32-bit integers: under `crc8_checksum` the output is the
envelope `01 00 | 64 00 00 00 | 15 00 00 00` followed by the 21 payload bytes, and the
length field reads back as 21. -/
theorem C8_envelope_layout_witness :
    serialize (.seq .vector (.integral 4))
      (.seq [.raw [1, 0, 0, 0], .raw [2, 0, 0, 0], .raw [3, 0, 0, 0], .raw [4, 0, 0, 0]])
      crc8_checksum
      = some ([1, 0] ++
        [crc8_of (serialize_payload (.seq .vector (.integral 4))
            (.seq [.raw [1, 0, 0, 0], .raw [2, 0, 0, 0], .raw [3, 0, 0, 0], .raw [4, 0, 0, 0]])),
          0, 0, 0] ++
        to_bytes 4 (serialize_payload (.seq .vector (.integral 4))
          (.seq [.raw [1, 0, 0, 0], .raw [2, 0, 0, 0], .raw [3, 0, 0, 0],
            .raw [4, 0, 0, 0]])).length ++
        serialize_payload (.seq .vector (.integral 4))
          (.seq [.raw [1, 0, 0, 0], .raw [2, 0, 0, 0], .raw [3, 0, 0, 0], .raw [4, 0, 0, 0]])) ∧
    from_bytes (to_bytes 4 (serialize_payload (.seq .vector (.integral 4))
        (.seq [.raw [1, 0, 0, 0], .raw [2, 0, 0, 0], .raw [3, 0, 0, 0],
          .raw [4, 0, 0, 0]])).length)
      = (serialize_payload (.seq .vector (.integral 4))
        (.seq [.raw [1, 0, 0, 0], .raw [2, 0, 0, 0], .raw [3, 0, 0, 0],
          .raw [4, 0, 0, 0]])).length :=
  ⟨(C8_envelope_layout (.seq .vector (.integral 4))
      (.seq [.raw [1, 0, 0, 0], .raw [2, 0, 0, 0], .raw [3, 0, 0, 0], .raw [4, 0, 0, 0]])).2.1,
    (C8_envelope_layout (.seq .vector (.integral 4))
      (.seq [.raw [1, 0, 0, 0], .raw [2, 0, 0, 0], .raw [3, 0, 0, 0],
        .raw [4, 0, 0, 0]])).2.2.2.2.2.2.1 (by decide)⟩

/-- C9 (subtype compatibility rule). For every type `T` with category
`V = get_data_type<T>()` and every header whose type byte has the sub nibble `S` in `0..15`
(and any main nibble `m`), `is_subtype_compitable<T>()` returns true if and only if either
`V` and `S` both lie in the integral/floating prefix `d_byte8..d_float64` and `S >= V`, or
`S = V`. -/
theorem C9_subtype_compatibility_rule (T : Ty) (S m len : Nat) (hS : S < 16) (hm : m < 16) :
    (data_header.mk (S * 16 + m) len).get_sub_type = S ∧
    S * 16 + m < 256 ∧
    ((data_header.mk (S * 16 + m) len).is_subtype_compitable (get_data_type T) = true ↔
      ((d_byte8 ≤ get_data_type T ∧ get_data_type T ≤ d_float64 ∧
          d_byte8 ≤ S ∧ S ≤ d_float64 ∧ S ≥ get_data_type T) ∨
        S = get_data_type T)) := by
  refine ⟨get_sub_type_nibbles S m len hm, by omega, ?_⟩
  have hr := get_data_type_range T
  simp only [data_header.is_subtype_compitable, get_sub_type_nibbles S m len hm, d_pod, d_byte8,
    d_float64]
  split_ifs with h <;> simp only [decide_eq_true_eq] <;> constructor <;> intro h2 <;> omega

/-- C9 at a 16-bit integer target and the header byte `0x3B` (sub nibble `d_byte32`, main nibble
`d_seq_container`): the header is compatible. -/
theorem C9_subtype_compatibility_rule_witness :
    (data_header.mk (3 * 16 + 11) 4).is_subtype_compitable (get_data_type (.integral 2))
      = true :=
  (C9_subtype_compatibility_rule (.integral 2) 3 11 4 (by decide) (by decide)).2.2.2
    (Or.inl (by decide))

/-- C10 as stated fails. A header with sub nibble `d_byte8` is refused for a `d_byte32` target
(the narrower encoded element is not accepted), and a header with sub nibble `d_byte32` is
accepted for a `d_byte8` target (the wider encoded element is not refused). In the decoder:
the encoding of the byte vector `{1, 2, 3}` decodes as a vector of 32-bit integers to the
empty vector, and the encoding of the 32-bit vector `{1, 2}` decodes as a byte vector to two
one-byte elements. -/
theorem C10_widening_is_refused :
    (data_header.mk 0x1B 3).get_sub_type = d_byte8 ∧
    (data_header.mk 0x1B 3).is_subtype_compitable d_byte32 = false ∧
    (data_header.mk 0x3B 2).get_sub_type = d_byte32 ∧
    (data_header.mk 0x3B 2).is_subtype_compitable d_byte8 = true ∧
    (deserialize_object (.seq .vector (.integral 4))
      (.unbounded { m_data := (serialize_payload (.seq .vector (.integral 1))
        (.seq [.raw [1], .raw [2], .raw [3]])), m_pos := 0 })).map Prod.fst = some (.seq []) ∧
    (deserialize_object (.seq .vector (.integral 1))
      (.unbounded { m_data := (serialize_payload (.seq .vector (.integral 4))
        (.seq [.raw [1, 0, 0, 0], .raw [2, 0, 0, 0]])), m_pos := 0 })).map Prod.fst
      = some (.seq [.raw [1], .raw [0]]) :=
  ⟨by decide, by decide, by decide, by decide, rfl, rfl⟩

/-- C10 as amended. For integral/floating categories `S` and `V` (both in
`d_byte8..d_float64`), a header whose sub nibble is `S` is compatible with a target of
category `V` exactly when `S >= V`: a narrower encoded category is refused, an equal or
wider one is accepted. -/
theorem C10_compatible_iff_not_narrower (S V m len : Nat) (hm : m < 16)
    (hS : d_byte8 ≤ S ∧ S ≤ d_float64) (hV : d_byte8 ≤ V ∧ V ≤ d_float64) :
    (data_header.mk (S * 16 + m) len).get_sub_type = S ∧
    ((data_header.mk (S * 16 + m) len).is_subtype_compitable V = true ↔ S ≥ V) := by
  refine ⟨get_sub_type_nibbles S m len hm, ?_⟩
  simp only [d_byte8, d_float64] at hS hV
  simp only [data_header.is_subtype_compitable, get_sub_type_nibbles S m len hm, d_pod]
  rw [if_pos (by omega)]
  simp

/-- C10 as amended, at `S = d_byte64` and `V = d_byte16` under a sequence-container header:
the header is compatible. -/
theorem C10_compatible_iff_not_narrower_witness :
    (data_header.mk (4 * 16 + 11) 0).is_subtype_compitable 2 = true :=
  (C10_compatible_iff_not_narrower 4 2 11 0 (by decide) (by decide) (by decide)).2.2
    (by decide)

/-- C11 (counterexample): for the vector {1, 2, 3, 4} of 32-bit integers `get_size` is 21, and
the bounded `serialize` with `bufsize = 21 + 10 - 1 = 30` does not truncate: the payload it
writes is the full 21-byte encoding, and its result is that of the growing `serialize`. -/
theorem C11_one_byte_smaller_is_not_truncated :
    get_size (.seq .vector (.integral 4))
      (.seq [.raw [1, 0, 0, 0], .raw [2, 0, 0, 0], .raw [3, 0, 0, 0], .raw [4, 0, 0, 0]])
      + 10 - 1 = 30 ∧
    ¬ ((serialize_bounded_payload (.seq .vector (.integral 4)) (List.replicate 30 0) 30
        (.seq [.raw [1, 0, 0, 0], .raw [2, 0, 0, 0], .raw [3, 0, 0, 0], .raw [4, 0, 0, 0]])).length
      < (serialize_payload (.seq .vector (.integral 4))
        (.seq [.raw [1, 0, 0, 0], .raw [2, 0, 0, 0], .raw [3, 0, 0, 0],
          .raw [4, 0, 0, 0]])).length) ∧
    serialize_bounded (.seq .vector (.integral 4)) (List.replicate 30 0) 30
        (.seq [.raw [1, 0, 0, 0], .raw [2, 0, 0, 0], .raw [3, 0, 0, 0], .raw [4, 0, 0, 0]])
        empty_checksum
      = serialize (.seq .vector (.integral 4))
        (.seq [.raw [1, 0, 0, 0], .raw [2, 0, 0, 0], .raw [3, 0, 0, 0], .raw [4, 0, 0, 0]])
        empty_checksum := by
  refine ⟨by decide, by decide, by decide⟩

/-- C11 (amended): `bufsize` is the capacity for the payload alone; the envelope goes to the
vector returned. For a well-typed value of a type on which `get_size` is exact and both
writers agree, and a buffer of at least `bufsize` bytes: with `get_size(v) ≤ bufsize`, so with
`get_size(v) + 10` and with `get_size(v) + 10 - 1`, the bounded `serialize` writes the full
encoding and returns what the growing `serialize` returns, under each built-in strategy; with
`bufsize < get_size(v)` the payload written is shorter than the full encoding. -/
theorem C11_bounded_serialize_fits_iff_payload_fits (T : Ty) (v : Val) (buffer : List Nat)
    (bufsize : Nat) (c : checksum_fn)
    (hc : c = empty_checksum ∨ c = crc8_checksum ∨ c = crc16_checksum ∨ c = crc32_checksum)
    (hT : size_exact_member T (size_exact T) = true)
    (hA : writers_agree_member T (writers_agree T) = true)
    (hv : has_type T v = true) (hb : bufsize ≤ buffer.length) :
    get_size T v = (serialize_payload T v).length ∧
    (get_size T v ≤ bufsize →
      serialize_bounded_payload T buffer bufsize v = serialize_payload T v ∧
      serialize_bounded T buffer bufsize v c = serialize T v c) ∧
    (bufsize < get_size T v →
      (serialize_bounded_payload T buffer bufsize v).length <
        (serialize_payload T v).length) := by
  have hsize : get_size T v = (serialize_payload T v).length := by
    have h1 := member_size T v hT hv (fun h => get_size_exact T v h hv)
    rw [stream_bytes_top T v hT] at h1
    exact h1
  obtain ⟨h1, h2, h3⟩ := written_op_shl T v buffer bufsize hb
  have hflat := member_writes_stream_bytes T v hA
  rw [stream_bytes_top T v hT] at hflat
  have hpay : serialize_bounded_payload T buffer bufsize v =
      (kept_writes (member_writes T (bounded_writes T v) v) bufsize).flatten := h1
  refine ⟨hsize, ?_, ?_⟩
  · intro hfit
    have hp : serialize_bounded_payload T buffer bufsize v = serialize_payload T v := by
      rw [hpay, kept_writes_of_fits _ _ (by rw [hflat]; omega), hflat]
    refine ⟨hp, ?_⟩
    rw [serialize_bounded_eq T buffer bufsize v c hc hb, hp]
    simp only [serialize, bytes_writer.write_pod, bytes_writer.write_vector, List.nil_append]
  · intro hlt
    have := kept_writes_length_le (member_writes T (bounded_writes T v) v) bufsize
    rw [hpay]
    omega

theorem C11_bounded_serialize_fits_iff_payload_fits_witness :
    serialize_bounded (.seq .vector (.integral 4)) (List.replicate 31 0) 31
        (.seq [.raw [1, 0, 0, 0], .raw [2, 0, 0, 0], .raw [3, 0, 0, 0], .raw [4, 0, 0, 0]])
        crc32_checksum
      = serialize (.seq .vector (.integral 4))
        (.seq [.raw [1, 0, 0, 0], .raw [2, 0, 0, 0], .raw [3, 0, 0, 0], .raw [4, 0, 0, 0]])
        crc32_checksum :=
  ((C11_bounded_serialize_fits_iff_payload_fits (.seq .vector (.integral 4))
    (.seq [.raw [1, 0, 0, 0], .raw [2, 0, 0, 0], .raw [3, 0, 0, 0], .raw [4, 0, 0, 0]])
    (List.replicate 31 0) 31 crc32_checksum (Or.inr (Or.inr (Or.inr rfl))) (by decide)
    (by decide) (by decide) (by decide)).2.1 (by decide)).2

/-- C12: `read_bytes` passes the end of the source. A reader of either class over 10 bytes
with the cursor at 8 is asked for 4 bytes: `available` is `min(4, 10 - 4) = 4`, the parameter
`count` standing where the cursor was meant, so the range copied is `[8, 12)` and the cursor
ends at 12. The sibling `skip(4)` from the same state, which tests `remaining()`, leaves the
cursor at 8, and `read_bytes(2)` ends at 10. -/
theorem C12_read_bytes_passes_the_end :
    (bytes_reader.mk [1, 2, 3, 4, 5, 6, 7, 8, 9, 10] 8).m_pos ≤ 10 ∧
    ((bytes_reader.mk [1, 2, 3, 4, 5, 6, 7, 8, 9, 10] 8).read_bytes 4).2.count = 12 ∧
    ((bytes_reader_bounded.mk [1, 2, 3, 4, 5, 6, 7, 8, 9, 10] 8 10).read_bytes 4).2.count
      = 12 ∧
    ((bytes_reader.mk [1, 2, 3, 4, 5, 6, 7, 8, 9, 10] 8).skip 4).count = 8 ∧
    ((bytes_reader_bounded.mk [1, 2, 3, 4, 5, 6, 7, 8, 9, 10] 8 10).skip 4).count = 8 ∧
    ((bytes_reader.mk [1, 2, 3, 4, 5, 6, 7, 8, 9, 10] 8).read_bytes 2).2.count = 10 := by
  decide

/-- C13: a bounded writer of capacity `L` over a buffer of at least `L` bytes, in a state with
`count() ≤ L`: after every sequence of writes, each of a fixed-width value or of a raw span of
any length, `count() ≤ L` still, the capacity and the size of the memory are the same, and
every byte at an index from `L` on is the one that was there. -/
theorem C13_bounded_writer_stays_within_capacity (w : bytes_writer_bounded)
    (ops : List bounded_write) (hcount : w.count ≤ w.m_length)
    (hmem : w.m_length ≤ w.m_data.length) :
    (ops.foldl bytes_writer_bounded.apply w).count ≤ w.m_length ∧
    (ops.foldl bytes_writer_bounded.apply w).m_length = w.m_length ∧
    (ops.foldl bytes_writer_bounded.apply w).m_data.length = w.m_data.length ∧
    ∀ i, w.m_length ≤ i →
      (ops.foldl bytes_writer_bounded.apply w).m_data[i]? = w.m_data[i]? := by
  obtain ⟨h1, h2, h3, h4⟩ := apply_all_facts ops w hcount hmem
  refine ⟨h2, h1, h3, ?_⟩
  intro i hi
  have h5 : ((ops.foldl bytes_writer_bounded.apply w).m_data.drop w.m_length)[i - w.m_length]?
      = (w.m_data.drop w.m_length)[i - w.m_length]? := by rw [h4]
  rw [List.getElem?_drop, List.getElem?_drop] at h5
  have h6 : w.m_length + (i - w.m_length) = i := by omega
  rw [h6] at h5
  exact h5

theorem C13_bounded_writer_stays_within_capacity_witness :
    ([bounded_write.value [1, 2], bounded_write.span [3, 4, 5], bounded_write.value [6]].foldl
      bytes_writer_bounded.apply ⟨[0, 0, 0, 0, 9, 9], 0, 4⟩).count ≤ 4 ∧
    ([bounded_write.value [1, 2], bounded_write.span [3, 4, 5], bounded_write.value [6]].foldl
      bytes_writer_bounded.apply ⟨[0, 0, 0, 0, 9, 9], 0, 4⟩).m_data = [1, 2, 3, 4, 9, 9] :=
  ⟨(C13_bounded_writer_stays_within_capacity ⟨[0, 0, 0, 0, 9, 9], 0, 4⟩
    [bounded_write.value [1, 2], bounded_write.span [3, 4, 5], bounded_write.value [6]]
    (by decide) (by decide)).1, by decide⟩

/-- C14 (counterexample): `std::vector<std::string>{"ab"}` on a bounded writer of capacity 7.
The container header (5 bytes) is stored, the header of the string (5 bytes) is refused for
lack of space, and the two characters, one byte each, are stored after that refusal. The 7
bytes held are not a prefix of the 12 bytes the growing writer produces. -/
theorem C14_bytes_are_emitted_after_a_refused_write :
    ((bytes_writer_bounded.mk (List.replicate 7 0) 0 7).op_shl
        (.seq .vector (.seq .basic_string (.integral 1)))
        (serialize_object_bounded (.seq .vector (.seq .basic_string (.integral 1))))
        (.seq [.seq [.raw [97], .raw [98]]])).written = [0xBB, 1, 0, 0, 0, 97, 98] ∧
    stream_bytes (.seq .vector (.seq .basic_string (.integral 1)))
        (.seq [.seq [.raw [97], .raw [98]]])
      = [0xBB, 1, 0, 0, 0, 0x1B, 2, 0, 0, 0, 97, 98] ∧
    ¬ (((bytes_writer_bounded.mk (List.replicate 7 0) 0 7).op_shl
        (.seq .vector (.seq .basic_string (.integral 1)))
        (serialize_object_bounded (.seq .vector (.seq .basic_string (.integral 1))))
        (.seq [.seq [.raw [97], .raw [98]]])).written <+:
      stream_bytes (.seq .vector (.seq .basic_string (.integral 1)))
        (.seq [.seq [.raw [97], .raw [98]]])) := by
  refine ⟨by decide, by decide, by decide⟩

/-- C14 (amended): for a type on which both writers agree and a bounded writer of capacity
`n` over a buffer of at least `n` bytes, after `writer << v`: `count() ≤ n`; the bytes held
are the fixed-width writes of the encoder that fit the room left at their turn, each whole
and in order (a write that does not fit is skipped, later ones that fit are stored); they are
a sub-sequence of the bytes the growing writer produces, equal to them when these fit the
capacity, and fewer when they do not. -/
theorem C14_bounded_writer_keeps_the_writes_that_fit (T : Ty) (v : Val) (buffer : List Nat)
    (n : Nat) (hT : writers_agree_member T (writers_agree T) = true)
    (hn : n ≤ buffer.length) :
    ((bytes_writer_bounded.mk buffer 0 n).op_shl T (serialize_object_bounded T) v).count ≤ n ∧
    ((bytes_writer_bounded.mk buffer 0 n).op_shl T (serialize_object_bounded T) v).written =
      (kept_writes (member_writes T (bounded_writes T v) v) n).flatten ∧
    (member_writes T (bounded_writes T v) v).flatten = stream_bytes T v ∧
    (((bytes_writer_bounded.mk buffer 0 n).op_shl T
      (serialize_object_bounded T) v).written).Sublist (stream_bytes T v) ∧
    ((stream_bytes T v).length ≤ n →
      ((bytes_writer_bounded.mk buffer 0 n).op_shl T (serialize_object_bounded T) v).written =
        stream_bytes T v) ∧
    (n < (stream_bytes T v).length →
      (((bytes_writer_bounded.mk buffer 0 n).op_shl T
        (serialize_object_bounded T) v).written).length < (stream_bytes T v).length) := by
  obtain ⟨h1, h2, _⟩ := written_op_shl T v buffer n hn
  have hflat := member_writes_stream_bytes T v hT
  refine ⟨h2, h1, hflat, ?_, ?_, ?_⟩
  · rw [h1, ← hflat]
    exact flatten_sublist_of_sublist _ _ (kept_writes_sublist _ _)
  · intro hfit
    rw [h1, kept_writes_of_fits _ _ (by rw [hflat]; exact hfit), hflat]
  · intro hlt
    have := kept_writes_length_le (member_writes T (bounded_writes T v) v) n
    rw [h1]
    omega

theorem C14_bounded_writer_keeps_the_writes_that_fit_witness :
    ((bytes_writer_bounded.mk (List.replicate 12 0) 0 12).op_shl
        (.seq .vector (.seq .basic_string (.integral 1)))
        (serialize_object_bounded (.seq .vector (.seq .basic_string (.integral 1))))
        (.seq [.seq [.raw [97], .raw [98]]])).written =
      stream_bytes (.seq .vector (.seq .basic_string (.integral 1)))
        (.seq [.seq [.raw [97], .raw [98]]]) :=
  (C14_bounded_writer_keeps_the_writes_that_fit
    (.seq .vector (.seq .basic_string (.integral 1))) (.seq [.seq [.raw [97], .raw [98]]])
    (List.replicate 12 0) 12 (by decide) (by decide)).2.2.2.2.1 (by decide)

/-- C15: a discriminator equal to the number of alternatives is not refused. For the target
`std::variant<int, char>` and a header with length 2, the discriminator 2 passes the test
`_index > _header.length` and `_table[2]` is called in a table of two entries: the decoder
has no defined result. The discriminator 3 is refused and gives the default variant. -/
theorem C15_discriminator_equal_to_arity_is_not_refused :
    deserialize_object (.variant [.integral 4, .integral 1])
      (.unbounded { m_data := [0x39, 2, 0, 0, 0, 2, 0, 0, 0, 7, 0, 0, 0], m_pos := 0 })
      = none ∧
    deserialize_object (.variant [.integral 4, .integral 1])
      (.bounded ⟨[0x39, 2, 0, 0, 0, 2, 0, 0, 0, 7, 0, 0, 0], 0, 13⟩) = none ∧
    deserialize_object (.variant [.integral 4, .integral 1])
      (.unbounded { m_data := [0x39, 2, 0, 0, 0, 3, 0, 0, 0, 7, 0, 0, 0], m_pos := 0 })
      = some (default_val (.variant [.integral 4, .integral 1]),
          .unbounded { m_data := [0x39, 2, 0, 0, 0, 3, 0, 0, 0, 7, 0, 0, 0], m_pos := 9 }) ∧
    deserialize_object (.variant [.integral 4, .integral 1])
      (.unbounded { m_data := [0x39, 2, 0, 0, 0, 0, 0, 0, 0, 7, 0, 0, 0], m_pos := 0 })
      = some (.variant 0 (.raw [7, 0, 0, 0]),
          .unbounded { m_data := [0x39, 2, 0, 0, 0, 0, 0, 0, 0, 7, 0, 0, 0], m_pos := 13 }) :=
  ⟨rfl, rfl, rfl, rfl⟩

/-- C16: for a target variant with the alternatives `alts` and a reader of either class in
any state, if the length field of the header read differs from the number of alternatives,
`deserialize_object` returns the default variant, index 0 holding the default value of the
first alternative, and reads nothing after the header. -/
theorem C16_variant_arity_check (alts : List Ty) (reader : Reader)
    (h : reader.read_header.1.length ≠ alts.length) :
    deserialize_object (.variant alts) reader =
      some (.variant 0 (default_alt alts), reader.read_header.2) ∧
    default_val (.variant alts) = .variant 0 (default_alt alts) := by
  constructor
  · simp only [deserialize_object, default_val]
    rw [if_pos h]
  · simp only [default_val]

theorem C16_variant_arity_check_witness :
    deserialize_object (.variant [.integral 4, .integral 1])
      (.unbounded { m_data := [0x39, 3, 0, 0, 0, 1, 0, 0, 0, 7, 0, 0, 0], m_pos := 0 })
      = some (.variant 0 (default_alt [.integral 4, .integral 1]),
          (Reader.unbounded
            { m_data := [0x39, 3, 0, 0, 0, 1, 0, 0, 0, 7, 0, 0, 0], m_pos := 0 }).read_header.2) :=
  (C16_variant_arity_check [.integral 4, .integral 1]
    (.unbounded { m_data := [0x39, 3, 0, 0, 0, 1, 0, 0, 0, 7, 0, 0, 0], m_pos := 0 })
    (by decide)).1

/-- C17: for a sequence container (`kind`, element type `e`) and an associative container
(element type `e`): the encoding of the empty container is its header alone, 5 bytes, with
the main category of the kind, the category of `e` as sub-category and length 0; and a header
with length 0, whatever its type byte `ty` and whatever bytes `suf` follow, decodes to the
empty container with the cursor at 5, on a `bytes_reader` and on a `bytes_reader_bounded` of
any length of at least 5. -/
theorem C17_empty_container (e : Ty) (ty : Nat) (suf : List Nat) :
    (∀ kind : seq_kind,
      serialize_payload (.seq kind e) (.seq []) =
        (container_header d_seq_container (get_data_type e) 0).object_repr ∧
      (serialize_payload (.seq kind e) (.seq [])).length = 5 ∧
      (container_header d_seq_container (get_data_type e) 0).length = 0 ∧
      deserialize_object (.seq kind e) (.unbounded ⟨ty :: 0 :: 0 :: 0 :: 0 :: suf, 0⟩) =
        some (.seq [], .unbounded ⟨ty :: 0 :: 0 :: 0 :: 0 :: suf, 5⟩) ∧
      ∀ length, 5 ≤ length →
        deserialize_object (.seq kind e)
            (.bounded ⟨ty :: 0 :: 0 :: 0 :: 0 :: suf, 0, length⟩) =
          some (.seq [], .bounded ⟨ty :: 0 :: 0 :: 0 :: 0 :: suf, 5, length⟩)) ∧
    (serialize_payload (.aso e) (.seq []) =
        (container_header d_aso_container (get_data_type e) 0).object_repr ∧
      (serialize_payload (.aso e) (.seq [])).length = 5 ∧
      (container_header d_aso_container (get_data_type e) 0).length = 0 ∧
      deserialize_object (.aso e) (.unbounded ⟨ty :: 0 :: 0 :: 0 :: 0 :: suf, 0⟩) =
        some (.seq [], .unbounded ⟨ty :: 0 :: 0 :: 0 :: 0 :: suf, 5⟩) ∧
      ∀ length, 5 ≤ length →
        deserialize_object (.aso e) (.bounded ⟨ty :: 0 :: 0 :: 0 :: 0 :: suf, 0, length⟩) =
          some (.seq [], .bounded ⟨ty :: 0 :: 0 :: 0 :: 0 :: suf, 5, length⟩)) := by
  obtain ⟨hu, hb⟩ := read_header_zero_length ty suf
  refine ⟨fun kind => ⟨?_, ?_, rfl, ?_, ?_⟩, ?_, ?_, rfl, ?_, ?_⟩
  · rw [serialize_payload_seq]; simp
  · rw [serialize_payload_seq]; simp [length_data_header]
  · simp only [deserialize_object, hu, read_elements]
    split_ifs <;> rfl
  · intro length h5
    simp only [deserialize_object, hb length h5, read_elements]
    split_ifs <;> rfl
  · rw [serialize_payload_aso]; simp
  · rw [serialize_payload_aso]; simp [length_data_header]
  · simp only [deserialize_object, hu, read_elements]
    split_ifs <;> rfl
  · intro length h5
    simp only [deserialize_object, hb length h5, read_elements]
    split_ifs <;> rfl

theorem C17_empty_container_witness :
    deserialize_object (.seq .vector (.integral 4))
      (.bounded ⟨[0x3B, 0, 0, 0, 0, 9, 9], 0, 7⟩)
      = some (.seq [], .bounded ⟨[0x3B, 0, 0, 0, 0, 9, 9], 5, 7⟩) :=
  ((C17_empty_container (.integral 4) 0x3B [9, 9]).1 .vector).2.2.2.2 7 (by decide)

/-- C18: the sequence {1, 2, 3, 4} of 32-bit integers, in a vector, list, deque or string
class, is encoded in exactly these 21 bytes: the type byte 0x3B, whose low nibble is the main
category 11 (sequence container) and whose high nibble is the sub-category 3 (32-bit), the
length 4 in 4 bytes, and the four integers, little-endian, 4 bytes each. A sequence of `n`
32-bit integers is encoded in `5 + 4 * n` bytes: the type byte 0x3B, the length in 4 bytes,
and the integers. -/
theorem C18_scenario_payload (kind : seq_kind) :
    serialize_payload (.seq kind (.integral 4)) (int_seq [1, 2, 3, 4]) =
      [0x3B, 4, 0, 0, 0, 1, 0, 0, 0, 2, 0, 0, 0, 3, 0, 0, 0, 4, 0, 0, 0] ∧
    (serialize_payload (.seq kind (.integral 4)) (int_seq [1, 2, 3, 4])).length = 21 ∧
    (data_header.mk 0x3B 4).get_main_type = d_seq_container ∧ d_seq_container = 11 ∧
    (data_header.mk 0x3B 4).get_sub_type = d_byte32 ∧ d_byte32 = 3 ∧
    ∀ xs : List Nat,
      serialize_payload (.seq kind (.integral 4)) (int_seq xs) =
        0x3B :: (to_bytes 4 (xs.length % 4294967296) ++ (xs.map (to_bytes 4)).flatten) ∧
      (serialize_payload (.seq kind (.integral 4)) (int_seq xs)).length = 5 + 4 * xs.length := by
  have hgen : ∀ xs : List Nat,
      serialize_payload (.seq kind (.integral 4)) (int_seq xs) =
        0x3B :: (to_bytes 4 (xs.length % 4294967296) ++ (xs.map (to_bytes 4)).flatten) := by
    intro xs
    unfold int_seq
    rw [serialize_payload_seq, map_map_flatten_int, List.length_map]
    rfl
  refine ⟨by rw [hgen]; rfl, by rw [hgen]; rfl, by decide, rfl, by decide, rfl, ?_⟩
  intro xs
  refine ⟨hgen xs, ?_⟩
  rw [hgen]
  simp only [List.length_cons, List.length_append, length_to_bytes, length_flatten_int]
  omega

/-- C19 (counterexample): with the empty checksum strategy the first 10 bytes of
`serialize` of {1, 2, 3, 4} as 32-bit integers are not 00 01 00 00 00 00 15 00 00 00. -/
theorem C19_envelope_does_not_start_with_zero :
    (serialize (.seq .vector (.integral 4)) (int_seq [1, 2, 3, 4]) empty_checksum).map
      (List.take 10) ≠ some [0x00, 0x01, 0x00, 0x00, 0x00, 0x00, 0x15, 0x00, 0x00, 0x00] := by
  decide

/-- C19 (amended): with the empty checksum strategy the first 10 bytes of `serialize` of
{1, 2, 3, 4} as 32-bit integers are 01 00 00 00 00 00 15 00 00 00: the version 1 as a
little-endian 16-bit integer, the checksum 0 in 4 bytes, the length 21 in 4 bytes; the 21
bytes of the payload follow. -/
theorem C19_scenario_envelope :
    VERSION = 1 ∧
    (serialize (.seq .vector (.integral 4)) (int_seq [1, 2, 3, 4]) empty_checksum).map
      (List.take 10) = some [0x01, 0x00, 0x00, 0x00, 0x00, 0x00, 0x15, 0x00, 0x00, 0x00] ∧
    serialize (.seq .vector (.integral 4)) (int_seq [1, 2, 3, 4]) empty_checksum =
      some ([0x01, 0x00, 0x00, 0x00, 0x00, 0x00, 0x15, 0x00, 0x00, 0x00] ++
        serialize_payload (.seq .vector (.integral 4)) (int_seq [1, 2, 3, 4])) := by
  decide

/-- C20: the map {"Jacky" to 68, "Element" to 97, "Bob" to 45} with string keys and 32-bit
values, in whatever order the container iterates. The payload is the header 8C 03 00 00 00
(main category 12, associative container; sub-category 8, pair; length 3), then per entry the
pair header 08 02 00 00 00, the key as a header 1B with the byte count of the key followed
by its bytes, and the value in 4 bytes; it has 5 + (19 + 21 + 17) = 62 bytes; decoding it as
the same map type, with any bytes after it, yields the same entries in the same order with
the cursor at 62, and `deserialize` of `serialize` yields them as well. -/
theorem C20_scenario_map (entries : List (List Nat × Nat)) (h : entries.Perm map1) :
    serialize_payload string_map (map_val entries) =
      [0x8C, 3, 0, 0, 0] ++ (entries.map (fun kv =>
        [0x08, 2, 0, 0, 0] ++ ((0x1B :: to_bytes 4 kv.1.length) ++ kv.1) ++
          to_bytes 4 kv.2)).flatten ∧
    (data_header.mk 0x8C 3).get_main_type = d_aso_container ∧ d_aso_container = 12 ∧
    (data_header.mk 0x8C 3).get_sub_type = d_pair ∧ d_pair = 8 ∧
    (data_header.mk d_pair 2).object_repr = [0x08, 2, 0, 0, 0] ∧
    (∀ n, n < 256 → (container_header d_seq_container d_byte8 n).object_repr
      = 0x1B :: to_bytes 4 n) ∧
    (serialize_payload string_map (map_val entries)).length = 62 ∧
    5 + (map1.map (fun kv => 5 + 5 + kv.1.length + 4)).sum = 62 ∧
    (∀ suf : List Nat,
      deserialize_object string_map
        (.unbounded ⟨serialize_payload string_map (map_val entries) ++ suf, 0⟩) =
      some (map_val entries,
        .unbounded ⟨serialize_payload string_map (map_val entries) ++ suf, 62⟩)) ∧
    (serialize string_map (map_val entries) empty_checksum).bind
      (fun out => deserialize string_map out empty_checksum) = some (map_val entries) := by
  have hmem := map1_orders entries h
  have hhdr : ∀ n, n < 256 → (container_header d_seq_container d_byte8 n).object_repr
      = 0x1B :: to_bytes 4 n := by
    intro n hn
    have h1 : n % 4294967296 = n := Nat.mod_eq_of_lt (by omega)
    simp [container_header, data_header.object_repr, data_header.set_main_type,
      data_header.set_sub_type, d_seq_container, d_byte8, h1]
    decide
  have hlen : (serialize_payload string_map (map_val entries)).length = 62 := by
    simp only [List.mem_cons, List.mem_singleton, List.not_mem_nil, or_false] at hmem
    rcases hmem with rfl | rfl | rfl | rfl | rfl | rfl <;> rfl
  have hdec : ∀ suf : List Nat,
      deserialize_object string_map
        (.unbounded ⟨serialize_payload string_map (map_val entries) ++ suf, 0⟩) =
      some (map_val entries,
        .unbounded ⟨serialize_payload string_map (map_val entries) ++ suf, 62⟩) := by
    intro suf
    have hv : has_type string_map (map_val entries) = true := by
      simp only [List.mem_cons, List.mem_singleton, List.not_mem_nil, or_false] at hmem
      rcases hmem with rfl | rfl | rfl | rfl | rfl | rfl <;> decide
    have := round_trip_restorable string_map (map_val entries) suf (by decide) hv
    rw [hlen] at this
    exact this
  refine ⟨?_, by decide, rfl, by decide, rfl, by decide, hhdr, hlen, by decide, hdec, ?_⟩
  · simp only [List.mem_cons, List.mem_singleton, List.not_mem_nil, or_false] at hmem
    rcases hmem with rfl | rfl | rfl | rfl | rfl | rfl <;> rfl
  · simp only [List.mem_cons, List.mem_singleton, List.not_mem_nil, or_false] at hmem
    rcases hmem with rfl | rfl | rfl | rfl | rfl | rfl <;> rfl

theorem C20_scenario_map_witness :
    serialize_payload string_map (map_val map1) =
      [0x8C, 3, 0, 0, 0,
        0x08, 2, 0, 0, 0, 0x1B, 5, 0, 0, 0, 74, 97, 99, 107, 121, 68, 0, 0, 0,
        0x08, 2, 0, 0, 0, 0x1B, 7, 0, 0, 0, 69, 108, 101, 109, 101, 110, 116, 97, 0, 0, 0,
        0x08, 2, 0, 0, 0, 0x1B, 3, 0, 0, 0, 66, 111, 98, 45, 0, 0, 0] :=
  (C20_scenario_map map1 (List.Perm.refl map1)).1

/-- C21: `make_version` shifts the major version by 4 bits, not into the upper byte. For
major 1 and minor 0 it returns 0x0010, while `set_major_version(1)` and
`set_minor_version(0)` store 0x0100 = 1 * 256 + 0. The current version (0, 1) packs to
0x0001 either way. -/
theorem C21_make_version_shifts_by_four :
    make_version 1 0 = 0x0010 ∧
    make_version 1 0 ≠ 1 * 256 + 0 ∧
    (((packer_header.mk 0 0 0).set_major_version 1).set_minor_version 0).version
      = 1 * 256 + 0 ∧
    make_version 0 1 = 0x0001 ∧
    (((packer_header.mk 0 0 0).set_major_version 0).set_minor_version 1).version = 0x0001 ∧
    VERSION = 0x0001 := by
  decide

/-- C22: `read<T>()` for a fixed-width `T` of `n` bytes, on a `bytes_reader` with the cursor
within the source and on a `bytes_reader_bounded` with the cursor within the declared length
and that within the memory. If `remaining() >= n`, the result is the `n` bytes of the source
at the cursor and the cursor advances by `n`; otherwise the result is `n` zero bytes and the
reader is unchanged. The cursor never decreases under `read` or `skip`. -/
theorem C22_primitive_read (r : bytes_reader) (b : bytes_reader_bounded) (n : Nat)
    (hr : r.m_pos ≤ r.m_data.length) (hb : b.m_pos ≤ b.m_length)
    (hmem : b.m_length ≤ b.m_data.length) :
    (n ≤ r.remaining →
      (r.read n).1 = (r.m_data.drop r.m_pos).take n ∧ (r.read n).1.length = n ∧
      (r.read n).2.count = r.count + n ∧ (r.read n).2.m_data = r.m_data) ∧
    (r.remaining < n → r.read n = (List.replicate n 0, r)) ∧
    (n ≤ b.remaining →
      (b.read n).1 = (b.m_data.drop b.m_pos).take n ∧ (b.read n).1.length = n ∧
      (b.read n).2.count = b.count + n ∧ (b.read n).2.m_data = b.m_data ∧
      (b.read n).2.m_length = b.m_length) ∧
    (b.remaining < n → b.read n = (List.replicate n 0, b)) ∧
    r.count ≤ (r.read n).2.count ∧ r.count ≤ (r.skip n).count ∧
    b.count ≤ (b.read n).2.count ∧ b.count ≤ (b.skip n).count := by
  simp only [bytes_reader.read, bytes_reader.skip, bytes_reader.can_read,
    bytes_reader.remaining, bytes_reader.count, bytes_reader_bounded.read,
    bytes_reader_bounded.skip, bytes_reader_bounded.can_read, bytes_reader_bounded.remaining,
    bytes_reader_bounded.count, size_t_sub_of_le _ _ hr, size_t_sub_of_le _ _ hb]
  refine ⟨?_, ?_, ?_, ?_, ?_, ?_, ?_, ?_⟩
  · intro h
    simp only [ge_iff_le, h, decide_True, Bool.not_true, Bool.false_eq_true, if_false,
      List.length_take, List.length_drop, and_true, true_and]
    omega
  · intro h
    have : ¬ n ≤ r.m_data.length - r.m_pos := by omega
    simp [this]
  · intro h
    simp only [ge_iff_le, h, decide_True, Bool.not_true, Bool.false_eq_true, if_false,
      List.length_take, List.length_drop, and_true, true_and]
    omega
  · intro h
    have : ¬ n ≤ b.m_length - b.m_pos := by omega
    simp [this]
  · split_ifs <;> simp
  · split_ifs <;> simp
  · split_ifs <;> simp
  · split_ifs <;> simp

theorem C22_primitive_read_witness :
    ((bytes_reader.mk [1, 2, 3, 4, 5, 6] 1).read 4).1 = [2, 3, 4, 5] ∧
    ((bytes_reader.mk [1, 2, 3, 4, 5, 6] 1).read 4).2.count = 5 ∧
    (bytes_reader_bounded.mk [1, 2, 3, 4, 5, 6] 1 4).read 4
      = ([0, 0, 0, 0], bytes_reader_bounded.mk [1, 2, 3, 4, 5, 6] 1 4) :=
  ⟨((C22_primitive_read ⟨[1, 2, 3, 4, 5, 6], 1⟩ ⟨[1, 2, 3, 4, 5, 6], 1, 4⟩ 4 (by decide)
      (by decide) (by decide)).1 (by decide)).1,
    ((C22_primitive_read ⟨[1, 2, 3, 4, 5, 6], 1⟩ ⟨[1, 2, 3, 4, 5, 6], 1, 4⟩ 4 (by decide)
      (by decide) (by decide)).1 (by decide)).2.2.1,
    (C22_primitive_read ⟨[1, 2, 3, 4, 5, 6], 1⟩ ⟨[1, 2, 3, 4, 5, 6], 1, 4⟩ 4 (by decide)
      (by decide) (by decide)).2.2.2.1 (by decide)⟩

/-- C23: `read_bytes` does not return `min(n, remaining())` bytes. A reader of either class
over the 10 bytes 0..9 with the cursor at 0 is asked for 8 bytes, all of them there:
`available` is `min(8, 10 - 8) = 2`, so it returns the 2 bytes 0, 1 and the cursor ends at 2.
With the cursor at 8 and a request for 4 bytes, where 2 remain, `available` is 4 and the
cursor ends at 12, past the end. -/
theorem C23_read_bytes_subtracts_the_request :
    (bytes_reader.mk [0, 1, 2, 3, 4, 5, 6, 7, 8, 9] 0).remaining = 10 ∧
    ((bytes_reader.mk [0, 1, 2, 3, 4, 5, 6, 7, 8, 9] 0).read_bytes 8).1 = [0, 1] ∧
    ((bytes_reader.mk [0, 1, 2, 3, 4, 5, 6, 7, 8, 9] 0).read_bytes 8).2.count = 2 ∧
    ((bytes_reader_bounded.mk [0, 1, 2, 3, 4, 5, 6, 7, 8, 9] 0 10).read_bytes 8).1 = [0, 1] ∧
    ((bytes_reader_bounded.mk [0, 1, 2, 3, 4, 5, 6, 7, 8, 9] 0 10).read_bytes 8).2.count = 2 ∧
    (bytes_reader.mk [0, 1, 2, 3, 4, 5, 6, 7, 8, 9] 8).remaining = 2 ∧
    ((bytes_reader.mk [0, 1, 2, 3, 4, 5, 6, 7, 8, 9] 8).read_bytes 4).2.count = 12 ∧
    ((bytes_reader_bounded.mk [0, 1, 2, 3, 4, 5, 6, 7, 8, 9] 8 10).read_bytes 4).2.count
      = 12 := by
  decide

/-- C24 (counterexample): a reader of either class over 10 bytes with the cursor at 2 moves
forward to 5 on `seek(5)`, because `5 < 10 - 2`. -/
theorem C24_seek_moves_forward :
    ((bytes_reader.mk [0, 1, 2, 3, 4, 5, 6, 7, 8, 9] 2).seek 5).count = 5 ∧
    ((bytes_reader_bounded.mk [0, 1, 2, 3, 4, 5, 6, 7, 8, 9] 2 10).seek 5).count = 5 := by
  decide

/-- C24 (amended): for a reader of either class with the cursor `c` within the length,
`seek(pos)` sets the cursor to `pos` when `pos < length - c` and changes nothing otherwise.
So a seek forward takes effect exactly when `c < pos < length - c`, and none does once
`length ≤ 2 * c + 1`. -/
theorem C24_seek_takes_effect_below_length_minus_cursor (r : bytes_reader)
    (b : bytes_reader_bounded) (pos : Nat) (hr : r.m_pos ≤ r.m_data.length)
    (hb : b.m_pos ≤ b.m_length) :
    r.seek pos = (if pos < r.m_data.length - r.count then { r with m_pos := pos } else r) ∧
    b.seek pos = (if pos < b.m_length - b.count then { b with m_pos := pos } else b) ∧
    (r.count < pos → ((r.seek pos).count = pos ↔ pos < r.m_data.length - r.count)) ∧
    (b.count < pos → ((b.seek pos).count = pos ↔ pos < b.m_length - b.count)) ∧
    (r.count < pos → r.m_data.length ≤ 2 * r.count + 1 → r.seek pos = r) ∧
    (b.count < pos → b.m_length ≤ 2 * b.count + 1 → b.seek pos = b) := by
  simp only [bytes_reader.seek, bytes_reader_bounded.seek, bytes_reader.count,
    bytes_reader_bounded.count, size_t_sub_of_le _ _ hr, size_t_sub_of_le _ _ hb]
  refine ⟨trivial, trivial, ?_, ?_, ?_, ?_⟩
  · intro h
    split_ifs with h2
    · simp [h2]
    · simp only [h2, iff_false]; omega
  · intro h
    split_ifs with h2
    · simp [h2]
    · simp only [h2, iff_false]; omega
  · intro h h2
    rw [if_neg (by omega)]
  · intro h h2
    rw [if_neg (by omega)]

theorem C24_seek_takes_effect_below_length_minus_cursor_witness :
    (bytes_reader.mk [0, 1, 2, 3, 4, 5, 6, 7, 8, 9] 5).seek 7
      = bytes_reader.mk [0, 1, 2, 3, 4, 5, 6, 7, 8, 9] 5 :=
  (C24_seek_takes_effect_below_length_minus_cursor ⟨[0, 1, 2, 3, 4, 5, 6, 7, 8, 9], 5⟩
    ⟨[0, 1, 2, 3, 4, 5, 6, 7, 8, 9], 5, 10⟩ 7 (by decide) (by decide)).2.2.2.2.1
    (by decide) (by decide)

/-- C25 (counterexample): the classifier does not return `d_pod` for a trivially copyable
struct of 2 bytes, and the header of a vector of such structs has the type byte 0xDB, with
the sub-category 13, not 7. -/
theorem C25_classifier_does_not_return_pod :
    get_data_type (.pod 2) ≠ d_pod ∧
    serialize_payload (.seq .vector (.pod 2)) (.seq [.raw [1, 2]])
      = [0xDB, 1, 0, 0, 0, 1, 2] ∧
    (data_header.mk 0xDB 1).get_sub_type ≠ d_pod := by
  decide

/-- C25 (amended): for every trivially copyable compound type that is not one of the
standard templates, the classifier `get_data_type` returns `d_custom` (13), reached by
falling through every branch; it returns `d_pod` (7) for no type. A sequence container of
such aggregates is encoded with the sub-category 13 in its header. -/
theorem C25_classifier_returns_custom_for_pod (w : Nat) :
    get_data_type (.pod w) = d_custom ∧ d_custom = 13 ∧ d_pod = 7 ∧
    (∀ T : Ty, get_data_type T ≠ d_pod) ∧
    (∀ (kind : seq_kind) (vs : List Val),
      serialize_payload (.seq kind (.pod w)) (.seq vs) =
        (container_header d_seq_container d_custom vs.length).object_repr ++
          (vs.map object_repr).flatten ∧
      (container_header d_seq_container d_custom vs.length).get_sub_type = d_custom ∧
      (container_header d_seq_container d_custom vs.length).get_main_type = d_seq_container ∧
      (container_header d_seq_container d_custom vs.length).type = 0xDB) := by
  refine ⟨rfl, rfl, rfl, ?_, ?_⟩
  · intro T h
    have := get_data_type_range T
    rw [h] at this
    simp [d_pod] at this
  · intro kind vs
    obtain ⟨_, h2, h3, _⟩ := container_header_facts d_seq_container d_custom vs.length
      (by decide) (by decide)
    refine ⟨?_, h3, h2, rfl⟩
    rw [serialize_payload_seq, map_stream_bytes_pod]
    rfl

/-- C26 (counterexample): a trivially copyable struct of 2 bytes with the bytes 1, 2 as the
element of a vector, as the member of a pair and as the element of a tuple is written as its
2 raw bytes, without the header 07 02 00 00 00. -/
theorem C26_nested_pod_has_no_header :
    serialize_payload (.seq .vector (.pod 2)) (.seq [.raw [1, 2]])
      = [0xDB, 1, 0, 0, 0, 1, 2] ∧
    serialize_payload (.seq .vector (.pod 2)) (.seq [.raw [1, 2]])
      ≠ [0xDB, 1, 0, 0, 0] ++ ([0x07, 2, 0, 0, 0] ++ [1, 2]) ∧
    serialize_payload (.pair (.pod 2) (.integral 1)) (.pair (.raw [1, 2]) (.raw [9]))
      = [0x08, 2, 0, 0, 0, 1, 2, 9] ∧
    serialize_payload (.tuple [.pod 2, .integral 1]) (.tuple [.raw [1, 2], .raw [9]])
      = [0x0A, 2, 0, 0, 0, 1, 2, 9] := by
  decide

/-- C26 (amended): a trivially copyable compound aggregate of width `w` is encoded as the
5-byte header with category 7 and length `w`, followed by its raw bytes, when it is the
value handed to `serialize_object` (the top level of `serialize`). As a container element,
pair member, tuple element or alternative of a variant it is streamed by `writer << v`,
which copies its raw bytes without a header; the bounded `serialize` streams its top-level
value in the same way. -/
theorem C26_pod_header_only_at_top_level (w : Nat) (bytes : List Nat) :
    serialize_payload (.pod w) (.raw bytes) =
      (0x07 :: to_bytes 4 (w % 4294967296)) ++ bytes ∧
    stream_bytes (.pod w) (.raw bytes) = bytes ∧
    (∀ (kind : seq_kind) (vs : List Val),
      serialize_payload (.seq kind (.pod w)) (.seq vs) =
        (container_header d_seq_container d_custom vs.length).object_repr ++
          (vs.map object_repr).flatten) ∧
    (∀ (T : Ty) (x : Val),
      serialize_payload (.pair (.pod w) T) (.pair (.raw bytes) x) =
        (data_header.mk d_pair 2).object_repr ++ (bytes ++ stream_bytes T x) ∧
      serialize_payload (.pair T (.pod w)) (.pair x (.raw bytes)) =
        (data_header.mk d_pair 2).object_repr ++ (stream_bytes T x ++ bytes)) ∧
    (∀ (ts : List Ty) (vs : List Val),
      serialize_payload (.tuple (.pod w :: ts)) (.tuple (.raw bytes :: vs)) =
        (data_header.mk d_tuple (ts.length + 1)).object_repr ++ (bytes ++ tuple_bytes ts vs)) ∧
    (∀ ts : List Ty,
      serialize_payload (.variant (.pod w :: ts)) (.variant 0 (.raw bytes)) =
        ((data_header.mk d_variant (ts.length + 1)).set_sub_type d_custom).object_repr ++
          (to_bytes 4 0 ++ bytes)) ∧
    serialize_bounded_payload (.pod 2) [0, 0, 0, 0, 0, 0, 0] 7 (.raw [1, 2]) = [1, 2] := by
  refine ⟨?_, ?_, ?_, ?_, ?_, ?_, by decide⟩
  · simp [serialize_payload, serialize_object, bytes_writer.write_pod, data_header.object_repr,
      object_repr, d_pod]
  · rw [stream_bytes_pod]; rfl
  · intro kind vs
    rw [serialize_payload_seq, map_stream_bytes_pod]
    rfl
  · intro T x
    rw [serialize_payload_pair, serialize_payload_pair, stream_bytes_pod]
    exact ⟨rfl, rfl⟩
  · intro ts vs
    rw [serialize_payload_tuple, tuple_bytes_cons, stream_bytes_pod]
    rfl
  · intro ts
    rw [serialize_payload_variant, alt_bytes_zero, stream_bytes_pod]
    rfl

/-- C27: the size estimate of a variant leaves out the discriminator. For
`std::variant<int, char>` holding the int 7, `get_size` is 9 = 5 + 4, while the encoder
writes 13 bytes: the header, the 4-byte index and the 4 bytes of the int. For every variant
value `get_size` is 5 plus the estimate for the active alternative. -/
theorem C27_variant_size_estimate_omits_the_index :
    get_size (.variant [.integral 4, .integral 1]) (.variant 0 (.raw [7, 0, 0, 0])) = 9 ∧
    get_size (.integral 4) (.raw [7, 0, 0, 0]) = 4 ∧
    serialize_payload (.variant [.integral 4, .integral 1]) (.variant 0 (.raw [7, 0, 0, 0]))
      = [0x39, 2, 0, 0, 0, 0, 0, 0, 0, 7, 0, 0, 0] ∧
    (serialize_payload (.variant [.integral 4, .integral 1])
      (.variant 0 (.raw [7, 0, 0, 0]))).length = 13 ∧
    (∀ (alts : List Ty) (index : Nat) (val : Val),
      get_size (.variant alts) (.variant index val) =
        5 + get_variant_size_impl alts index val) ∧
    (∀ (t : Ty) (ts : List Ty) (val : Val),
      get_size (.variant (t :: ts)) (.variant 0 val) = 5 + get_size t val) := by
  refine ⟨by decide, by decide, by decide, by decide, ?_, ?_⟩
  · intro alts index val
    simp [get_size, get_object_size, header_size]
  · intro t ts val
    simp [get_size, get_object_size, get_variant_size_impl, header_size]

/-- C28: for every sequence of bytes, whatever memory follows it, the table-driven
`crc32_checksum` returns the reflected CRC-32 computed bit by bit with polynomial 0xEDB88320,
seed 0xFFFFFFFF and final complement; on the ASCII bytes of "123456789" it returns
0xCBF43926, and on the empty sequence 0. -/
theorem C28_crc32_is_the_reflected_crc32 (data rest : List Nat)
    (hd : ∀ b ∈ data, b < 256) :
    crc32_checksum (data ++ rest) data.length = some (crc32_bit_by_bit data) ∧
    crc32_checksum [49, 50, 51, 52, 53, 54, 55, 56, 57] 9 = some 0xCBF43926 ∧
    crc32_checksum [] 0 = some 0 := by
  refine ⟨?_, by decide, by decide⟩
  rw [checksum_of_leading_bytes crc32_of crc32_checksum (fun _ _ => rfl),
    crc32_of_eq_bit_by_bit data hd]

theorem C28_crc32_is_the_reflected_crc32_witness :
    crc32_checksum ([49, 50, 51] ++ [7, 7]) 3 = some (crc32_bit_by_bit [49, 50, 51]) :=
  (C28_crc32_is_the_reflected_crc32 [49, 50, 51] [7, 7] (by decide)).1

/-- C29: for every sequence of bytes, whatever memory follows it, the table-driven
`crc16_checksum` returns the MSB-first CRC-16 computed bit by bit with polynomial 0x1021 and
seed 0xFFFF, without a final exclusive or, every intermediate value truncated to 16 bits; on
the ASCII bytes of "123456789" it returns 0x29B1, and on the empty sequence 0xFFFF. -/
theorem C29_crc16_is_the_ccitt_crc16 (data rest : List Nat) (hd : ∀ b ∈ data, b < 256) :
    crc16_checksum (data ++ rest) data.length = some (crc16_bit_by_bit data) ∧
    crc16_checksum [49, 50, 51, 52, 53, 54, 55, 56, 57] 9 = some 0x29B1 ∧
    crc16_checksum [] 0 = some 0xFFFF := by
  refine ⟨?_, by decide, by decide⟩
  rw [checksum_of_leading_bytes crc16_of crc16_checksum (fun _ _ => rfl),
    crc16_of_eq_bit_by_bit data hd]

theorem C29_crc16_is_the_ccitt_crc16_witness :
    crc16_checksum ([49, 50, 51] ++ [7, 7]) 3 = some (crc16_bit_by_bit [49, 50, 51]) :=
  (C29_crc16_is_the_ccitt_crc16 [49, 50, 51] [7, 7] (by decide)).1

/-- C30: for every sequence of bytes, whatever memory follows it, the table-driven
`crc8_checksum` returns the MSB-first CRC-8 computed bit by bit with polynomial 0x07 and
seed 0, truncated to 8 bits; on the ASCII bytes of "123456789" it returns 0xF4; and
`empty_checksum` returns 0 on every input. -/
theorem C30_crc8_is_the_msb_first_crc8 (data rest : List Nat) (hd : ∀ b ∈ data, b < 256) :
    crc8_checksum (data ++ rest) data.length = some (crc8_bit_by_bit data) ∧
    crc8_checksum [49, 50, 51, 52, 53, 54, 55, 56, 57] 9 = some 0xF4 ∧
    (∀ (memory : List Nat) (length : Nat), empty_checksum memory length = some 0) := by
  refine ⟨?_, by decide, fun _ _ => rfl⟩
  rw [checksum_of_leading_bytes crc8_of crc8_checksum (fun _ _ => rfl),
    crc8_of_eq_bit_by_bit data hd]

theorem C30_crc8_is_the_msb_first_crc8_witness :
    crc8_checksum ([49, 50, 51] ++ [7, 7]) 3 = some (crc8_bit_by_bit [49, 50, 51]) :=
  (C30_crc8_is_the_msb_first_crc8 [49, 50, 51] [7, 7] (by decide)).1

/-- C31: on the growing writer, for every element type and every list `xs` of fewer than
`2 ^ 32` elements, `serialize_object` emits for a `std::forward_list` holding `xs`, through
the scratch vector and the counted length, the bytes it emits for a `std::vector` holding
`xs`: the header with main category 11, the category of the element type as sub-category
and the length `|xs|`, followed by the encodings of the elements in order; appended to
whatever the writer held. -/
theorem C31_forward_list_encodes_as_vector (e : Ty) (xs : List Val) (w : bytes_writer)
    (hn : xs.length < 4294967296) :
    serialize_object (.forward_list e) (.seq xs) w = serialize_object (.seq .vector e) (.seq xs) w ∧
    (serialize_object (.forward_list e) (.seq xs) w).m_data =
      w.m_data ++ ((container_header d_seq_container (get_data_type e) xs.length).object_repr ++
        (xs.map (stream_bytes e)).flatten) ∧
    (container_header d_seq_container (get_data_type e) xs.length).get_main_type
      = d_seq_container ∧
    (container_header d_seq_container (get_data_type e) xs.length).get_sub_type
      = get_data_type e ∧
    (container_header d_seq_container (get_data_type e) xs.length).length = xs.length := by
  obtain ⟨_, h2, h3, h4⟩ := container_header_facts d_seq_container (get_data_type e) xs.length
    (by decide) (get_data_type_lt e)
  have hf := serialize_payload_forward_list e xs
  have hv := serialize_payload_seq .vector e xs
  unfold serialize_payload at hf hv
  have hfw : (serialize_object (.forward_list e) (.seq xs) w).m_data =
      w.m_data ++ ((container_header d_seq_container (get_data_type e) xs.length).object_repr ++
        (xs.map (stream_bytes e)).flatten) := by
    rw [serialize_object_append, hf]
  have hvw : (serialize_object (.seq .vector e) (.seq xs) w).m_data =
      w.m_data ++ ((container_header d_seq_container (get_data_type e) xs.length).object_repr ++
        (xs.map (stream_bytes e)).flatten) := by
    rw [serialize_object_append, hv]
  refine ⟨?_, hfw, h2, h3, by rw [h4, Nat.mod_eq_of_lt hn]⟩
  cases hx : serialize_object (.forward_list e) (.seq xs) w
  cases hy : serialize_object (.seq .vector e) (.seq xs) w
  rw [hx] at hfw
  rw [hy] at hvw
  simp only at hfw hvw
  rw [hfw, hvw]

theorem C31_forward_list_encodes_as_vector_witness :
    (serialize_object (.forward_list (.integral 4))
      (.seq [.raw [1, 0, 0, 0], .raw [2, 0, 0, 0]]) ⟨[9]⟩).m_data =
      [9] ++ ((container_header d_seq_container (get_data_type (.integral 4))
          [Val.raw [1, 0, 0, 0], Val.raw [2, 0, 0, 0]].length).object_repr ++
        ([Val.raw [1, 0, 0, 0], Val.raw [2, 0, 0, 0]].map
          (stream_bytes (.integral 4))).flatten) :=
  (C31_forward_list_encodes_as_vector (.integral 4) [.raw [1, 0, 0, 0], .raw [2, 0, 0, 0]]
    ⟨[9]⟩ (by decide)).2.1

/-- C32: for a variant with the alternatives `alts`, fewer than `2 ^ 32`, holding the
alternative `index`, `serialize_object` writes a header with main category 9, the category
of the active alternative as sub-category and the number of alternatives as length, then the
index in 4 bytes, then the alternative. And `deserialize_object` returns the same result for
two inputs that differ in the type byte of the variant header only, wherever the header
stands, on a `bytes_reader` and on a `bytes_reader_bounded`. -/
theorem C32_variant_sub_category_is_written_not_validated (alts : List Ty) (index : Nat)
    (val : Val) (pre rest : List Nat) (ty ty' length : Nat) (hi : index < alts.length)
    (hn : alts.length < 4294967296) (hl : pre.length ≤ length) :
    serialize_payload (.variant alts) (.variant index val) =
      ((data_header.mk d_variant alts.length).set_sub_type
          (get_data_type (alts.get ⟨index, hi⟩))).object_repr ++
        (to_bytes 4 index ++ alt_bytes alts index val) ∧
    ((data_header.mk d_variant alts.length).set_sub_type
      (get_data_type (alts.get ⟨index, hi⟩))).get_main_type = d_variant ∧
    ((data_header.mk d_variant alts.length).set_sub_type
      (get_data_type (alts.get ⟨index, hi⟩))).get_sub_type
        = get_data_type (alts.get ⟨index, hi⟩) ∧
    ((data_header.mk d_variant alts.length).set_sub_type
      (get_data_type (alts.get ⟨index, hi⟩))).length = alts.length ∧
    from_bytes (to_bytes 4 index) = index ∧
    (deserialize_object (.variant alts) (.unbounded ⟨pre ++ ty :: rest, pre.length⟩)).map
        Prod.fst =
      (deserialize_object (.variant alts) (.unbounded ⟨pre ++ ty' :: rest, pre.length⟩)).map
        Prod.fst ∧
    (deserialize_object (.variant alts)
        (.bounded ⟨pre ++ ty :: rest, pre.length, length⟩)).map Prod.fst =
      (deserialize_object (.variant alts)
        (.bounded ⟨pre ++ ty' :: rest, pre.length, length⟩)).map Prod.fst := by
  have ha : alts ≠ [] := by
    intro h0
    rw [h0] at hi
    exact absurd hi (by simp)
  obtain ⟨f1, f2, f3⟩ := set_sub_type_facts d_variant (get_data_type (alts.get ⟨index, hi⟩))
    alts.length (by decide) (get_data_type_lt _)
  refine ⟨?_, f1, f2, f3, ?_, deserialize_variant_type_byte alts ha pre rest ty ty',
    deserialize_variant_type_byte_bounded alts ha pre rest ty ty' length hl⟩
  · rw [serialize_payload_variant, alt_data_type_get alts index hi]
  · rw [from_bytes_to_bytes]
    exact Nat.mod_eq_of_lt (by norm_num; omega)

theorem C32_variant_sub_category_is_written_not_validated_witness :
    (deserialize_object (.variant [.integral 4, .integral 1])
        (.unbounded ⟨[] ++ 0x39 :: [2, 0, 0, 0, 0, 0, 0, 0, 7, 0, 0, 0], 0⟩)).map Prod.fst =
      (deserialize_object (.variant [.integral 4, .integral 1])
        (.unbounded ⟨[] ++ 0xF0 :: [2, 0, 0, 0, 0, 0, 0, 0, 7, 0, 0, 0], 0⟩)).map Prod.fst :=
  (C32_variant_sub_category_is_written_not_validated [.integral 4, .integral 1] 0
    (.raw [7, 0, 0, 0]) [] [2, 0, 0, 0, 0, 0, 0, 0, 7, 0, 0, 0] 0x39 0xF0 13 (by decide)
    (by decide) (by decide)).2.2.2.2.2.1

/-- C33: the bounded `serialize` does not return the bytes of the growing `serialize`, with
room for all of them. For a trivially copyable struct of 2 bytes the growing overload writes
the payload 07 02 00 00 00 01 02, the bounded one the 2 raw bytes, and `deserialize` of the
bounded output returns the zeroed struct. A `std::array<int, 2>` loses its header in the
same way, a `std::forward_list<int>` gets a second header, and a
`std::vector<std::uint8_t>` inside a vector has its header from the bounded writer only. -/
theorem C33_bounded_serialize_differs_from_growing :
    serialize (.pod 2) (.raw [1, 2]) empty_checksum
      = some [1, 0, 0, 0, 0, 0, 7, 0, 0, 0, 0x07, 2, 0, 0, 0, 1, 2] ∧
    serialize_bounded (.pod 2) (List.replicate 7 0) 7 (.raw [1, 2]) empty_checksum
      = some [1, 0, 0, 0, 0, 0, 2, 0, 0, 0, 1, 2] ∧
    deserialize (.pod 2) [1, 0, 0, 0, 0, 0, 7, 0, 0, 0, 0x07, 2, 0, 0, 0, 1, 2] empty_checksum
      = some (.raw [1, 2]) ∧
    deserialize (.pod 2) [1, 0, 0, 0, 0, 0, 2, 0, 0, 0, 1, 2] empty_checksum
      = some (.raw [0, 0]) ∧
    serialize (.array (.integral 4) 2) (.raw [1, 0, 0, 0, 2, 0, 0, 0]) empty_checksum
      = some [1, 0, 0, 0, 0, 0, 13, 0, 0, 0, 0x3B, 2, 0, 0, 0, 1, 0, 0, 0, 2, 0, 0, 0] ∧
    serialize_bounded (.array (.integral 4) 2) (List.replicate 13 0) 13
        (.raw [1, 0, 0, 0, 2, 0, 0, 0]) empty_checksum
      = some [1, 0, 0, 0, 0, 0, 8, 0, 0, 0, 1, 0, 0, 0, 2, 0, 0, 0] ∧
    serialize (.forward_list (.integral 4)) (.seq [.raw [1, 0, 0, 0]]) empty_checksum
      = some [1, 0, 0, 0, 0, 0, 9, 0, 0, 0, 0x3B, 1, 0, 0, 0, 1, 0, 0, 0] ∧
    serialize_bounded (.forward_list (.integral 4)) (List.replicate 14 0) 14
        (.seq [.raw [1, 0, 0, 0]]) empty_checksum
      = some [1, 0, 0, 0, 0, 0, 14, 0, 0, 0, 0x3B, 1, 0, 0, 0, 0x1B, 4, 0, 0, 0, 1, 0, 0, 0] ∧
    serialize (.seq .vector (.seq .vector .uint8)) (.seq [.seq [.raw [1], .raw [2], .raw [3]]])
        empty_checksum
      = some [1, 0, 0, 0, 0, 0, 8, 0, 0, 0, 0xBB, 1, 0, 0, 0, 1, 2, 3] ∧
    serialize_bounded (.seq .vector (.seq .vector .uint8)) (List.replicate 13 0) 13
        (.seq [.seq [.raw [1], .raw [2], .raw [3]]]) empty_checksum
      = some [1, 0, 0, 0, 0, 0, 13, 0, 0, 0, 0xBB, 1, 0, 0, 0, 0x1B, 3, 0, 0, 0, 1, 2, 3] :=
  ⟨by decide, by decide, rfl, rfl, by decide, by decide, by decide, by decide, by decide,
    by decide⟩

/-- C34: the range handed to the checksum strategy can pass the end of the input. For an
input of exactly 10 bytes with the current version and the envelope length 5, `deserialize`
calls the strategy on the range `[10, 15)`, which lies outside the input, under each of
the three CRC strategies. On the bounded overload, with a declared length of 11 and the
envelope length 2, the byte at index 11, after the declared input, decides whether the
payload byte 7 is accepted. -/
theorem C34_checksum_range_passes_the_end :
    deserialize (.integral 4) [1, 0, 0, 0, 0, 0, 5, 0, 0, 0] crc32_checksum = none ∧
    deserialize (.integral 4) [1, 0, 0, 0, 0, 0, 5, 0, 0, 0] crc16_checksum = none ∧
    deserialize (.integral 4) [1, 0, 0, 0, 0, 0, 5, 0, 0, 0] crc8_checksum = none ∧
    crc32_checksum ([1, 0, 0, 0, 0, 0, 5, 0, 0, 0].drop 10) 5 = none ∧
    deserialize_bounded .uint8 [1, 0, 108, 0, 0, 0, 2, 0, 0, 0, 7, 1] 11 crc8_checksum
      = some (.raw [7]) ∧
    deserialize_bounded .uint8 [1, 0, 108, 0, 0, 0, 2, 0, 0, 0, 7, 2] 11 crc8_checksum
      = some (.raw [0]) ∧
    [1, 0, 108, 0, 0, 0, 2, 0, 0, 0, 7, 1].take 11 =
      [1, 0, 108, 0, 0, 0, 2, 0, 0, 0, 7, 2].take 11 :=
  ⟨rfl, rfl, rfl, by decide, rfl, rfl, by decide⟩

/-- C35: under `empty_checksum`, two inputs whose envelope headers carry the current version
and a zero checksum field, followed by the same bytes from offset 10 on, decode to the same
result whatever their length fields hold, on both overloads of `deserialize`; and an input
whose header carries the current version and a checksum field that is not zero is rejected
with the default value. -/
theorem C35_envelope_length_is_not_consulted (T : Ty) (hdr hdr' p : List Nat) (length : Nat)
    (h : hdr.length = 10) (h' : hdr'.length = 10)
    (hv : (packer_header.of_bytes hdr).version = VERSION)
    (hv' : (packer_header.of_bytes hdr').version = VERSION)
    (hc' : (packer_header.of_bytes hdr').crc = 0) (hl : 10 ≤ length) :
    ((packer_header.of_bytes hdr).crc = 0 →
      deserialize T (hdr ++ p) empty_checksum = deserialize T (hdr' ++ p) empty_checksum ∧
      deserialize_bounded T (hdr ++ p) length empty_checksum =
        deserialize_bounded T (hdr' ++ p) length empty_checksum) ∧
    ((packer_header.of_bytes hdr).crc ≠ 0 →
      deserialize T (hdr ++ p) empty_checksum = some (default_val T) ∧
      deserialize_bounded T (hdr ++ p) length empty_checksum = some (default_val T)) := by
  have e1 := deserialize_append T empty_checksum hdr p h
  have e2 := deserialize_append T empty_checksum hdr' p h'
  have b1 := deserialize_bounded_append T empty_checksum hdr p length h hl
  have b2 := deserialize_bounded_append T empty_checksum hdr' p length h' hl
  simp only [hv, hv', ne_eq, not_true_eq_false, if_false, empty_checksum, Nat.zero_mod, hc']
    at e1 e2 b1 b2
  constructor
  · intro hc
    rw [hc] at e1 b1
    simp only [not_true_eq_false, if_false] at e1 e2 b1 b2
    rw [e1, e2, b1, b2]
    constructor
    · apply same_result_value
      apply deserialize_object_same
      exact ⟨rfl, by simp [h, h'], by rw [List.drop_left' h, List.drop_left' h']⟩
    · apply same_result_value
      apply deserialize_object_same
      exact ⟨rfl, rfl, by rw [List.drop_left' h, List.drop_left' h']⟩
  · intro hc
    have hne : ¬ (0 = (packer_header.of_bytes hdr).crc) := fun e => hc e.symm
    rw [e1, b1]
    simp [hne]

theorem C35_envelope_length_is_not_consulted_witness :
    deserialize (.integral 4) ([1, 0, 0, 0, 0, 0, 4, 0, 0, 0] ++ [7, 0, 0, 0]) empty_checksum =
      deserialize (.integral 4) ([1, 0, 0, 0, 0, 0, 99, 1, 0, 0] ++ [7, 0, 0, 0])
        empty_checksum :=
  ((C35_envelope_length_is_not_consulted (.integral 4) [1, 0, 0, 0, 0, 0, 4, 0, 0, 0]
    [1, 0, 0, 0, 0, 0, 99, 1, 0, 0] [7, 0, 0, 0] 14 (by decide) (by decide) (by decide)
    (by decide) (by decide) (by decide)).1 (by decide)).1

/-- C36: a sequence container with a fixed-width element type `e` of `sizeof e` bytes is
decoded by a reader of either class, in a state with its cursor within its length and at
least 5 bytes left. The cursor advances over the 5 bytes of the header. If the header has
main category 11 and a compatible sub-category, the result has exactly as many elements as
the length field says, whatever follows: the first `k` are the consecutive pieces of the
bytes after the header, where `k` is the smaller of the length field and the number of
whole elements left, the others are zero, and the cursor ends after the pieces read.
Otherwise the result is the empty container with the cursor right after the header. -/
theorem C36_sequence_decode_trusts_the_length (kind : seq_kind) (e : Ty) (r : Reader)
    (he : is_trivially_copyable e = true) (hw : 0 < sizeof e) (hs : r.sound)
    (h5 : 5 ≤ r.remaining) :
    r.read_header.1 = data_header.of_bytes (r.ahead.take 5) ∧
    r.read_header.2.count = r.count + 5 ∧
    (r.read_header.1.get_main_type = d_seq_container ∧
        r.read_header.1.is_subtype_compitable (get_data_type e) = true →
      ∃ r' : Reader,
        deserialize_object (.seq kind e) r =
          some (.seq ((chunks (sizeof e)
              (min r.read_header.1.length ((r.ahead.drop 5).length / sizeof e))
              (r.ahead.drop 5)).map Val.raw ++
            List.replicate
              (r.read_header.1.length -
                min r.read_header.1.length ((r.ahead.drop 5).length / sizeof e))
              (.raw (List.replicate (sizeof e) 0))), r') ∧
        ((chunks (sizeof e)
              (min r.read_header.1.length ((r.ahead.drop 5).length / sizeof e))
              (r.ahead.drop 5)).map Val.raw ++
            List.replicate
              (r.read_header.1.length -
                min r.read_header.1.length ((r.ahead.drop 5).length / sizeof e))
              (Val.raw (List.replicate (sizeof e) 0))).length = r.read_header.1.length ∧
        r'.count = r.count + 5 +
          min r.read_header.1.length ((r.ahead.drop 5).length / sizeof e) * sizeof e) ∧
    (¬ (r.read_header.1.get_main_type = d_seq_container ∧
        r.read_header.1.is_subtype_compitable (get_data_type e) = true) →
      deserialize_object (.seq kind e) r = some (.seq [], r.read_header.2)) := by
  obtain ⟨f1, f2, f3, f4⟩ := read_header_of_fits r hs h5
  refine ⟨f1, f4, ?_, ?_⟩
  · intro hv
    obtain ⟨r', g1, _, _, g4⟩ := read_elements_fixed_width e (deserialize_object e) he hw
      r.read_header.1.length r.read_header.2 f2
    rw [f3] at g1 g4
    refine ⟨r', ?_, ?_, ?_⟩
    · simp only [deserialize_object]
      rw [if_pos hv, g1]
    · simp only [List.length_append, List.length_map, length_chunks, List.length_replicate]
      omega
    · rw [g4, f4]
  · intro hv
    simp only [deserialize_object]
    rw [if_neg hv]

theorem C36_sequence_decode_trusts_the_length_witness :
    deserialize_object (.seq .vector (.integral 4))
        (.unbounded ⟨[0x3B, 3, 0, 0, 0, 1, 0, 0, 0, 2, 0], 0⟩) =
      some (.seq [.raw [1, 0, 0, 0], .raw [0, 0, 0, 0], .raw [0, 0, 0, 0]],
        .unbounded ⟨[0x3B, 3, 0, 0, 0, 1, 0, 0, 0, 2, 0], 9⟩) ∧
    deserialize_object (.seq .vector (.integral 4))
        (.unbounded ⟨[0x3C, 3, 0, 0, 0, 1, 0, 0, 0, 2, 0], 0⟩) =
      some (.seq [], (Reader.unbounded ⟨[0x3C, 3, 0, 0, 0, 1, 0, 0, 0, 2, 0], 0⟩).read_header.2) :=
  ⟨rfl, (C36_sequence_decode_trusts_the_length .vector (.integral 4)
    (.unbounded ⟨[0x3C, 3, 0, 0, 0, 1, 0, 0, 0, 2, 0], 0⟩) (by decide) (by decide)
    (by simp [Reader.sound]) (by decide)).2.2.2 (by decide)⟩

end zeus
